import Mathlib

/-!
Mariani-Silver Mandelbrot renderer: embedding of `src/main.cpp`.

The C++ globals `res`, `blockDim`, `subDiv`, `maxDwell` and `mark` are explicit
arguments.  `unsigned int` values are natural numbers reduced modulo `2 ^ 32`
after every arithmetic operation, `int` values are integers.  The dwell buffer
`std::vector<std::vector<int>>` is a list of rows; the range-checked `.at()`
accesses return `none` where the C++ code would throw `std::out_of_range`.
The operations on `double` in `pixelDwell` are parameters (`Floating`); the
values of `double` in `main` and `createColourMap` are exact rationals.
-/

namespace Mandel

/-! ## Machine arithmetic -/

/-- Reduction of a natural number to the range of `unsigned int`. -/
def wrap (n : Nat) : Nat := n % 2 ^ 32

/-- Unsigned 32-bit subtraction `a - b`. -/
def usub (a b : Nat) : Nat := (a % 2 ^ 32 + 2 ^ 32 - b % 2 ^ 32) % 2 ^ 32

/-- Conversion of an `unsigned int` to `int` (two's complement). -/
def toInt (n : Nat) : Int :=
  if n % 2 ^ 32 < 2 ^ 31 then ((n % 2 ^ 32 : Nat) : Int) else ((n % 2 ^ 32 : Nat) : Int) - 2 ^ 32

/-- Conversion of an `int` to `unsigned int`. -/
def toU32 (z : Int) : Nat := (z % 2 ^ 32).toNat

/-- The sentinel `dwellFill = std::numeric_limits<int>::max()`. -/
def dwellFill : Int := 2 ^ 31 - 1

/-- The sentinel `dwellCompute = std::numeric_limits<int>::max() - 1`. -/
def dwellCompute : Int := 2 ^ 31 - 2

/-! ## Complex numbers and the dwell evaluator -/

/-- A value of `std::complex<double>`, with exact rational components. -/
structure Cplx where
  re : ℚ
  im : ℚ
deriving DecidableEq

/-- The operations on `double` and `std::complex<double>` that `pixelDwell` applies, on values
of `double` taken from `D`.  Their results are fixed by the floating-point arithmetic of the
machine and by the C++ library, not by the program, so they are parameters here. -/
structure Floating (D : Type) where
  /-- The conversion `(double) n` of an `unsigned int`. -/
  ofU32 : Nat → D
  /-- The quotient `a / b` of two `double`. -/
  div : D → D → D
  /-- The product `a * b` of two `double`. -/
  mul : D → D → D
  /-- The sum `a + b` of two `std::complex<double>`. -/
  cadd : D × D → D × D → D × D
  /-- The product `a * b` of two `std::complex<double>`. -/
  cmul : D × D → D × D → D × D
  /-- The test `std::abs(z) < r` for an `int` `r`. -/
  absLt : D × D → Int → Bool

/-- The arithmetic without rounding, on rational numbers.  It gives the results of `double`
arithmetic wherever every value met is a small integer. -/
def exactFloating : Floating ℚ where
  ofU32 n := (n : ℚ)
  div a b := a / b
  mul a b := a * b
  cadd a b := (a.1 + b.1, a.2 + b.2)
  cmul a b := (a.1 * b.1 - a.2 * b.2, a.1 * b.2 + a.2 * b.1)
  absLt z r := decide (0 < r ∧ z.1 * z.1 + z.2 * z.2 < (r : ℚ) * (r : ℚ))

/-- The plane point `c = cmin + std::complex<double>(fx * dc.real(), fy * dc.imag())` of pixel
`(y, x)`, with `fy = (double) y / res` and `fx = (double) x / res`. -/
def planePoint {D : Type} (F : Floating D) (res : Nat) (cmin dc : D × D) (y x : Nat) : D × D :=
  F.cadd cmin
    (F.mul (F.div (F.ofU32 x) (F.ofU32 res)) dc.1, F.mul (F.div (F.ofU32 y) (F.ofU32 res)) dc.2)

/-- The loop `while (dwell < maxDwell && std::abs(z) < (2 * 2)) { z = z * z + c; dwell++; }`
of `pixelDwell`; `fuel` bounds the number of iterations still allowed by `dwell < maxDwell`. -/
def dwellLoop {D : Type} (F : Floating D) (maxDwell : Nat) (c : D × D) : Nat → D × D → Nat → Nat
  | 0, _, dwell => dwell
  | fuel + 1, z, dwell =>
    if dwell < maxDwell ∧ F.absLt z (2 * 2) = true then
      dwellLoop F maxDwell c fuel (F.cadd (F.cmul z z) c) (dwell + 1)
    else dwell

/-- The function `pixelDwell(cmin, dc, y, x)`. -/
def pixelDwell {D : Type} (F : Floating D) (res maxDwell : Nat) (cmin dc : D × D) (y x : Nat) :
    Nat :=
  dwellLoop F maxDwell (planePoint F res cmin dc y x) (maxDwell + 1)
    (planePoint F res cmin dc y x) 0

/-- The type of a dwell evaluator: `cmin`, `dc`, `y`, `x` to an `unsigned int`. -/
abbrev Evaluator := Cplx → Cplx → Nat → Nat → Nat

/-! ## The dwell buffer -/

/-- The dwell buffer `std::vector<std::vector<int>>`. -/
abbrev Grid := List (List Int)

/-- The read `dwellBuffer.at(y).at(x)`; `none` is `std::out_of_range`. -/
def bufAt (g : Grid) (y x : Nat) : Option Int :=
  match g[y]? with
  | none => none
  | some row => row[x]?

/-- The write `dwellBuffer.at(y).at(x) = v`; `none` is `std::out_of_range`. -/
def bufSet (g : Grid) (y x : Nat) (v : Int) : Option Grid :=
  match g[y]? with
  | none => none
  | some row => if x < row.length then some (g.set y (row.set x v)) else none

/-- The buffer `std::vector<std::vector<int>>(res, std::vector<int>(res, -1))` built by `main`. -/
def unsetGrid (res : Nat) : Grid := List.replicate res (List.replicate res (-1))

/-- The content of cell `(y, x)`, with `0` outside the buffer (used in statements only). -/
def cell (g : Grid) (y x : Nat) : Int := (g.getD y []).getD x 0

/-- The buffer has `res` rows of `res` columns. -/
def WF (res : Nat) (g : Grid) : Prop := g.length = res ∧ ∀ row ∈ g, row.length = res

instance (res : Nat) (g : Grid) : Decidable (WF res g) := by
  unfold WF
  infer_instance

/-! ## Block geometry -/

/-- The expression `(res > at + blockSize - 1) ? at + blockSize - 1 : res - 1`. -/
def edgeMax (res a blockSize : Nat) : Nat :=
  if res > usub (wrap (a + blockSize)) 1 then usub (wrap (a + blockSize)) 1 else usub res 1

/-- The expression `(res > at + blockSize) ? at + blockSize : res`. -/
def blockEnd (res a blockSize : Nat) : Nat :=
  if res > wrap (a + blockSize) then wrap (a + blockSize) else res

/-- The row `s % 2 == 0 ? atY + i : (s == 1 ? yMax : atY)` of a border pixel. -/
def borderY (atY yMax i s : Nat) : Nat :=
  if s % 2 = 0 then wrap (atY + i) else (if s = 1 then yMax else atY)

/-- The column `s % 2 != 0 ? atX + i : (s == 0 ? xMax : atX)` of a border pixel. -/
def borderX (atX xMax i s : Nat) : Nat :=
  if s % 2 ≠ 0 then wrap (atX + i) else (if s = 0 then xMax else atX)

/-- The pixels `(y, x)` visited by `for i < blockSize, for s < 4`, in order of visit. -/
def borderWalk (res atY atX blockSize : Nat) : List (Nat × Nat) :=
  (List.range blockSize).flatMap fun i =>
    (List.range 4).map fun s =>
      (borderY atY (edgeMax res atY blockSize) i s, borderX atX (edgeMax res atX blockSize) i s)

/-- The values of `v` in `for (v = lo; v < hi; v++)`. -/
def loopRange (lo hi : Nat) : List Nat := List.range' lo (hi - lo)

/-! ## Border probe, fill, brute force, border marking -/

/-- The body of the two loops of `commonBorder`, run over the remaining border pixels with the
current buffer and `commonDwell`; the early `return -1` ends the walk. -/
def commonBorderFrom (res : Nat) (pd : Evaluator) (cmin dc : Cplx) :
    List (Nat × Nat) → Grid → Int → Option (Grid × Int)
  | [], g, commonDwell => some (g, commonDwell)
  | (y, x) :: rest, g, commonDwell =>
    if y < res ∧ x < res then
      (bufAt g y x).bind fun v =>
      (if v < 0 then bufSet g y x (toInt (pd cmin dc y x)) else some g).bind fun g1 =>
      (bufAt g1 y x).bind fun v1 =>
      if commonDwell = -1 then commonBorderFrom res pd cmin dc rest g1 v1
      else if commonDwell ≠ v1 then some (g1, -1)
      else commonBorderFrom res pd cmin dc rest g1 commonDwell
    else commonBorderFrom res pd cmin dc rest g commonDwell

/-- The function `commonBorder`: the buffer after the probe and the returned verdict. -/
def commonBorder (res : Nat) (pd : Evaluator) (cmin dc : Cplx) (g : Grid)
    (atY atX blockSize : Nat) : Option (Grid × Int) :=
  commonBorderFrom res pd cmin dc (borderWalk res atY atX blockSize) g (-1)

/-- The function `markBorder`. -/
def markBorder (res : Nat) (g : Grid) (dwell : Int) (atY atX blockSize : Nat) : Option Grid :=
  (borderWalk res atY atX blockSize).foldlM
    (fun g p => if p.1 < res ∧ p.2 < res then bufSet g p.1 p.2 dwell else some g) g

/-- The function `computeBlock`. -/
def computeBlock (res : Nat) (pd : Evaluator) (cmin dc : Cplx) (g : Grid)
    (atY atX blockSize omitBorder : Nat) : Option Grid :=
  (loopRange (wrap (atY + omitBorder)) (usub (blockEnd res atY blockSize) omitBorder)).foldlM
    (fun g y =>
      (loopRange (wrap (atX + omitBorder)) (usub (blockEnd res atX blockSize) omitBorder)).foldlM
        (fun g x => bufSet g y x (toInt (pd cmin dc y x))) g) g

/-- The function `threadedComputeBlock`: as `computeBlock`, with `xMax = res`. -/
def threadedComputeBlock (res : Nat) (pd : Evaluator) (cmin dc : Cplx) (g : Grid)
    (atY atX blockSize omitBorder : Nat) : Option Grid :=
  (loopRange (wrap (atY + omitBorder)) (usub (blockEnd res atY blockSize) omitBorder)).foldlM
    (fun g y =>
      (loopRange (wrap (atX + omitBorder)) (usub res omitBorder)).foldlM
        (fun g x => bufSet g y x (toInt (pd cmin dc y x))) g) g

/-- The function `fillBlock`. -/
def fillBlock (res : Nat) (g : Grid) (dwell : Int) (atY atX blockSize omitBorder : Nat) :
    Option Grid :=
  (loopRange (wrap (atY + omitBorder)) (usub (blockEnd res atY blockSize) omitBorder)).foldlM
    (fun g y =>
      (loopRange (wrap (atX + omitBorder)) (usub (blockEnd res atX blockSize) omitBorder)).foldlM
        (fun g x => (bufAt g y x).bind fun v => if v < 0 then bufSet g y x dwell else some g) g) g


/-! ## The sequential strategy -/

/-- The function `marianiSilverOriginal`.  The first argument bounds the depth of the recursion;
`none` is a failed `.at()`, a division by zero or an exhausted depth bound. -/
def marianiSilverOriginal (res blockDim subDiv : Nat) (mark : Bool) (pd : Evaluator)
    (cmin dc : Cplx) : Nat → Grid → Nat → Nat → Nat → Option Grid
  | 0, _, _, _, _ => none
  | fuel + 1, g, atY, atX, blockSize =>
    (commonBorder res pd cmin dc g atY atX blockSize).bind fun r =>
    if r.2 ≥ 0 then
      (fillBlock res r.1 r.2 atY atX blockSize 0).bind fun g2 =>
      if mark then markBorder res g2 dwellFill atY atX blockSize else some g2
    else if blockSize ≤ blockDim then
      (computeBlock res pd cmin dc r.1 atY atX blockSize 0).bind fun g2 =>
      if mark then markBorder res g2 dwellCompute atY atX blockSize else some g2
    else if subDiv = 0 then none
    else
      (List.range subDiv).foldlM
        (fun g ydiv =>
          (List.range subDiv).foldlM
            (fun g xdiv =>
              marianiSilverOriginal res blockDim subDiv mark pd cmin dc fuel g
                (wrap (atY + wrap (ydiv * (blockSize / subDiv))))
                (wrap (atX + wrap (xdiv * (blockSize / subDiv))))
                (blockSize / subDiv)) g) r.1

/-! ## The queue strategy -/

/-- The type `job`; the member `dwellBuffer` refers to the one shared buffer. -/
structure Job where
  dwell : Int
  atY : Nat
  atX : Nat
  blockSize : Nat
  dc : Cplx
  cmin : Cplx
deriving DecidableEq

/-- The state shared by the workers: the dwell buffer and the globals `queue`, `counter`
and `limit`. -/
structure Shared where
  buf : Grid
  queue : List Job
  counter : Int
  limit : Int
deriving DecidableEq

/-- The function `addWork`: `queue.push_back(task)`. -/
def addWork (s : Shared) (task : Job) : Shared := { s with queue := s.queue ++ [task] }

/-- The statement `limit += subDiv * subDiv` on the `atomic<int>`. -/
def raiseLimit (subDiv : Nat) (s : Shared) : Shared :=
  { s with limit := toInt (toU32 (s.limit + toInt (wrap (subDiv * subDiv)))) }

/-- The function `marianiSilverJob`, acting on the shared state. -/
def marianiSilverJob (res blockDim subDiv : Nat) (mark : Bool) (pd : Evaluator) (s : Shared)
    (cmin dc : Cplx) (atY atX blockSize : Nat) : Option Shared :=
  (commonBorder res pd cmin dc s.buf atY atX blockSize).bind fun r =>
  if r.2 ≥ 0 then
    (fillBlock res r.1 r.2 atY atX blockSize 0).bind fun g2 =>
    (if mark then markBorder res g2 dwellFill atY atX blockSize else some g2).map fun g3 =>
    { s with buf := g3 }
  else if blockSize ≤ blockDim then
    (computeBlock res pd cmin dc r.1 atY atX blockSize 0).bind fun g2 =>
    (if mark then markBorder res g2 dwellCompute atY atX blockSize else some g2).map fun g3 =>
    { s with buf := g3 }
  else if subDiv = 0 then none
  else
    some ((List.range subDiv).foldl
      (fun s ydiv =>
        (List.range subDiv).foldl
          (fun s xdiv =>
            addWork s
              { dwell := r.2
                atY := wrap (atY + wrap (ydiv * (blockSize / subDiv)))
                atX := wrap (atX + wrap (xdiv * (blockSize / subDiv)))
                blockSize := blockSize / subDiv
                dc := dc
                cmin := cmin }) s)
      (raiseLimit subDiv { s with buf := r.1 }))

/-- The function `workerWithoutThread`; the first argument bounds the number of loop
iterations. -/
def workerWithoutThread (res blockDim subDiv : Nat) (mark : Bool) (pd : Evaluator) :
    Nat → Shared → Option Shared
  | 0, _ => none
  | fuel + 1, s =>
    match s.queue with
    | [] => some s
    | currentTask :: rest =>
      (marianiSilverJob res blockDim subDiv mark pd { s with queue := rest }
        currentTask.cmin currentTask.dc currentTask.atY currentTask.atX
        currentTask.blockSize).bind
        (workerWithoutThread res blockDim subDiv mark pd fuel)

/-- The initial `currentTask` of `worker`: `job{dwellBuffer, 0, 0, 0, 0, NULL, NULL}`. -/
def emptyTask : Job :=
  { dwell := 0, atY := 0, atX := 0, blockSize := 0, dc := ⟨0, 0⟩, cmin := ⟨0, 0⟩ }

/-- The function `worker`, run by one thread while no other thread changes the shared state.
The first argument bounds the number of iterations of the outer loop.  A wait on the condition
variable with an empty queue and `counter < limit` never ends, which gives `none`. -/
def worker (res blockDim subDiv : Nat) (mark : Bool) (pd : Evaluator) :
    Nat → Shared → Job → Option Shared
  | 0, _, _ => none
  | fuel + 1, s, currentTask =>
    if s.counter < s.limit then
      match s.queue with
      | [] => none
      | front :: rest =>
        (marianiSilverJob res blockDim subDiv mark pd
          { s with queue := rest, counter := toInt (toU32 (s.counter + 1)) }
          front.cmin front.dc front.atY front.atX front.blockSize).bind fun s1 =>
        worker res blockDim subDiv mark pd fuel s1 { front with dwell := currentTask.dwell }
    else some s

/-! ## The top level -/

/-- The conversion of an integral `double` to `unsigned int`, undefined outside the range. -/
def doubleToU32 (z : Int) : Option Nat := if 0 ≤ z ∧ z < 2 ^ 32 then some z.toNat else none

/-- The value `numDiv = std::ceil(std::log((double) res / blockDim) / std::log((double) subDiv))`
of `main`, in exact arithmetic, before its conversion to `unsigned int`. -/
def numDivExact (res blockDim subDiv : Nat) : Int := Int.clog subDiv ((res : ℚ) / (blockDim : ℚ))

/-- The value `correctedBlockSize = std::pow(subDiv, numDiv) * blockDim` of `main`, in exact
arithmetic; `none` where a conversion from `double` to `unsigned int` is undefined. -/
def correctedBlockSize (res blockDim subDiv : Nat) : Option Nat :=
  (doubleToU32 (numDivExact res blockDim subDiv)).bind fun numDiv =>
    doubleToU32 ((subDiv ^ numDiv * blockDim : Nat) : Int)

/-- The branch `if (mariani)` of `main`: the buffer is created, `queue`, `counter` and `limit`
keep their initial values (the calls that enqueue the root job and set `limit = 1` are commented
out), and `numThread` workers are started; they are run one after the other. -/
def mainMariani (res blockDim subDiv : Nat) (mark : Bool) (pd : Evaluator) (numThread fuel : Nat) :
    Option Shared :=
  (List.range numThread).foldlM
    (fun s _ => worker res blockDim subDiv mark pd fuel s emptyTask)
    { buf := unsetGrid res, queue := [], counter := 0, limit := 0 }

/-- The branch `else` of `main` (traditional mode) with `NUM_THREAD = numThread`: the band
computations, which write disjoint rows, are run one after the other. -/
def mainTraditional (res : Nat) (mark : Bool) (pd : Evaluator) (cmin dc : Cplx) (numThread : Nat) :
    Option Grid :=
  if numThread = 0 then none
  else
    ((List.range numThread).foldlM
      (fun g i =>
        threadedComputeBlock res pd cmin dc g (wrap (res / numThread * i)) 0 (res / numThread) 0)
      (unsetGrid res)).bind fun g =>
    if mark then markBorder res g dwellCompute 0 0 res else some g

/-! ## Notions used in the statements -/

/-- The value held by pixel `(y, x)` once it has been given its evaluator value if it was
unset (negative). -/
def memo (pd : Evaluator) (cmin dc : Cplx) (g : Grid) (y x : Nat) : Int :=
  if cell g y x < 0 then toInt (pd cmin dc y x) else cell g y x

/-- The values of `z` computed by the statement `z = z * z + c`, started at `z = c`. -/
def orbit {D : Type} (F : Floating D) (c : D × D) : Nat → D × D
  | 0 => c
  | n + 1 => F.cadd (F.cmul (orbit F c n) (orbit F c n)) c

/-! ## Blocks and the result determined by the evaluator -/

/-- A block: top-left row, top-left column, side length. -/
structure Block where
  atY : Nat
  atX : Nat
  size : Nat
deriving DecidableEq

/-- The parameters of a run: the globals `res`, `blockDim`, `subDiv`, the evaluator and the
plane mapping. -/
structure Run where
  res : Nat
  blockDim : Nat
  subDiv : Nat
  pd : Evaluator
  cmin : Cplx
  dc : Cplx

/-- The side `blockDim * subDiv ^ j` of a block at depth `j` above the minimum block size. -/
def Run.side (R : Run) (j : Nat) : Nat := R.blockDim * R.subDiv ^ j

/-- Cell `(y, x)` lies in the square of block `B`. -/
def InB (B : Block) (y x : Nat) : Prop :=
  B.atY ≤ y ∧ y < B.atY + B.size ∧ B.atX ≤ x ∧ x < B.atX + B.size

instance (B : Block) (y x : Nat) : Decidable (InB B y x) := by
  unfold InB
  infer_instance

/-- Cell `(y, x)` is an in-grid cell of `B` on one of its four edges, the far edges clamped to
the last row and column of the grid. -/
def OnEdge (res : Nat) (B : Block) (y x : Nat) : Prop :=
  InB B y x ∧ y < res ∧ x < res ∧
    (y = B.atY ∨ x = B.atX ∨ y + 1 = min (B.atY + B.size) res ∨ x + 1 = min (B.atX + B.size) res)

/-- Two blocks share no cell. -/
def Apart (B C : Block) : Prop := ∀ y x, ¬ (InB B y x ∧ InB C y x)

/-- The sub-block with indices `(ydiv, xdiv)` built by the Subdivide step. -/
def child (subDiv : Nat) (B : Block) (ydiv xdiv : Nat) : Block :=
  { atY := wrap (B.atY + wrap (ydiv * (B.size / subDiv)))
    atX := wrap (B.atX + wrap (xdiv * (B.size / subDiv)))
    size := B.size / subDiv }

/-- The sub-blocks of the Subdivide step, in the order of the two loops. -/
def children (subDiv : Nat) (B : Block) : List Block :=
  (List.range subDiv).flatMap fun ydiv => (List.range subDiv).map fun xdiv => child subDiv B ydiv xdiv

/-- The verdict of the border probe of `B` on the all-unset buffer. -/
def verdict (R : Run) (B : Block) : Int :=
  ((commonBorder R.res R.pd R.cmin R.dc (unsetGrid R.res) B.atY B.atX B.size).map
    Prod.snd).getD (-1)

/-- The value that the subdivision started at the block `(atY, atX)` of side `R.side j` gives
to cell `(y, x)` of that block: the uniform border value of the first block with a uniform
border met on the way down to the cell, or the evaluator value at the minimum block size. -/
def finalVal (R : Run) : Nat → Nat → Nat → Nat → Nat → Int
  | 0, atY, atX, y, x =>
    if 0 ≤ verdict R ⟨atY, atX, R.side 0⟩ then verdict R ⟨atY, atX, R.side 0⟩
    else toInt (R.pd R.cmin R.dc y x)
  | j + 1, atY, atX, y, x =>
    if 0 ≤ verdict R ⟨atY, atX, R.side (j + 1)⟩ then verdict R ⟨atY, atX, R.side (j + 1)⟩
    else finalVal R j (atY + (y - atY) / R.side j * R.side j)
      (atX + (x - atX) / R.side j * R.side j) y x

/-! ## The invariant of a run -/

/-- In block `B` the only cells already set are edge cells of `B`, holding their evaluator
value. -/
def Pre (R : Run) (B : Block) (g : Grid) : Prop :=
  ∀ y x, InB B y x → y < R.res → x < R.res →
    cell g y x < 0 ∨ (OnEdge R.res B y x ∧ cell g y x = toInt (R.pd R.cmin R.dc y x))

/-- The set cells of the last row and column of the grid hold their evaluator value. -/
def LastOK (R : Run) (g : Grid) : Prop :=
  ∀ y x, y < R.res → x < R.res → (y + 1 = R.res ∨ x + 1 = R.res) →
    cell g y x < 0 ∨ cell g y x = toInt (R.pd R.cmin R.dc y x)

/-- Block `B` is a block of the subdivision of the root of side `R.side k`: its side is
`R.side j` for some `j`, it lies in the root, and the value its subdivision gives to its cells
is the value the subdivision of the root gives them. -/
def Good (R : Run) (k : Nat) (B : Block) : Prop :=
  ∃ j, B.size = R.side j ∧ B.atY + B.size ≤ R.side k ∧ B.atX + B.size ≤ R.side k ∧
    ∀ y x, InB B y x → y < R.res → x < R.res →
      finalVal R j B.atY B.atX y x = finalVal R k 0 0 y x

/-- The invariant of a run with pending blocks `P` and buffer `g`. -/
def GI (R : Run) (k : Nat) (P : List Block) (g : Grid) : Prop :=
  WF R.res g ∧ LastOK R g ∧ (∀ B ∈ P, Good R k B ∧ Pre R B g) ∧ P.Pairwise Apart ∧
    ∀ y x, y < R.res → x < R.res → (∀ B ∈ P, ¬ InB B y x) →
      cell g y x = finalVal R k 0 0 y x

/-- The assumptions on the parameters of a run with a root of side `R.side k`. -/
def Setup (R : Run) (k : Nat) : Prop :=
  1 ≤ R.res ∧ 1 ≤ R.blockDim ∧ 2 ≤ R.subDiv ∧ R.side k < 2 ^ 32 ∧ R.res ≤ R.side k ∧
    ∀ y x, R.pd R.cmin R.dc y x < 2 ^ 31

/-- The block of a job. -/
def blockOf (t : Job) : Block := ⟨t.atY, t.atX, t.blockSize⟩

/-- The number of jobs in the complete subdivision of a block `j` levels above the minimum
block size: a bound on the jobs a queued block can cause. -/
def weight (subDiv : Nat) : Nat → Nat
  | 0 => 1
  | j + 1 => 1 + subDiv * subDiv * weight subDiv j

/-- The sum of the weights of the pending blocks. -/
def cost (R : Run) (P : List Block) : Nat :=
  (P.map fun B => weight R.subDiv (Nat.log R.subDiv (B.size / R.blockDim))).sum

/-- The jobs pushed by the Subdivide step of `marianiSilverJob`. -/
def childJobs (subDiv : Nat) (dwell : Int) (cmin dc : Cplx) (B : Block) : List Job :=
  (List.range subDiv).flatMap fun ydiv => (List.range subDiv).map fun xdiv =>
    { dwell := dwell
      atY := wrap (B.atY + wrap (ydiv * (B.size / subDiv)))
      atX := wrap (B.atX + wrap (xdiv * (B.size / subDiv)))
      blockSize := B.size / subDiv
      dc := dc
      cmin := cmin }

/-! ## Parameters accepted by `main` -/

/-- The assignment `maxDwell = std::max(1, atoi(optarg))` of `main`, for the `int` value `a`
returned by `atoi`. -/
def acceptedMaxDwell (a : Int) : Nat := toU32 (max 1 a)

/-! ## Blocks reached by subdivision -/

/-- Blocks reached from `root` by Subdivide steps: a block larger than `blockDim` hands the
sub-blocks built by the step to the recursion (or to the queue). -/
inductive Reached (blockDim subDiv : Nat) (root : Block) : Block → Prop
  | root : Reached blockDim subDiv root root
  | sub {B C : Block} : Reached blockDim subDiv root B → blockDim < B.size →
      C ∈ children subDiv B → Reached blockDim subDiv root C

/-! ## One iteration of a worker among other workers -/

/-- The scope of `worker` that holds the lock, once the wait loop has ended: if
`counter < limit` the front job is copied into `currentTask` (all members but `dwell`), popped,
and `counter` is incremented. -/
def lockedScope (s : Shared) (currentTask : Job) : Shared × Job :=
  if s.counter < s.limit then
    match s.queue with
    | front :: rest =>
      ({ s with queue := rest, counter := toInt (toU32 (s.counter + 1)) },
        { front with dwell := currentTask.dwell })
    | [] => (s, currentTask)
  else (s, currentTask)

/-- One iteration of the outer loop of `worker`, for the shared state `s` that the thread finds
when it holds the lock and its wait loop has ended (other threads may have changed the state
since the test `counter < limit` of the outer loop).  `none`: the thread is still waiting
(empty queue and `counter < limit`), or a `.at()` fails.  The call of `marianiSilverJob`
follows the locked scope, whether or not a job was popped. -/
def workerIteration (res blockDim subDiv : Nat) (mark : Bool) (pd : Evaluator) (s : Shared)
    (currentTask : Job) : Option (Shared × Job) :=
  if s.queue = [] ∧ s.counter < s.limit then none
  else
    (marianiSilverJob res blockDim subDiv mark pd (lockedScope s currentTask).1
      (lockedScope s currentTask).2.cmin (lockedScope s currentTask).2.dc
      (lockedScope s currentTask).2.atY (lockedScope s currentTask).2.atX
      (lockedScope s currentTask).2.blockSize).map
      fun s1 => (s1, (lockedScope s currentTask).2)

/-! ## The workers as interleaved steps -/

/-- The position of a worker thread in `worker` or in the `marianiSilverJob` it has called. -/
inductive Pc where
  /-- At the test of `while (counter < limit)`. -/
  | loopTest
  /-- At `unique_lock<mutex> lck(mutexVariable2)`, or inside `myCv.wait(lck)`: the worker goes
  on once it gets the mutex. -/
  | lock
  /-- Holding the mutex, at the test of `while (queue.empty() && counter < limit)`. -/
  | waitTest
  /-- Holding the mutex, at `if (counter < limit)`. -/
  | popTest
  /-- At the call of `marianiSilverJob`. -/
  | job
  /-- In the Subdivide branch of `marianiSilverJob` at `limit += subDiv * subDiv`, where
  `dwell` is the value returned by `commonBorder`. -/
  | raise (dwell : Int)
  /-- In the two loops of the Subdivide branch, at the call of `addWork` for the first of the
  jobs `rest` that the loops have still to push. -/
  | push (rest : List Job)
  /-- After the loop of `worker`. -/
  | done
deriving DecidableEq

/-- The locals of a worker thread: its position and `currentTask`. -/
structure Local where
  pc : Pc
  currentTask : Job
deriving DecidableEq

/-- The state of the queue strategy: the shared state, whether `mutexVariable2` is held (by
the worker at `waitTest` or `popTest`), and the locals of the workers. -/
structure World where
  shared : Shared
  held : Bool
  locals : List Local
deriving DecidableEq

/-- The result of a step: the thread cannot move (it waits for the mutex or has returned), the
step has undefined behaviour or throws (`queue.front()` on an empty deque, a failed `.at()`, a
division by zero), or the state after the step. -/
inductive Outcome (α : Type) where
  | blocked : Outcome α
  | undefined : Outcome α
  | next (a : α) : Outcome α
deriving DecidableEq

/-- The position after `addWork` of the first of the jobs the loops have still to push. -/
def afterPush (rest : List Job) : Pc :=
  match rest with
  | [] => Pc.loopTest
  | _ :: _ => Pc.push rest

/-- One step of a worker with locals `l` on the shared state `s`.  The steps are the
statements of `worker`, `marianiSilverJob` and `addWork` in program order.  A comparison
`counter < limit` reads both atomics at once; `myCv.wait` releases the mutex and returns when
the worker gets it again; the statements under the mutex after a test (`queue.front()`,
`pop_front`, `counter++`, or `push_back`) are one step; the calls that touch only the buffer
(`commonBorder`, then `fillBlock` or `computeBlock`, and `markBorder`) are one step. -/
def localStep (res blockDim subDiv : Nat) (mark : Bool) (pd : Evaluator) (s : Shared)
    (held : Bool) (l : Local) : Outcome (Shared × Bool × Local) :=
  match l.pc with
  | Pc.loopTest =>
    if s.counter < s.limit then Outcome.next (s, held, { l with pc := Pc.lock })
    else Outcome.next (s, held, { l with pc := Pc.done })
  | Pc.lock =>
    if held then Outcome.blocked else Outcome.next (s, true, { l with pc := Pc.waitTest })
  | Pc.waitTest =>
    if s.queue = [] ∧ s.counter < s.limit then Outcome.next (s, false, { l with pc := Pc.lock })
    else Outcome.next (s, held, { l with pc := Pc.popTest })
  | Pc.popTest =>
    if s.counter < s.limit then
      match s.queue with
      | [] => Outcome.undefined
      | front :: rest =>
        Outcome.next
          ({ s with queue := rest, counter := toInt (toU32 (s.counter + 1)) }, false,
            { pc := Pc.job, currentTask := { front with dwell := l.currentTask.dwell } })
    else Outcome.next (s, false, { l with pc := Pc.job })
  | Pc.job =>
    match commonBorder res pd l.currentTask.cmin l.currentTask.dc s.buf l.currentTask.atY
        l.currentTask.atX l.currentTask.blockSize with
    | none => Outcome.undefined
    | some r =>
      if r.2 ≥ 0 then
        match (fillBlock res r.1 r.2 l.currentTask.atY l.currentTask.atX
            l.currentTask.blockSize 0).bind fun g2 =>
            if mark then
              markBorder res g2 dwellFill l.currentTask.atY l.currentTask.atX
                l.currentTask.blockSize
            else some g2 with
        | none => Outcome.undefined
        | some g3 => Outcome.next ({ s with buf := g3 }, held, { l with pc := Pc.loopTest })
      else if l.currentTask.blockSize ≤ blockDim then
        match (computeBlock res pd l.currentTask.cmin l.currentTask.dc r.1 l.currentTask.atY
            l.currentTask.atX l.currentTask.blockSize 0).bind fun g2 =>
            if mark then
              markBorder res g2 dwellCompute l.currentTask.atY l.currentTask.atX
                l.currentTask.blockSize
            else some g2 with
        | none => Outcome.undefined
        | some g3 => Outcome.next ({ s with buf := g3 }, held, { l with pc := Pc.loopTest })
      else Outcome.next ({ s with buf := r.1 }, held, { l with pc := Pc.raise r.2 })
  | Pc.raise dwell =>
    if subDiv = 0 then Outcome.undefined
    else
      Outcome.next (raiseLimit subDiv s, held,
        { l with pc := afterPush (childJobs subDiv dwell l.currentTask.cmin l.currentTask.dc
            (blockOf l.currentTask)) })
  | Pc.push [] => Outcome.next (s, held, { l with pc := Pc.loopTest })
  | Pc.push (task :: rest) =>
    if held then Outcome.blocked
    else Outcome.next (addWork s task, held, { l with pc := afterPush rest })
  | Pc.done => Outcome.blocked

/-- One step of worker `i`. -/
def workerStep (res blockDim subDiv : Nat) (mark : Bool) (pd : Evaluator) (w : World) (i : Nat) :
    Outcome World :=
  match w.locals[i]? with
  | none => Outcome.blocked
  | some l =>
    match localStep res blockDim subDiv mark pd w.shared w.held l with
    | Outcome.blocked => Outcome.blocked
    | Outcome.undefined => Outcome.undefined
    | Outcome.next r => Outcome.next ⟨r.1, r.2.1, w.locals.set i r.2.2⟩

/-- The states reached from `w0` by steps of the workers, in any interleaving, each step taken
from a state `w` by a worker `i` with `ok w i`. -/
inductive Reachable (res blockDim subDiv : Nat) (mark : Bool) (pd : Evaluator)
    (ok : World → Nat → Prop) (w0 : World) : World → Prop
  | init : Reachable res blockDim subDiv mark pd ok w0 w0
  | step {w w' : World} (i : Nat) : Reachable res blockDim subDiv mark pd ok w0 w → ok w i →
      workerStep res blockDim subDiv mark pd w i = Outcome.next w' →
      Reachable res blockDim subDiv mark pd ok w0 w'

/-- The start of the queue strategy with `n` workers: the root job enqueued, `limit = 1`,
`counter = 0`, every worker at the start of `worker`. -/
def startWorld (g0 : Grid) (root : Job) (n : Nat) : World :=
  { shared := { buf := g0, queue := [root], counter := 0, limit := 1 }
    held := false
    locals := List.replicate n { pc := Pc.loopTest, currentTask := emptyTask } }

/-- The condition "if worker `i` is at `limit += subDiv * subDiv`, the sum does not overflow
`int`". -/
def noOverflow (subDiv : Nat) (w : World) (i : Nat) : Prop :=
  ∀ l dwell, w.locals[i]? = some l → l.pc = Pc.raise dwell →
    w.shared.limit + ((subDiv * subDiv : Nat) : Int) < 2 ^ 31

/-- The number of jobs that the loops of the Subdivide branch a worker is in have still to
push. -/
def pending (l : Local) : Nat :=
  match l.pc with
  | Pc.push rest => rest.length
  | _ => 0

/-- The number of jobs that the workers inside the loops of a Subdivide branch have still to
push. -/
def pendingPushes (w : World) : Nat := (w.locals.map pending).sum

/-- The state after the workers `sched` have taken one step each, in this order, none of them
from a state with `limit + subDiv * subDiv ≥ 2 ^ 31`. -/
def runSchedule (res blockDim subDiv : Nat) (mark : Bool) (pd : Evaluator) :
    List Nat → World → Outcome World
  | [], w => Outcome.next w
  | i :: sched, w =>
    if w.shared.limit + ((subDiv * subDiv : Nat) : Int) < 2 ^ 31 then
      match workerStep res blockDim subDiv mark pd w i with
      | Outcome.next w' => runSchedule res blockDim subDiv mark pd sched w'
      | Outcome.blocked => Outcome.blocked
      | Outcome.undefined => Outcome.undefined
    else Outcome.blocked

/-! ## The sequential strategy with a record of its steps -/

/-- The kinds of step of the subdivider. -/
inductive OpKind where
  | probe
  | fill
  | bruteForce
  | mark
  | subdivide
deriving DecidableEq

/-- A recorded step: its kind, the block, and the buffer before and after the call
(`commonBorder`, `fillBlock`, `computeBlock`, `markBorder`; a Subdivide step itself leaves the
buffer as it is). -/
structure Event where
  kind : OpKind
  atY : Nat
  atX : Nat
  blockSize : Nat
  before : Grid
  after : Grid

/-- The function `marianiSilverOriginal`, returning with the buffer the list of the steps it
performed, in order. -/
def marianiSilverOriginalLog (res blockDim subDiv : Nat) (mark : Bool) (pd : Evaluator)
    (cmin dc : Cplx) : Nat → Grid → Nat → Nat → Nat → Option (Grid × List Event)
  | 0, _, _, _, _ => none
  | fuel + 1, g, atY, atX, blockSize =>
    (commonBorder res pd cmin dc g atY atX blockSize).bind fun r =>
    if r.2 ≥ 0 then
      (fillBlock res r.1 r.2 atY atX blockSize 0).bind fun g2 =>
      if mark then
        (markBorder res g2 dwellFill atY atX blockSize).map fun g3 =>
          (g3, [⟨OpKind.probe, atY, atX, blockSize, g, r.1⟩,
            ⟨OpKind.fill, atY, atX, blockSize, r.1, g2⟩,
            ⟨OpKind.mark, atY, atX, blockSize, g2, g3⟩])
      else
        some (g2, [⟨OpKind.probe, atY, atX, blockSize, g, r.1⟩,
          ⟨OpKind.fill, atY, atX, blockSize, r.1, g2⟩])
    else if blockSize ≤ blockDim then
      (computeBlock res pd cmin dc r.1 atY atX blockSize 0).bind fun g2 =>
      if mark then
        (markBorder res g2 dwellCompute atY atX blockSize).map fun g3 =>
          (g3, [⟨OpKind.probe, atY, atX, blockSize, g, r.1⟩,
            ⟨OpKind.bruteForce, atY, atX, blockSize, r.1, g2⟩,
            ⟨OpKind.mark, atY, atX, blockSize, g2, g3⟩])
      else
        some (g2, [⟨OpKind.probe, atY, atX, blockSize, g, r.1⟩,
          ⟨OpKind.bruteForce, atY, atX, blockSize, r.1, g2⟩])
    else if subDiv = 0 then none
    else
      (List.range subDiv).foldlM
        (fun st ydiv =>
          (List.range subDiv).foldlM
            (fun st xdiv =>
              (marianiSilverOriginalLog res blockDim subDiv mark pd cmin dc fuel st.1
                (wrap (atY + wrap (ydiv * (blockSize / subDiv))))
                (wrap (atX + wrap (xdiv * (blockSize / subDiv))))
                (blockSize / subDiv)).map fun r' => (r'.1, st.2 ++ r'.2)) st)
        (r.1, [⟨OpKind.probe, atY, atX, blockSize, g, r.1⟩,
          ⟨OpKind.subdivide, atY, atX, blockSize, r.1, r.1⟩])

/-- Every cell that holds a value `≥ 0` in `g` holds the same value in `g'`. -/
def KeepsSet (g g' : Grid) : Prop := ∀ y x, 0 ≤ cell g y x → cell g' y x = cell g y x

/-! ## The border probe with four edge workers -/

/-- The function `threadedCommonBorder`, run without interruption by another worker: the
buffer and the shared `commonDwell` after the call. -/
def threadedCommonBorder (res : Nat) (pd : Evaluator) (cmin dc : Cplx)
    (i s yMax xMax atY atX : Nat) (g : Grid) (commonDwell : Int) : Option (Grid × Int) :=
  if borderY atY yMax i s < res ∧ borderX atX xMax i s < res then
    (bufAt g (borderY atY yMax i s) (borderX atX xMax i s)).bind fun v =>
    (if v < 0 then
        bufSet g (borderY atY yMax i s) (borderX atX xMax i s)
          (toInt (pd cmin dc (borderY atY yMax i s) (borderX atX xMax i s)))
      else some g).bind fun g1 =>
    (bufAt g1 (borderY atY yMax i s) (borderX atX xMax i s)).bind fun v1 =>
    if commonDwell = -1 then some (g1, v1)
    else if commonDwell ≠ v1 then some (g1, -2)
    else some (g1, commonDwell)
  else some (g, commonDwell)

/-- The rounds `i` of `multipleThreadCommonBorder` that remain.  In round `i` the four workers
`s < 4` run one after another in the order `order i`; after the join a `commonDwell` of `-2`
is returned. -/
def multipleThreadCommonBorderFrom (res : Nat) (pd : Evaluator) (cmin dc : Cplx)
    (order : Nat → List Nat) (yMax xMax atY atX : Nat) :
    List Nat → Grid → Int → Option (Grid × Int)
  | [], g, commonDwell => some (g, commonDwell)
  | i :: rest, g, commonDwell =>
    ((order i).foldlM
      (fun st s => threadedCommonBorder res pd cmin dc i s yMax xMax atY atX st.1 st.2)
      (g, commonDwell)).bind fun st =>
    if st.2 = -2 then some st
    else multipleThreadCommonBorderFrom res pd cmin dc order yMax xMax atY atX rest st.1 st.2

/-- The function `multipleThreadCommonBorder`: the buffer after the probe and the returned
verdict, the workers of round `i` running in the order `order i`. -/
def multipleThreadCommonBorder (res : Nat) (pd : Evaluator) (cmin dc : Cplx)
    (order : Nat → List Nat) (g : Grid) (atY atX blockSize : Nat) : Option (Grid × Int) :=
  multipleThreadCommonBorderFrom res pd cmin dc order (edgeMax res atY blockSize)
    (edgeMax res atX blockSize) atY atX (List.range blockSize) g (-1)

/-- The function `marianiSilverWithThreadedCommonBorder`.  The first argument bounds the depth
of the recursion; `order atY atX blockSize i` is the order in which the workers of round `i` of
the probe of block `(atY, atX, blockSize)` run. -/
def marianiSilverWithThreadedCommonBorder (res blockDim subDiv : Nat) (mark : Bool)
    (pd : Evaluator) (order : Nat → Nat → Nat → Nat → List Nat) (cmin dc : Cplx) :
    Nat → Grid → Nat → Nat → Nat → Option Grid
  | 0, _, _, _, _ => none
  | fuel + 1, g, atY, atX, blockSize =>
    (multipleThreadCommonBorder res pd cmin dc (order atY atX blockSize) g atY atX
      blockSize).bind fun r =>
    if r.2 ≥ 0 then
      (fillBlock res r.1 r.2 atY atX blockSize 0).bind fun g2 =>
      if mark then markBorder res g2 dwellFill atY atX blockSize else some g2
    else if blockSize ≤ blockDim then
      (computeBlock res pd cmin dc r.1 atY atX blockSize 0).bind fun g2 =>
      if mark then markBorder res g2 dwellCompute atY atX blockSize else some g2
    else if subDiv = 0 then none
    else
      (List.range subDiv).foldlM
        (fun g ydiv =>
          (List.range subDiv).foldlM
            (fun g xdiv =>
              marianiSilverWithThreadedCommonBorder res blockDim subDiv mark pd order cmin dc
                fuel g (wrap (atY + wrap (ydiv * (blockSize / subDiv))))
                (wrap (atX + wrap (xdiv * (blockSize / subDiv))))
                (blockSize / subDiv)) g) r.1

/-- The shared `commonDwell` after visits of the pixels `L`, in terms of the values the
pixels have once memoised in the buffer `g`: `-1` when no pixel of `L` is in the grid, the
common value of the in-grid pixels, or `-2` when two of them differ. -/
def Tally (res : Nat) (pd : Evaluator) (cmin dc : Cplx) (g : Grid) (L : List (Nat × Nat))
    (commonDwell : Int) : Prop :=
  (commonDwell = -1 ∧ ∀ p ∈ L, ¬ (p.1 < res ∧ p.2 < res)) ∨
    (0 ≤ commonDwell ∧ (∃ p ∈ L, p.1 < res ∧ p.2 < res) ∧
      ∀ p ∈ L, p.1 < res → p.2 < res → memo pd cmin dc g p.1 p.2 = commonDwell) ∨
    (commonDwell = -2 ∧ ∃ p ∈ L, ∃ q ∈ L, p.1 < res ∧ p.2 < res ∧ q.1 < res ∧ q.2 < res ∧
      memo pd cmin dc g p.1 p.2 ≠ memo pd cmin dc g q.1 q.2)

/-! ## The colour table -/

/-- The three channel values of a colour of type `rgb`. -/
structure Rgb where
  r : Int
  g : Int
  b : Int
deriving DecidableEq

/-- The arguments `(colour.r + blend * r, colour.g + blend * g, colour.b + blend * b, 255)`
handed to the constructor of `rgba` for an entry of the table `colours`, in exact
arithmetic. -/
structure Rgba where
  r : ℚ
  g : ℚ
  b : ℚ
  a : ℚ
deriving DecidableEq

/-- The initial value of the global `colourGradient`. -/
def colourGradient : List (ℚ × Rgb) :=
  [(0, ⟨0, 0, 0⟩), (3 / 100, ⟨0, 7, 100⟩), (16 / 100, ⟨32, 107, 203⟩),
    (42 / 100, ⟨237, 255, 255⟩), (64 / 100, ⟨255, 170, 0⟩), (86 / 100, ⟨0, 2, 0⟩),
    (1, ⟨0, 0, 0⟩)]

/-- The statement `if (colourGradient.size() == 0 || colourGradient.back().first != 1.0)
colourGradient.push_back({1.0, {0,0,0}})` of `createColourMap`. -/
def closeGradient (gradient : List (ℚ × Rgb)) : List (ℚ × Rgb) :=
  if gradient.length = 0 ∨ gradient.getLast?.map Prod.fst ≠ some 1 then
    gradient ++ [(1, ⟨0, 0, 0⟩)]
  else gradient

/-- The state of the loop of `createColourMap`: the table `colours` and the locals `pos` and
`colour`. -/
structure MapState where
  colours : List Rgba
  pos : ℚ
  colour : Rgb

/-- The body of the loop `for (auto &gradient : colourGradient)` of `createColourMap`. -/
def gradientStep (maxDwell : Nat) (st : MapState) (gradient : ℚ × Rgb) : MapState :=
  let r : Int := gradient.2.r - st.colour.r
  let g : Int := gradient.2.g - st.colour.g
  let b : Int := gradient.2.b - st.colour.b
  let max : Nat := toU32 (Int.ceil ((maxDwell : ℚ) * (gradient.1 - st.pos)))
  { colours := st.colours ++ (List.range max).map fun i =>
      ⟨(st.colour.r : ℚ) + ((i : ℚ) / (max : ℚ)) * (r : ℚ),
        (st.colour.g : ℚ) + ((i : ℚ) / (max : ℚ)) * (g : ℚ),
        (st.colour.b : ℚ) + ((i : ℚ) / (max : ℚ)) * (b : ℚ), 255⟩
    pos := gradient.1
    colour := gradient.2 }

/-- The function `createColourMap(maxDwell)`: the table `colours` after the call, for the
table `colours` before it. -/
def createColourMap (maxDwell : Nat) (colours : List Rgba) : List Rgba :=
  ((closeGradient colourGradient).foldl (gradientStep maxDwell) ⟨colours, 0, ⟨0, 0, 0⟩⟩).colours

/-- The result of `dwellColor`: one of the two border colours or an entry of the table. -/
inductive PixelColour where
  | borderFill
  | borderCompute
  | entry (c : Rgba)
deriving DecidableEq

/-- The function `dwellColor` for the table `colours`; `index` stands for the value of
`dwell + 1 - std::log(std::log(std::abs(z)) / log2)` converted to `unsigned int`.  The result
`none` is the failed assertion `colours.size() > 0`. -/
def dwellColor (colours : List Rgba) (index : Nat) (dwell : Nat) : Option PixelColour :=
  if colours.length > 0 then
    if dwell = toU32 dwellFill then some PixelColour.borderFill
    else if dwell = toU32 dwellCompute then some PixelColour.borderCompute
    else (colours[index % colours.length]?).map PixelColour.entry
  else none

/-- The call `createColourMap(maxDwell / colourIterations)` of `main`, on the empty global
`colours`. -/
def mainColourMap (maxDwell colourIterations : Nat) : List Rgba :=
  createColourMap (wrap (maxDwell / colourIterations)) []

/-! ## The invariant of a run with border marking -/

/-- Block `C` lies to the right of `B` where their rows overlap and below `B` where their
columns overlap, as a block that the two loops of the Subdivide step visit after `B`. -/
def Ahead (B C : Block) : Prop :=
  (∀ y, B.atY ≤ y → y < B.atY + B.size → C.atY ≤ y → y < C.atY + C.size →
      B.atX + B.size ≤ C.atX) ∧
    (∀ x, B.atX ≤ x → x < B.atX + B.size → C.atX ≤ x → x < C.atX + C.size →
      B.atY + B.size ≤ C.atY)

/-- The invariant of a run with border marking, with pending blocks `P` in the order of their
visits and buffer `g`: a pending block is as in a run without marking, and a cell of no pending
block holds its final value or a border sentinel. -/
def GM (R : Run) (k : Nat) (P : List Block) (g : Grid) : Prop :=
  WF R.res g ∧ (∀ B ∈ P, Good R k B ∧ Pre R B g) ∧ P.Pairwise Ahead ∧
    ∀ y x, y < R.res → x < R.res → (∀ B ∈ P, ¬ InB B y x) →
      cell g y x = finalVal R k 0 0 y x ∨ cell g y x = dwellFill ∨ cell g y x = dwellCompute

/-! ## Basic facts on machine arithmetic and the buffer -/

theorem wrap_of_lt {n : Nat} (h : n < 2 ^ 32) : wrap n = n := Nat.mod_eq_of_lt h

theorem usub_zero {a : Nat} (h : a < 2 ^ 32) : usub a 0 = a := by
  unfold usub
  omega

theorem usub_one {a : Nat} (h0 : 1 ≤ a) (h : a < 2 ^ 32) : usub a 1 = a - 1 := by
  unfold usub
  omega

theorem toInt_of_lt {n : Nat} (h : n < 2 ^ 31) : toInt n = (n : Int) := by
  unfold toInt
  have h1 : n % 2 ^ 32 = n := Nat.mod_eq_of_lt (by omega)
  rw [h1, if_pos h]

theorem toInt_nonneg_of_lt {n : Nat} (h : n < 2 ^ 31) : 0 ≤ toInt n := by
  rw [toInt_of_lt h]
  exact Int.natCast_nonneg n

theorem cell_eq_of_getElem? {g : Grid} {y x : Nat} {row : List Int} {v : Int}
    (h1 : g[y]? = some row) (h2 : row[x]? = some v) : cell g y x = v := by
  simp [cell, List.getD_eq_getElem?_getD, h1, h2]

theorem bufAt_eq {res : Nat} {g : Grid} (hg : WF res g) {y x : Nat} (hy : y < res)
    (hx : x < res) : bufAt g y x = some (cell g y x) := by
  obtain ⟨hlen, hrows⟩ := hg
  have hy' : y < g.length := by omega
  have h1 : g[y]? = some g[y] := List.getElem?_eq_getElem hy'
  have hrow : (g[y]).length = res := hrows _ (List.getElem_mem hy')
  have hx' : x < (g[y]).length := by omega
  have h2 : (g[y])[x]? = some (g[y])[x] := List.getElem?_eq_getElem hx'
  rw [cell_eq_of_getElem? h1 h2]
  simp [bufAt, h1, h2]

theorem bufSet_spec {res : Nat} {g : Grid} (hg : WF res g) {y x : Nat} (hy : y < res)
    (hx : x < res) (v : Int) :
    ∃ g', bufSet g y x v = some g' ∧ WF res g' ∧
      ∀ y' x', cell g' y' x' = if y' = y ∧ x' = x then v else cell g y' x' := by
  obtain ⟨hlen, hrows⟩ := hg
  have hy' : y < g.length := by omega
  have h1 : g[y]? = some g[y] := List.getElem?_eq_getElem hy'
  have hrow : (g[y]).length = res := hrows _ (List.getElem_mem hy')
  have hx' : x < (g[y]).length := by omega
  refine ⟨g.set y ((g[y]).set x v), ?_, ⟨?_, ?_⟩, ?_⟩
  · simp [bufSet, h1, hx']
  · simp [hlen]
  · intro row hrow'
    rcases List.mem_or_eq_of_mem_set hrow' with h | h
    · exact hrows _ h
    · rw [h]; simp [hrow]
  · intro y' x'
    unfold cell
    simp only [List.getD_eq_getElem?_getD, List.getElem?_set]
    by_cases hyy : y = y'
    · subst hyy
      simp only [if_true, hy', true_and, Option.getD_some, List.getElem?_set]
      by_cases hxx : x = x'
      · subst hxx
        simp [hx']
      · have : ¬ (x' = x) := fun h => hxx h.symm
        simp [hxx, this, h1]
    · have : ¬ (y' = y) := fun h => hyy h.symm
      simp [hyy, this]

theorem grid_ext {res : Nat} {g g' : Grid} (hg : WF res g) (hg' : WF res g')
    (h : ∀ y x, y < res → x < res → cell g y x = cell g' y x) : g = g' := by
  obtain ⟨hlen, hrows⟩ := hg
  obtain ⟨hlen', hrows'⟩ := hg'
  apply List.ext_getElem (by omega)
  intro y hy hy'
  have r1 : (g[y]).length = res := hrows _ (List.getElem_mem hy)
  have r2 : (g'[y]).length = res := hrows' _ (List.getElem_mem hy')
  apply List.ext_getElem (by omega)
  intro x hx hx'
  have e1 := cell_eq_of_getElem? (List.getElem?_eq_getElem hy) (List.getElem?_eq_getElem hx)
  have e2 := cell_eq_of_getElem? (List.getElem?_eq_getElem hy') (List.getElem?_eq_getElem hx')
  rw [← e1, ← e2]
  exact h y x (by omega) (by omega)

theorem WF_unsetGrid (res : Nat) : WF res (unsetGrid res) := by
  refine ⟨by simp [unsetGrid], ?_⟩
  intro row hrow
  rw [unsetGrid] at hrow
  rw [List.eq_of_mem_replicate hrow]
  simp

theorem cell_unsetGrid {res y x : Nat} (hy : y < res) (hx : x < res) :
    cell (unsetGrid res) y x = -1 := by
  apply @cell_eq_of_getElem? _ _ _ (List.replicate res (-1))
  · simp [unsetGrid, List.getElem?_replicate, hy]
  · simp [List.getElem?_replicate, hx]

/-! ## The border probe -/

theorem memo_nonneg {pd : Evaluator} {cmin dc : Cplx} (hpd : ∀ y x, pd cmin dc y x < 2 ^ 31)
    (g : Grid) (y x : Nat) : 0 ≤ memo pd cmin dc g y x := by
  unfold memo
  split
  · exact toInt_nonneg_of_lt (hpd y x)
  · omega

/-- One memoising visit of an in-grid pixel: the buffer afterwards. -/
theorem probe_step {res : Nat} (pd : Evaluator) (cmin dc : Cplx) {g : Grid} (hg : WF res g)
    {y x : Nat} (hy : y < res) (hx : x < res) :
    ∃ g1, (if cell g y x < 0 then bufSet g y x (toInt (pd cmin dc y x)) else some g) = some g1 ∧
      WF res g1 ∧ cell g1 y x = memo pd cmin dc g y x ∧
      ∀ y' x', cell g1 y' x' = cell g y' x' ∨
        (y' = y ∧ x' = x ∧ cell g y x < 0 ∧ cell g1 y' x' = toInt (pd cmin dc y x)) := by
  by_cases hv : cell g y x < 0
  · obtain ⟨g1, h1, hw, hc⟩ := bufSet_spec hg hy hx (toInt (pd cmin dc y x))
    refine ⟨g1, by simp [hv, h1], hw, ?_, ?_⟩
    · simp [hc, memo, hv]
    · intro y' x'
      rw [hc]
      by_cases h : y' = y ∧ x' = x
      · right
        simp [h, hv]
      · left
        simp [h]
  · refine ⟨g, by simp [hv], hg, by simp [memo, hv], fun _ _ => Or.inl rfl⟩

theorem commonBorderFrom_spec {res : Nat} {pd : Evaluator} {cmin dc : Cplx}
    (hpd : ∀ y x, pd cmin dc y x < 2 ^ 31) :
    ∀ (L : List (Nat × Nat)) (g : Grid) (cd : Int), WF res g → (cd = -1 ∨ 0 ≤ cd) →
      ∃ g' r, commonBorderFrom res pd cmin dc L g cd = some (g', r) ∧ WF res g' ∧
        (∀ y x, cell g' y x = cell g y x ∨
          ((y, x) ∈ L ∧ y < res ∧ x < res ∧ cell g y x < 0 ∧
            cell g' y x = toInt (pd cmin dc y x))) ∧
        ((0 ≤ r ∧ (∀ p ∈ L, p.1 < res → p.2 < res → cell g' p.1 p.2 = r) ∧
            (0 ≤ cd → r = cd) ∧ (cd = -1 → ∃ p ∈ L, p.1 < res ∧ p.2 < res)) ∨
          (r = -1 ∧
            ((cd = -1 ∧ ∀ p ∈ L, ¬ (p.1 < res ∧ p.2 < res)) ∨
              (∃ p ∈ L, p.1 < res ∧ p.2 < res ∧ 0 ≤ cd ∧ memo pd cmin dc g p.1 p.2 ≠ cd) ∨
              (∃ p ∈ L, ∃ q ∈ L, p.1 < res ∧ p.2 < res ∧ q.1 < res ∧ q.2 < res ∧
                memo pd cmin dc g p.1 p.2 ≠ memo pd cmin dc g q.1 q.2)))) := by
  intro L
  induction L with
  | nil =>
    intro g cd hg hcd
    refine ⟨g, cd, rfl, hg, fun _ _ => Or.inl rfl, ?_⟩
    rcases hcd with h | h
    · right
      exact ⟨h, Or.inl ⟨h, by simp⟩⟩
    · left
      refine ⟨h, by simp, fun _ => rfl, ?_⟩
      intro h'
      omega
  | cons p rest ih =>
    intro g cd hg hcd
    obtain ⟨y, x⟩ := p
    by_cases hin : y < res ∧ x < res
    · obtain ⟨hy, hx⟩ := hin
      obtain ⟨g1, e1, hw1, hc1, hf1⟩ := probe_step pd cmin dc hg hy hx
      have hv1 : 0 ≤ cell g1 y x := by
        rw [hc1]
        exact memo_nonneg hpd g y x
      have hmemo : ∀ y' x', memo pd cmin dc g1 y' x' = memo pd cmin dc g y' x' := by
        intro y' x'
        rcases hf1 y' x' with h | ⟨h1, h2, h3, h4⟩
        · simp [memo, h]
        · subst h1; subst h2
          unfold memo
          rw [if_neg (by omega), if_pos h3, h4]
      have unf : commonBorderFrom res pd cmin dc ((y, x) :: rest) g cd =
          (if cd = -1 then commonBorderFrom res pd cmin dc rest g1 (cell g1 y x)
            else if cd ≠ cell g1 y x then some (g1, -1)
            else commonBorderFrom res pd cmin dc rest g1 cd) := by
        simp only [commonBorderFrom, hy, hx, and_self, if_true, bufAt_eq hg hy hx,
          Option.some_bind, e1, bufAt_eq hw1 hy hx]
      have frame : ∀ (g' : Grid),
          (∀ y' x', cell g' y' x' = cell g1 y' x' ∨
            ((y', x') ∈ rest ∧ y' < res ∧ x' < res ∧ cell g1 y' x' < 0 ∧
              cell g' y' x' = toInt (pd cmin dc y' x'))) →
          ∀ y' x', cell g' y' x' = cell g y' x' ∨
            ((y', x') ∈ (y, x) :: rest ∧ y' < res ∧ x' < res ∧ cell g y' x' < 0 ∧
              cell g' y' x' = toInt (pd cmin dc y' x')) := by
        intro g' hA y' x'
        rcases hA y' x' with h | ⟨m, b1, b2, b3, b4⟩
        · rcases hf1 y' x' with h' | ⟨c1, c2, c3, c4⟩
          · left; rw [h, h']
          · right
            subst c1; subst c2
            exact ⟨List.mem_cons_self _ _, hy, hx, c3, by rw [h, c4]⟩
        · rcases hf1 y' x' with h' | ⟨c1, c2, c3, c4⟩
          · right
            exact ⟨List.mem_cons_of_mem _ m, b1, b2, by rw [← h']; exact b3, b4⟩
          · subst c1; subst c2
            omega
      have keep : ∀ (g' : Grid),
          (∀ y' x', cell g' y' x' = cell g1 y' x' ∨
            ((y', x') ∈ rest ∧ y' < res ∧ x' < res ∧ cell g1 y' x' < 0 ∧
              cell g' y' x' = toInt (pd cmin dc y' x'))) → cell g' y x = cell g1 y x := by
        intro g' hA
        rcases hA y x with h | ⟨_, _, _, b3, _⟩
        · exact h
        · omega
      by_cases hcd1 : cd = -1
      · obtain ⟨g', r, e, hw, hA, hB⟩ := ih g1 (cell g1 y x) hw1 (Or.inr hv1)
        refine ⟨g', r, by rw [unf, if_pos hcd1, e], hw, frame g' hA, ?_⟩
        rcases hB with ⟨r0, hall, hr, _⟩ | ⟨r1, hcase⟩
        · left
          refine ⟨r0, ?_, fun h => by omega, fun _ => ⟨(y, x), List.mem_cons_self _ _, hy, hx⟩⟩
          intro p hp hp1 hp2
          rcases List.mem_cons.mp hp with h | h
          · subst h
            rw [keep g' hA, hr hv1]
          · exact hall p h hp1 hp2
        · right
          refine ⟨r1, Or.inr (Or.inr ?_)⟩
          rcases hcase with ⟨h, _⟩ | ⟨p, hp, p1, p2, _, hne⟩ | ⟨p, hp, q, hq, p1, p2, q1, q2, hne⟩
          · omega
          · refine ⟨p, List.mem_cons_of_mem _ hp, (y, x), List.mem_cons_self _ _, p1, p2, hy, hx, ?_⟩
            rw [hmemo, hc1] at hne
            exact hne
          · refine ⟨p, List.mem_cons_of_mem _ hp, q, List.mem_cons_of_mem _ hq, p1, p2, q1, q2, ?_⟩
            rw [hmemo, hmemo] at hne
            exact hne
      · have hcd0 : 0 ≤ cd := by
          rcases hcd with h | h
          · exact absurd h hcd1
          · exact h
        by_cases hne : cd ≠ cell g1 y x
        · refine ⟨g1, -1, by rw [unf, if_neg hcd1, if_pos hne], hw1, ?_, ?_⟩
          · exact frame g1 (fun _ _ => Or.inl rfl)
          · right
            refine ⟨rfl, Or.inr (Or.inl ⟨(y, x), List.mem_cons_self _ _, hy, hx, hcd0, ?_⟩)⟩
            rw [← hc1]
            exact fun h => hne h.symm
        · have heq : cd = cell g1 y x := not_not.mp hne
          obtain ⟨g', r, e, hw, hA, hB⟩ := ih g1 cd hw1 (Or.inr hcd0)
          refine ⟨g', r, by rw [unf, if_neg hcd1, if_neg hne, e], hw, frame g' hA, ?_⟩
          rcases hB with ⟨r0, hall, hr, _⟩ | ⟨r1, hcase⟩
          · left
            refine ⟨r0, ?_, hr, fun h => absurd h hcd1⟩
            intro p hp hp1 hp2
            rcases List.mem_cons.mp hp with h | h
            · subst h
              rw [keep g' hA, hr hcd0, heq]
            · exact hall p h hp1 hp2
          · right
            refine ⟨r1, Or.inr ?_⟩
            rcases hcase with ⟨h, _⟩ | ⟨p, hp, p1, p2, c0, hne'⟩ |
              ⟨p, hp, q, hq, p1, p2, q1, q2, hne'⟩
            · exact absurd h hcd1
            · left
              refine ⟨p, List.mem_cons_of_mem _ hp, p1, p2, c0, ?_⟩
              rw [hmemo] at hne'
              exact hne'
            · right
              refine ⟨p, List.mem_cons_of_mem _ hp, q, List.mem_cons_of_mem _ hq, p1, p2, q1, q2, ?_⟩
              rw [hmemo, hmemo] at hne'
              exact hne'
    · obtain ⟨g', r, e, hw, hA, hB⟩ := ih g cd hg hcd
      have unf : commonBorderFrom res pd cmin dc ((y, x) :: rest) g cd =
          commonBorderFrom res pd cmin dc rest g cd := by
        simp only [commonBorderFrom, hin, if_false]
      refine ⟨g', r, by rw [unf, e], hw, ?_, ?_⟩
      · intro y' x'
        rcases hA y' x' with h | ⟨m, b⟩
        · exact Or.inl h
        · exact Or.inr ⟨List.mem_cons_of_mem _ m, b⟩
      · rcases hB with ⟨r0, hall, hr, hex⟩ | ⟨r1, hcase⟩
        · left
          refine ⟨r0, ?_, hr, ?_⟩
          · intro p hp hp1 hp2
            rcases List.mem_cons.mp hp with h | h
            · subst h
              exact absurd ⟨hp1, hp2⟩ hin
            · exact hall p h hp1 hp2
          · intro h
            obtain ⟨p, hp, hpp⟩ := hex h
            exact ⟨p, List.mem_cons_of_mem _ hp, hpp⟩
        · right
          refine ⟨r1, ?_⟩
          rcases hcase with ⟨h, hno⟩ | ⟨p, hp, hpp⟩ | ⟨p, hp, q, hq, hpq⟩
          · left
            refine ⟨h, ?_⟩
            intro p hp
            rcases List.mem_cons.mp hp with h' | h'
            · subst h'
              exact hin
            · exact hno p h'
          · exact Or.inr (Or.inl ⟨p, List.mem_cons_of_mem _ hp, hpp⟩)
          · exact Or.inr (Or.inr ⟨p, List.mem_cons_of_mem _ hp, q, List.mem_cons_of_mem _ hq, hpq⟩)

/-- The probe on a well-formed buffer: it returns, memoises only unset border pixels, and its
verdict is the common memoised value of the in-grid border pixels, or `-1`. -/
theorem commonBorder_spec {res : Nat} {pd : Evaluator} {cmin dc : Cplx}
    (hpd : ∀ y x, pd cmin dc y x < 2 ^ 31) {g : Grid} (hg : WF res g) (atY atX blockSize : Nat) :
    ∃ g' r, commonBorder res pd cmin dc g atY atX blockSize = some (g', r) ∧ WF res g' ∧
      (∀ y x, cell g' y x = cell g y x ∨
        ((y, x) ∈ borderWalk res atY atX blockSize ∧ y < res ∧ x < res ∧ cell g y x < 0 ∧
          cell g' y x = toInt (pd cmin dc y x))) ∧
      ((0 ≤ r ∧
          (∀ p ∈ borderWalk res atY atX blockSize, p.1 < res → p.2 < res →
            cell g' p.1 p.2 = r ∧ memo pd cmin dc g p.1 p.2 = r) ∧
          ∃ p ∈ borderWalk res atY atX blockSize, p.1 < res ∧ p.2 < res) ∨
        (r = -1 ∧
          ((∀ p ∈ borderWalk res atY atX blockSize, ¬ (p.1 < res ∧ p.2 < res)) ∨
            ∃ p ∈ borderWalk res atY atX blockSize, ∃ q ∈ borderWalk res atY atX blockSize,
              p.1 < res ∧ p.2 < res ∧ q.1 < res ∧ q.2 < res ∧
                memo pd cmin dc g p.1 p.2 ≠ memo pd cmin dc g q.1 q.2))) := by
  obtain ⟨g', r, e, hw, hA, hB⟩ :=
    commonBorderFrom_spec hpd (borderWalk res atY atX blockSize) g (-1) hg (Or.inl rfl)
  refine ⟨g', r, e, hw, hA, ?_⟩
  rcases hB with ⟨r0, hall, _, hex⟩ | ⟨r1, hcase⟩
  · left
    refine ⟨r0, ?_, hex rfl⟩
    intro p hp p1 p2
    have hc := hall p hp p1 p2
    refine ⟨hc, ?_⟩
    rcases hA p.1 p.2 with h | ⟨_, _, _, h3, h4⟩
    · unfold memo
      rw [if_neg (by omega), ← h, hc]
    · unfold memo
      rw [if_pos h3, ← h4, hc]
  · right
    refine ⟨r1, ?_⟩
    rcases hcase with ⟨_, hno⟩ | ⟨p, _, _, _, h, _⟩ | h
    · exact Or.inl hno
    · omega
    · exact Or.inr h

/-- A second run of the probe loop on the buffer left by a first run repeats its result. -/
theorem commonBorderFrom_again {res : Nat} {pd : Evaluator} {cmin dc : Cplx}
    (hpd : ∀ y x, pd cmin dc y x < 2 ^ 31) :
    ∀ (L : List (Nat × Nat)) (g : Grid) (cd : Int) (g' : Grid) (r : Int), WF res g →
      commonBorderFrom res pd cmin dc L g cd = some (g', r) →
      commonBorderFrom res pd cmin dc L g' cd = some (g', r) := by
  intro L
  induction L with
  | nil =>
    intro g cd g' r _ h
    simp only [commonBorderFrom, Option.some.injEq, Prod.mk.injEq] at h
    obtain ⟨h1, h2⟩ := h
    subst h1; subst h2
    rfl
  | cons p rest ih =>
    intro g cd g' r hg h
    obtain ⟨y, x⟩ := p
    by_cases hin : y < res ∧ x < res
    · obtain ⟨hy, hx⟩ := hin
      obtain ⟨g1, e1, hw1, hc1, hf1⟩ := probe_step pd cmin dc hg hy hx
      have hv1 : 0 ≤ cell g1 y x := by
        rw [hc1]
        exact memo_nonneg hpd g y x
      have unf : commonBorderFrom res pd cmin dc ((y, x) :: rest) g cd =
          (if cd = -1 then commonBorderFrom res pd cmin dc rest g1 (cell g1 y x)
            else if cd ≠ cell g1 y x then some (g1, -1)
            else commonBorderFrom res pd cmin dc rest g1 cd) := by
        simp only [commonBorderFrom, hy, hx, and_self, if_true, bufAt_eq hg hy hx,
          Option.some_bind, e1, bufAt_eq hw1 hy hx]
      have again : ∀ (c : Int), (c = -1 ∨ 0 ≤ c) →
          commonBorderFrom res pd cmin dc rest g1 c = some (g', r) →
          WF res g' ∧ cell g' y x = cell g1 y x := by
        intro c hc hrun
        obtain ⟨g2, r2, e2, hw2, hA2, _⟩ := commonBorderFrom_spec hpd rest g1 c hw1 hc
        rw [hrun] at e2
        simp only [Option.some.injEq, Prod.mk.injEq] at e2
        obtain ⟨e3, _⟩ := e2
        subst e3
        refine ⟨hw2, ?_⟩
        rcases hA2 y x with h' | ⟨_, _, _, h3, _⟩
        · exact h'
        · omega
      have unf2 : ∀ (g2 : Grid), WF res g2 → cell g2 y x = cell g1 y x →
          commonBorderFrom res pd cmin dc ((y, x) :: rest) g2 cd =
          (if cd = -1 then commonBorderFrom res pd cmin dc rest g2 (cell g1 y x)
            else if cd ≠ cell g1 y x then some (g2, -1)
            else commonBorderFrom res pd cmin dc rest g2 cd) := by
        intro g2 hw2 hc2
        have hnot : ¬ cell g2 y x < 0 := by omega
        simp only [commonBorderFrom, hy, hx, and_self, if_true, bufAt_eq hw2 hy hx,
          Option.some_bind, hnot, if_false]
        rw [hc2]
      rw [unf] at h
      by_cases hcd1 : cd = -1
      · rw [if_pos hcd1] at h
        obtain ⟨hw', hc'⟩ := again _ (Or.inr hv1) h
        rw [unf2 g' hw' hc', if_pos hcd1]
        exact ih g1 _ g' r hw1 h
      · rw [if_neg hcd1] at h
        by_cases hne : cd ≠ cell g1 y x
        · rw [if_pos hne] at h
          simp only [Option.some.injEq, Prod.mk.injEq] at h
          obtain ⟨h1, h2⟩ := h
          subst h1; subst h2
          rw [unf2 g1 hw1 rfl, if_neg hcd1, if_pos hne]
        · rw [if_neg hne] at h
          have heq : cd = cell g1 y x := not_not.mp hne
          obtain ⟨hw', hc'⟩ := again cd (Or.inr (by omega)) h
          rw [unf2 g' hw' hc', if_neg hcd1, if_neg hne]
          exact ih g1 cd g' r hw1 h
    · have unf : ∀ g2, commonBorderFrom res pd cmin dc ((y, x) :: rest) g2 cd =
          commonBorderFrom res pd cmin dc rest g2 cd := by
        intro g2
        simp only [commonBorderFrom, hin, if_false]
      rw [unf] at h
      rw [unf]
      exact ih g cd g' r hg h

/-- C5: on a `res × res` buffer, for a block with at least one in-grid perimeter pixel,
`commonBorder` returns `d ≥ 0` exactly when all in-grid perimeter pixels of the block hold the
same value `d` once every unset one has been given its evaluator value, and returns `-1` when
they hold no common value. -/
theorem commonBorder_verdict (res : Nat) (pd : Evaluator) (cmin dc : Cplx) (g : Grid)
    (atY atX blockSize : Nat) (hg : WF res g) (hpd : ∀ y x, pd cmin dc y x < 2 ^ 31)
    (hex : ∃ p ∈ borderWalk res atY atX blockSize, p.1 < res ∧ p.2 < res) :
    ∃ g' r, commonBorder res pd cmin dc g atY atX blockSize = some (g', r) ∧
      (∀ d : Int, (r = d ∧ 0 ≤ d) ↔
        ∀ p ∈ borderWalk res atY atX blockSize, p.1 < res → p.2 < res →
          memo pd cmin dc g p.1 p.2 = d) ∧
      ((¬ ∃ d : Int, ∀ p ∈ borderWalk res atY atX blockSize, p.1 < res → p.2 < res →
          memo pd cmin dc g p.1 p.2 = d) → r = -1) := by
  obtain ⟨g', r, e, _, _, hB⟩ := commonBorder_spec hpd hg atY atX blockSize
  refine ⟨g', r, e, ?_, ?_⟩
  · intro d
    rcases hB with ⟨r0, hall, _⟩ | ⟨r1, hcase⟩
    · constructor
      · rintro ⟨h1, _⟩ p hp p1 p2
        rw [← h1]
        exact (hall p hp p1 p2).2
      · intro h
        obtain ⟨p, hp, p1, p2⟩ := hex
        have h1 := (hall p hp p1 p2).2
        have h2 := h p hp p1 p2
        constructor <;> omega
    · constructor
      · rintro ⟨h1, h2⟩
        omega
      · intro h
        rcases hcase with hno | ⟨p, hp, q, hq, p1, p2, q1, q2, hne⟩
        · obtain ⟨p, hp, hpp⟩ := hex
          exact absurd hpp (hno p hp)
        · exact absurd ((h p hp p1 p2).trans (h q hq q1 q2).symm) hne
  · intro hnone
    rcases hB with ⟨_, hall, _⟩ | ⟨r1, _⟩
    · exact absurd ⟨r, fun p hp p1 p2 => (hall p hp p1 p2).2⟩ hnone
    · exact r1

/-- C6: `commonBorder` keeps every cell that holds a value `≥ 0`; a cell that differs after the
call is an in-grid perimeter pixel that was unset and now holds its evaluator value; and a
second call on the resulting buffer returns the same verdict and the same buffer. -/
theorem commonBorder_memoises (res : Nat) (pd : Evaluator) (cmin dc : Cplx) (g : Grid)
    (atY atX blockSize : Nat) (hg : WF res g) (hpd : ∀ y x, pd cmin dc y x < 2 ^ 31) :
    ∃ g' r, commonBorder res pd cmin dc g atY atX blockSize = some (g', r) ∧
      (∀ y x, 0 ≤ cell g y x → cell g' y x = cell g y x) ∧
      (∀ y x, cell g' y x ≠ cell g y x →
        (y, x) ∈ borderWalk res atY atX blockSize ∧ y < res ∧ x < res ∧ cell g y x < 0 ∧
          cell g' y x = (pd cmin dc y x : Int)) ∧
      commonBorder res pd cmin dc g' atY atX blockSize = some (g', r) := by
  obtain ⟨g', r, e, _, hA, _⟩ := commonBorder_spec hpd hg atY atX blockSize
  refine ⟨g', r, e, ?_, ?_, commonBorderFrom_again hpd _ g (-1) g' r hg e⟩
  · intro y x h
    rcases hA y x with h' | ⟨_, _, _, h3, _⟩
    · exact h'
    · omega
  · intro y x h
    rcases hA y x with h' | ⟨h1, h2, h3, h4, h5⟩
    · exact absurd h' h
    · exact ⟨h1, h2, h3, h4, by rw [h5, toInt_of_lt (hpd y x)]⟩

/-! ## Loops over cells -/

theorem mem_loopRange {lo hi v : Nat} : v ∈ loopRange lo hi ↔ lo ≤ v ∧ v < hi := by
  unfold loopRange
  rw [List.mem_range'_1]
  omega

/-- Two nested loops over rows and columns visit the cells of the product in row order. -/
theorem foldlM_nested (f : Grid → Nat → Nat → Option Grid) (cols : List Nat) :
    ∀ (rows : List Nat) (g : Grid),
      rows.foldlM (fun g y => cols.foldlM (fun g x => f g y x) g) g =
        (rows.flatMap fun y => cols.map fun x => (y, x)).foldlM (fun g p => f g p.1 p.2) g := by
  intro rows
  induction rows with
  | nil => intro g; rfl
  | cons y rows ih =>
    intro g
    rw [List.foldlM_cons, List.flatMap_cons, List.foldlM_append, List.foldlM_map]
    congr 1
    funext g1
    exact ih g1

theorem mem_product {rows cols : List Nat} {y x : Nat} :
    (y, x) ∈ (rows.flatMap fun y => cols.map fun x => (y, x)) ↔ y ∈ rows ∧ x ∈ cols := by
  simp only [List.mem_flatMap, List.mem_map, Prod.mk.injEq]
  constructor
  · rintro ⟨a, ha, b, hb, h1, h2⟩
    subst h1; subst h2
    exact ⟨ha, hb⟩
  · rintro ⟨h1, h2⟩
    exact ⟨y, h1, x, h2, rfl, rfl⟩

/-- A loop whose body rewrites the visited in-grid cell by `F` (idempotent) and leaves the
buffer alone at the other visited pixels. -/
theorem cells_loop_spec {res : Nat} (body : Grid → Nat → Nat → Option Grid)
    (F : Nat → Nat → Int → Int) (hF : ∀ y x v, F y x (F y x v) = F y x v)
    (hin : ∀ g y x, WF res g → y < res → x < res →
      ∃ g1, body g y x = some g1 ∧ WF res g1 ∧
        ∀ y' x', cell g1 y' x' = if y' = y ∧ x' = x then F y x (cell g y x) else cell g y' x') :
    ∀ (L : List (Nat × Nat)) (g : Grid), WF res g →
      (∀ p ∈ L, ¬ (p.1 < res ∧ p.2 < res) → ∀ g, body g p.1 p.2 = some g) →
      ∃ g', L.foldlM (fun g p => body g p.1 p.2) g = some g' ∧ WF res g' ∧
        ∀ y x, cell g' y x =
          if (y, x) ∈ L ∧ y < res ∧ x < res then F y x (cell g y x) else cell g y x := by
  intro L
  induction L with
  | nil =>
    intro g hg _
    exact ⟨g, rfl, hg, by simp⟩
  | cons p rest ih =>
    intro g hg hout
    obtain ⟨py, px⟩ := p
    have hout' : ∀ p ∈ rest, ¬ (p.1 < res ∧ p.2 < res) → ∀ g, body g p.1 p.2 = some g :=
      fun p hp => hout p (List.mem_cons_of_mem _ hp)
    by_cases hp : py < res ∧ px < res
    · obtain ⟨g1, e1, hw1, hc1⟩ := hin g py px hg hp.1 hp.2
      obtain ⟨g', e, hw, hc⟩ := ih g1 hw1 hout'
      refine ⟨g', ?_, hw, ?_⟩
      · rw [List.foldlM_cons]
        simp only [e1, Option.bind_eq_bind, Option.some_bind]
        exact e
      · intro y x
        rw [hc, hc1]
        by_cases hyx : y = py ∧ x = px
        · obtain ⟨h1, h2⟩ := hyx
          subst h1; subst h2
          simp only [and_self, if_true, List.mem_cons, true_or, true_and, hp, and_true]
          split
          · exact hF _ _ _
          · rfl
        · have hne : (y, x) ≠ (py, px) := by
            intro h
            simp only [Prod.mk.injEq] at h
            exact hyx h
          simp only [hyx, if_false, List.mem_cons, hne, false_or]
    · have e1 : body g py px = some g := hout (py, px) (List.mem_cons_self _ _) hp g
      obtain ⟨g', e, hw, hc⟩ := ih g hg hout'
      refine ⟨g', ?_, hw, ?_⟩
      · rw [List.foldlM_cons]
        simp only [e1, Option.bind_eq_bind, Option.some_bind]
        exact e
      · intro y x
        rw [hc]
        by_cases hyx : (y, x) = (py, px)
        · simp only [Prod.mk.injEq] at hyx
          obtain ⟨h1, h2⟩ := hyx
          subst h1; subst h2
          simp [hp]
        · simp only [List.mem_cons, hyx, false_or]

theorem usub_zero_le (a : Nat) : usub a 0 ≤ a := by
  unfold usub
  omega

theorem blockEnd_le (res a blockSize : Nat) : blockEnd res a blockSize ≤ res := by
  unfold blockEnd
  split <;> omega

/-- The rows (or columns) visited by the loops of `fillBlock` and `computeBlock` with
`omitBorder = 0`. -/
theorem mem_blockRange {res a blockSize v : Nat} (ha : a < 2 ^ 32) (hres : res < 2 ^ 32) :
    v ∈ loopRange (wrap (a + 0)) (usub (blockEnd res a blockSize) 0) ↔
      a ≤ v ∧ v < blockEnd res a blockSize := by
  rw [mem_loopRange, Nat.add_zero, wrap_of_lt ha,
    usub_zero (Nat.lt_of_le_of_lt (blockEnd_le res a blockSize) hres)]

/-- Effect of `fillBlock` with `omitBorder = 0`. -/
theorem fillBlock_spec {res : Nat} {g : Grid} (hg : WF res g) (dwell : Int)
    {atY atX : Nat} (blockSize : Nat) (hY : atY < 2 ^ 32) (hX : atX < 2 ^ 32)
    (hres : res < 2 ^ 32) :
    ∃ g', fillBlock res g dwell atY atX blockSize 0 = some g' ∧ WF res g' ∧
      ∀ y x, cell g' y x =
        if (atY ≤ y ∧ y < blockEnd res atY blockSize) ∧ (atX ≤ x ∧ x < blockEnd res atX blockSize)
        then (if cell g y x < 0 then dwell else cell g y x) else cell g y x := by
  have hbody : ∀ g y x, WF res g → y < res → x < res →
      ∃ g1, ((bufAt g y x).bind fun v => if v < 0 then bufSet g y x dwell else some g) = some g1 ∧
        WF res g1 ∧ ∀ y' x', cell g1 y' x' =
          if y' = y ∧ x' = x then (fun _ _ v => if v < 0 then dwell else v) y x (cell g y x)
          else cell g y' x' := by
    intro g y x hg hy hx
    rw [bufAt_eq hg hy hx, Option.some_bind]
    by_cases hv : cell g y x < 0
    · obtain ⟨g1, e1, hw1, hc1⟩ := bufSet_spec hg hy hx dwell
      exact ⟨g1, by rw [if_pos hv, e1], hw1, by simpa [hv] using hc1⟩
    · refine ⟨g, by rw [if_neg hv], hg, ?_⟩
      intro y' x'
      by_cases h : y' = y ∧ x' = x
      · simp [h, hv]
      · simp [h]
  have hmem : ∀ p ∈ ((loopRange (wrap (atY + 0)) (usub (blockEnd res atY blockSize) 0)).flatMap
      fun y => (loopRange (wrap (atX + 0)) (usub (blockEnd res atX blockSize) 0)).map
        fun x => (y, x)), p.1 < res ∧ p.2 < res := by
    rintro ⟨y, x⟩ hp
    rw [mem_product, mem_blockRange hY hres, mem_blockRange hX hres] at hp
    have := blockEnd_le res atY blockSize
    have := blockEnd_le res atX blockSize
    constructor <;> omega
  obtain ⟨g', e, hw, hc⟩ := cells_loop_spec
    (fun g y x => (bufAt g y x).bind fun v => if v < 0 then bufSet g y x dwell else some g)
    (fun _ _ v => if v < 0 then dwell else v)
    (by intro y x v; by_cases h : v < 0 <;> by_cases h' : dwell < 0 <;> simp [h, h'])
    hbody _ g hg (fun p hp hn => absurd (hmem p hp) hn)
  refine ⟨g', ?_, hw, ?_⟩
  · unfold fillBlock
    rw [foldlM_nested (fun g y x =>
      (bufAt g y x).bind fun v => if v < 0 then bufSet g y x dwell else some g)]
    exact e
  · intro y x
    have hiff : ((y, x) ∈ ((loopRange (wrap (atY + 0)) (usub (blockEnd res atY blockSize) 0)).flatMap
        fun y => (loopRange (wrap (atX + 0)) (usub (blockEnd res atX blockSize) 0)).map
          fun x => (y, x)) ∧ y < res ∧ x < res) ↔
        ((atY ≤ y ∧ y < blockEnd res atY blockSize) ∧
          (atX ≤ x ∧ x < blockEnd res atX blockSize)) := by
      rw [mem_product, mem_blockRange hY hres, mem_blockRange hX hres]
      have := blockEnd_le res atY blockSize
      have := blockEnd_le res atX blockSize
      constructor
      · exact fun h => h.1
      · exact fun h => ⟨h, by omega, by omega⟩
    rw [hc]
    simp only [hiff]

/-- Two nested loops over in-grid rows and columns whose body rewrites the visited cell by an
idempotent `F`. -/
theorem rect_loop_spec {res : Nat} (body : Grid → Nat → Nat → Option Grid)
    (F : Nat → Nat → Int → Int) (hF : ∀ y x v, F y x (F y x v) = F y x v)
    (hin : ∀ g y x, WF res g → y < res → x < res →
      ∃ g1, body g y x = some g1 ∧ WF res g1 ∧
        ∀ y' x', cell g1 y' x' = if y' = y ∧ x' = x then F y x (cell g y x) else cell g y' x')
    (rows cols : List Nat) (hrows : ∀ y ∈ rows, y < res) (hcols : ∀ x ∈ cols, x < res)
    (g : Grid) (hg : WF res g) :
    ∃ g', rows.foldlM (fun g y => cols.foldlM (fun g x => body g y x) g) g = some g' ∧
      WF res g' ∧
      ∀ y x, cell g' y x = if y ∈ rows ∧ x ∈ cols then F y x (cell g y x) else cell g y x := by
  have hmem : ∀ p ∈ (rows.flatMap fun y => cols.map fun x => (y, x)),
      p.1 < res ∧ p.2 < res := by
    rintro ⟨y, x⟩ hp
    rw [mem_product] at hp
    exact ⟨hrows y hp.1, hcols x hp.2⟩
  obtain ⟨g', e, hw, hc⟩ := cells_loop_spec body F hF hin _ g hg
    (fun p hp hn => absurd (hmem p hp) hn)
  refine ⟨g', by rw [foldlM_nested body]; exact e, hw, ?_⟩
  intro y x
  have hiff : ((y, x) ∈ (rows.flatMap fun y => cols.map fun x => (y, x)) ∧ y < res ∧ x < res) ↔
      (y ∈ rows ∧ x ∈ cols) := by
    rw [mem_product]
    exact ⟨fun h => h.1, fun h => ⟨h, hrows y h.1, hcols x h.2⟩⟩
  rw [hc]
  simp only [hiff]

/-- The body `dwellBuffer.at(y).at(x) = pixelDwell(cmin, dc, y, x)` on an in-grid cell. -/
theorem compute_body {res : Nat} (pd : Evaluator) (cmin dc : Cplx) :
    ∀ g y x, WF res g → y < res → x < res →
      ∃ g1, bufSet g y x (toInt (pd cmin dc y x)) = some g1 ∧ WF res g1 ∧
        ∀ y' x', cell g1 y' x' =
          if y' = y ∧ x' = x then (fun y x _ => toInt (pd cmin dc y x)) y x (cell g y x)
          else cell g y' x' := by
  intro g y x hg hy hx
  exact bufSet_spec hg hy hx _

/-- Effect of `computeBlock` with `omitBorder = 0`. -/
theorem computeBlock_spec {res : Nat} (pd : Evaluator) (cmin dc : Cplx) {g : Grid}
    (hg : WF res g) {atY atX : Nat} (blockSize : Nat) (hY : atY < 2 ^ 32) (hX : atX < 2 ^ 32)
    (hres : res < 2 ^ 32) :
    ∃ g', computeBlock res pd cmin dc g atY atX blockSize 0 = some g' ∧ WF res g' ∧
      ∀ y x, cell g' y x =
        if (atY ≤ y ∧ y < blockEnd res atY blockSize) ∧ (atX ≤ x ∧ x < blockEnd res atX blockSize)
        then toInt (pd cmin dc y x) else cell g y x := by
  have hb := fun a => blockEnd_le res a blockSize
  obtain ⟨g', e, hw, hc⟩ := rect_loop_spec
    (fun g y x => bufSet g y x (toInt (pd cmin dc y x))) (fun y x _ => toInt (pd cmin dc y x))
    (fun _ _ _ => rfl) (compute_body pd cmin dc)
    (loopRange (wrap (atY + 0)) (usub (blockEnd res atY blockSize) 0))
    (loopRange (wrap (atX + 0)) (usub (blockEnd res atX blockSize) 0))
    (fun y hy => by rw [mem_blockRange hY hres] at hy; have := hb atY; omega)
    (fun x hx => by rw [mem_blockRange hX hres] at hx; have := hb atX; omega) g hg
  refine ⟨g', e, hw, ?_⟩
  intro y x
  rw [hc]
  simp only [mem_blockRange hY hres, mem_blockRange hX hres]

/-- Effect of `threadedComputeBlock` with `atX = 0` and `omitBorder = 0`. -/
theorem threadedComputeBlock_spec {res : Nat} (pd : Evaluator) (cmin dc : Cplx) {g : Grid}
    (hg : WF res g) {atY : Nat} (blockSize : Nat) (hY : atY < 2 ^ 32) (hres : res < 2 ^ 32) :
    ∃ g', threadedComputeBlock res pd cmin dc g atY 0 blockSize 0 = some g' ∧ WF res g' ∧
      ∀ y x, cell g' y x =
        if (atY ≤ y ∧ y < blockEnd res atY blockSize) ∧ x < res
        then toInt (pd cmin dc y x) else cell g y x := by
  have hb := fun a => blockEnd_le res a blockSize
  have hcol : ∀ x, x ∈ loopRange (wrap (0 + 0)) (usub res 0) ↔ x < res := by
    intro x
    rw [mem_loopRange, usub_zero hres]
    simp [wrap]
  obtain ⟨g', e, hw, hc⟩ := rect_loop_spec
    (fun g y x => bufSet g y x (toInt (pd cmin dc y x))) (fun y x _ => toInt (pd cmin dc y x))
    (fun _ _ _ => rfl) (compute_body pd cmin dc)
    (loopRange (wrap (atY + 0)) (usub (blockEnd res atY blockSize) 0))
    (loopRange (wrap (0 + 0)) (usub res 0))
    (fun y hy => by rw [mem_blockRange hY hres] at hy; have := hb atY; omega)
    (fun x hx => (hcol x).mp hx) g hg
  refine ⟨g', e, hw, ?_⟩
  intro y x
  rw [hc]
  simp only [mem_blockRange hY hres, hcol]

/-- Effect of `markBorder`. -/
theorem markBorder_spec {res : Nat} {g : Grid} (hg : WF res g) (dwell : Int)
    (atY atX blockSize : Nat) :
    ∃ g', markBorder res g dwell atY atX blockSize = some g' ∧ WF res g' ∧
      ∀ y x, cell g' y x =
        if (y, x) ∈ borderWalk res atY atX blockSize ∧ y < res ∧ x < res then dwell
        else cell g y x := by
  obtain ⟨g', e, hw, hc⟩ := @cells_loop_spec res
    (fun g y x => if y < res ∧ x < res then bufSet g y x dwell else some g)
    (fun _ _ _ => dwell) (fun _ _ _ => rfl)
    (by
      intro g y x hg hy hx
      obtain ⟨g1, e1, hw1, hc1⟩ := bufSet_spec hg hy hx dwell
      exact ⟨g1, by simp [hy, hx, e1], hw1, hc1⟩)
    (borderWalk res atY atX blockSize) g hg
    (by
      intro p _ hn g
      simp [hn])
  exact ⟨g', e, hw, hc⟩

/-! ## Fill after a uniform probe -/

theorem blockEnd_eq {res a blockSize : Nat} (h : a + blockSize < 2 ^ 32) :
    blockEnd res a blockSize = min (a + blockSize) res := by
  unfold blockEnd
  rw [wrap_of_lt h]
  split <;> omega

/-- C4 (as amended): on a `res × res` buffer and for a block whose coordinates do not overflow,
if `commonBorder` returns a uniform value `d ≥ 0`, then after `fillBlock(d)` every in-grid
perimeter pixel of the block equals `d`, every in-grid cell of the block that was unset before
the probe equals `d`, and a cell of the block that already held a value `≥ 0` keeps it. -/
theorem fill_after_uniform_probe (res : Nat) (pd : Evaluator) (cmin dc : Cplx) (g g1 : Grid)
    (atY atX blockSize : Nat) (d : Int) (hg : WF res g) (hpd : ∀ y x, pd cmin dc y x < 2 ^ 31)
    (hres : res < 2 ^ 32) (hY : atY + blockSize < 2 ^ 32) (hX : atX + blockSize < 2 ^ 32)
    (hprobe : commonBorder res pd cmin dc g atY atX blockSize = some (g1, d)) (hd : 0 ≤ d) :
    ∃ g2, fillBlock res g1 d atY atX blockSize 0 = some g2 ∧
      (∀ p ∈ borderWalk res atY atX blockSize, p.1 < res → p.2 < res → cell g2 p.1 p.2 = d) ∧
      (∀ y x, atY ≤ y → y < atY + blockSize → atX ≤ x → x < atX + blockSize → y < res →
        x < res → cell g2 y x = if cell g y x < 0 then d else cell g y x) := by
  obtain ⟨g', r, e, hw, hA, hB⟩ := commonBorder_spec hpd hg atY atX blockSize
  rw [hprobe] at e
  simp only [Option.some.injEq, Prod.mk.injEq] at e
  obtain ⟨e1, e2⟩ := e
  subst e1; subst e2
  have hall : ∀ p ∈ borderWalk res atY atX blockSize, p.1 < res → p.2 < res →
      cell g1 p.1 p.2 = d := by
    rcases hB with ⟨_, hall, _⟩ | ⟨h, _⟩
    · exact fun p hp p1 p2 => (hall p hp p1 p2).1
    · omega
  obtain ⟨g2, e2, _, hc2⟩ := fillBlock_spec hw d blockSize (by omega : atY < 2 ^ 32)
    (by omega : atX < 2 ^ 32) hres
  refine ⟨g2, e2, ?_, ?_⟩
  · intro p hp p1 p2
    rw [hc2, hall p hp p1 p2]
    simp
  · intro y x y1 y2 x1 x2 y3 x3
    rw [hc2, blockEnd_eq hY, blockEnd_eq hX]
    have hblk : (atY ≤ y ∧ y < min (atY + blockSize) res) ∧
        (atX ≤ x ∧ x < min (atX + blockSize) res) := by
      refine ⟨⟨y1, ?_⟩, ⟨x1, ?_⟩⟩ <;> omega
    rw [if_pos hblk]
    rcases hA y x with h | ⟨hp, _, _, h3, _⟩
    · rw [h]
    · have h1 := hall (y, x) hp y3 x3
      simp only at h1
      rw [h1, if_neg (by omega), if_pos h3]

/-- C4 (counterexample): on the 4 × 4 buffer whose only set cell is `(1, 1) = 7`, with an
evaluator that is constantly 3, `commonBorder` returns 3 for the block `(0, 0, 4)` and after
`fillBlock(3)` the in-grid cell `(1, 1)` of the block still holds 7. -/
theorem fill_keeps_set_cell :
    (commonBorder 4 (fun _ _ _ _ => 3) ⟨0, 0⟩ ⟨0, 0⟩
        [[-1, -1, -1, -1], [-1, 7, -1, -1], [-1, -1, -1, -1], [-1, -1, -1, -1]] 0 0 4).map
        Prod.snd = some 3 ∧
      ((commonBorder 4 (fun _ _ _ _ => 3) ⟨0, 0⟩ ⟨0, 0⟩
        [[-1, -1, -1, -1], [-1, 7, -1, -1], [-1, -1, -1, -1], [-1, -1, -1, -1]] 0 0 4).bind
        fun r => (fillBlock 4 r.1 r.2 0 0 4 0).map fun g2 => cell g2 1 1) = some 7 := by
  decide

theorem fill_after_uniform_probe_witness :
    ∃ g2, fillBlock 4 [[3, 3, 3, 3], [3, 7, -1, 3], [3, -1, -1, 3], [3, 3, 3, 3]] 3 0 0 4 0 =
        some g2 ∧
      (∀ p ∈ borderWalk 4 0 0 4, p.1 < 4 → p.2 < 4 → cell g2 p.1 p.2 = 3) ∧
      (∀ y x, 0 ≤ y → y < 0 + 4 → 0 ≤ x → x < 0 + 4 → y < 4 → x < 4 →
        cell g2 y x =
          if cell [[-1, -1, -1, -1], [-1, 7, -1, -1], [-1, -1, -1, -1], [-1, -1, -1, -1]] y x < 0
          then 3
          else cell [[-1, -1, -1, -1], [-1, 7, -1, -1], [-1, -1, -1, -1], [-1, -1, -1, -1]] y x) :=
  fill_after_uniform_probe 4 (fun _ _ _ _ => 3) ⟨0, 0⟩ ⟨0, 0⟩
    [[-1, -1, -1, -1], [-1, 7, -1, -1], [-1, -1, -1, -1], [-1, -1, -1, -1]]
    [[3, 3, 3, 3], [3, 7, -1, 3], [3, -1, -1, 3], [3, 3, 3, 3]] 0 0 4 3
    (by decide) (by intro _ _; norm_num) (by norm_num) (by norm_num) (by norm_num) (by decide)
    (by decide)

theorem commonBorder_verdict_witness :
    ∃ g' r, commonBorder 2 (fun _ _ _ _ => 3) ⟨0, 0⟩ ⟨0, 0⟩ (unsetGrid 2) 0 0 2 = some (g', r) ∧
      (∀ d : Int, (r = d ∧ 0 ≤ d) ↔
        ∀ p ∈ borderWalk 2 0 0 2, p.1 < 2 → p.2 < 2 →
          memo (fun _ _ _ _ => 3) ⟨0, 0⟩ ⟨0, 0⟩ (unsetGrid 2) p.1 p.2 = d) ∧
      ((¬ ∃ d : Int, ∀ p ∈ borderWalk 2 0 0 2, p.1 < 2 → p.2 < 2 →
          memo (fun _ _ _ _ => 3) ⟨0, 0⟩ ⟨0, 0⟩ (unsetGrid 2) p.1 p.2 = d) → r = -1) :=
  commonBorder_verdict 2 (fun _ _ _ _ => 3) ⟨0, 0⟩ ⟨0, 0⟩ (unsetGrid 2) 0 0 2 (WF_unsetGrid 2)
    (by intro _ _; norm_num) ⟨(0, 0), by decide, by decide⟩

theorem commonBorder_memoises_witness :
    ∃ g' r, commonBorder 2 (fun _ _ _ x => x % 2) ⟨0, 0⟩ ⟨0, 0⟩ (unsetGrid 2) 0 0 2 = some (g', r) ∧
      (∀ y x, 0 ≤ cell (unsetGrid 2) y x → cell g' y x = cell (unsetGrid 2) y x) ∧
      (∀ y x, cell g' y x ≠ cell (unsetGrid 2) y x →
        (y, x) ∈ borderWalk 2 0 0 2 ∧ y < 2 ∧ x < 2 ∧ cell (unsetGrid 2) y x < 0 ∧
          cell g' y x = ((fun _ _ _ x => x % 2 : Evaluator) ⟨0, 0⟩ ⟨0, 0⟩ y x : Int)) ∧
      commonBorder 2 (fun _ _ _ x => x % 2) ⟨0, 0⟩ ⟨0, 0⟩ g' 0 0 2 = some (g', r) :=
  commonBorder_memoises 2 (fun _ _ _ x => x % 2) ⟨0, 0⟩ ⟨0, 0⟩ (unsetGrid 2) 0 0 2 (WF_unsetGrid 2)
    (by intro _ x; show x % 2 < 2 ^ 31; omega)

/-! ## The top level as written -/

theorem worker_idle (res blockDim subDiv : Nat) (mark : Bool) (pd : Evaluator) (fuel : Nat)
    (s : Shared) (t : Job) (h : ¬ s.counter < s.limit) :
    worker res blockDim subDiv mark pd (fuel + 1) s t = some s := by
  simp only [worker, h, if_false]

/-- C2: in Mariani-Silver mode `main` starts its workers on an empty queue with
`limit = 0`: every worker leaves its loop at once, so when the workers have stopped the shared
state is the initial one and the buffer is still the all-unset buffer. -/
theorem mainMariani_computes_nothing (res blockDim subDiv : Nat) (mark : Bool) (pd : Evaluator)
    (numThread fuel : Nat) :
    mainMariani res blockDim subDiv mark pd numThread (fuel + 1) =
      some { buf := unsetGrid res, queue := [], counter := 0, limit := 0 } := by
  unfold mainMariani
  generalize List.range numThread = l
  induction l with
  | nil => rfl
  | cons a l ih =>
    rw [List.foldlM_cons, worker_idle _ _ _ _ _ _ _ _ (by simp)]
    exact ih

/-- C9: with `res = 5` and two worker threads the bands have `5 / 2 = 2` rows each, so
traditional mode computes rows 0 to 3 only and row 4 keeps the value `-1`. -/
theorem mainTraditional_skips_rows :
    mainTraditional 5 false (fun _ _ _ _ => 7) ⟨0, 0⟩ ⟨0, 0⟩ 2 =
      some [[7, 7, 7, 7, 7], [7, 7, 7, 7, 7], [7, 7, 7, 7, 7], [7, 7, 7, 7, 7],
        [-1, -1, -1, -1, -1]] := by
  decide

/-- C7: for `res = 1` with the defaults `blockDim = 16`, `subDiv = 4` the value of
`ceil(log(res / blockDim) / log(subDiv))` is `-2`, which has no `unsigned int` value: the
computation of `correctedBlockSize` is undefined instead of giving `16`. -/
theorem correctedBlockSize_small_res :
    numDivExact 1 16 4 = -2 ∧ correctedBlockSize 1 16 4 = none := by
  have h : numDivExact 1 16 4 = -2 := by
    unfold numDivExact
    have e : ((1 : Nat) : ℚ) / ((16 : Nat) : ℚ) = ((4 : Nat) : ℚ) ^ (-2 : ℤ) := by norm_num
    rw [e]
    exact Int.clog_zpow (by norm_num) _
  refine ⟨h, ?_⟩
  unfold correctedBlockSize
  rw [h]
  rfl

/-- C10: with `res = 5`, `blockDim = 4`, `subDiv = 4` and the evaluator
`(x / 3 + y / 3) % 2` the probe of the root block `(0, 0, 16)` is heterogeneous, so the root is
subdivided, and `(0, 4, 4)` and `(0, 8, 4)` are two of its sub-blocks.  The second lies beyond
the grid, its clamped right edge is column 4, and its probe (and its border marking) reads and
writes the cell `(0, 4)` of the first, which the probe of the first touches too. -/
theorem sibling_blocks_share_a_cell :
    (commonBorder 5 (fun _ _ y x => (x / 3 + y / 3) % 2) ⟨0, 0⟩ ⟨0, 0⟩ (unsetGrid 5) 0 0 16).map
        Prod.snd = some (-1) ∧
      (⟨0, 4, 4⟩ : Block) ∈ children 4 ⟨0, 0, 16⟩ ∧ (⟨0, 8, 4⟩ : Block) ∈ children 4 ⟨0, 0, 16⟩ ∧
      InB ⟨0, 4, 4⟩ 0 4 ∧ ¬ InB ⟨0, 8, 4⟩ 0 4 ∧
      (0, 4) ∈ borderWalk 5 0 4 4 ∧ (0, 4) ∈ borderWalk 5 0 8 4 ∧
      cell (unsetGrid 5) 0 4 = -1 ∧
      (commonBorder 5 (fun _ _ y x => (x / 3 + y / 3) % 2) ⟨0, 0⟩ ⟨0, 0⟩ (unsetGrid 5) 0 4 4).map
        (fun r => cell r.1 0 4) = some 1 ∧
      (commonBorder 5 (fun _ _ y x => (x / 3 + y / 3) % 2) ⟨0, 0⟩ ⟨0, 0⟩ (unsetGrid 5) 0 8 4).map
        (fun r => cell r.1 0 4) = some 1 ∧
      (markBorder 5 (unsetGrid 5) dwellFill 0 8 4).map (fun g => cell g 0 4) =
        some dwellFill := by
  decide

/-! ## The dwell evaluator -/

/-- The loop of `pixelDwell`, entered with the `k`-th computed value of `z` and `dwell = k`,
stops at the least `n ≥ k` that is `maxDwell` or at which the test `std::abs(z) < 4` fails. -/
theorem dwellLoop_spec {D : Type} (F : Floating D) (maxDwell : Nat) (c : D × D) :
    ∀ (fuel k : Nat), k ≤ maxDwell → maxDwell - k < fuel →
      (∀ m < k, F.absLt (orbit F c m) 4 = true) →
      dwellLoop F maxDwell c fuel (orbit F c k) k ≤ maxDwell ∧
        (dwellLoop F maxDwell c fuel (orbit F c k) k = maxDwell ∨
          F.absLt (orbit F c (dwellLoop F maxDwell c fuel (orbit F c k) k)) 4 = false) ∧
        ∀ m < dwellLoop F maxDwell c fuel (orbit F c k) k, F.absLt (orbit F c m) 4 = true := by
  intro fuel
  induction fuel with
  | zero =>
    intro k _ h
    omega
  | succ fuel ih =>
    intro k hk hfuel hbelow
    have h4 : ((2 : Int) * 2) = 4 := by norm_num
    by_cases hcont : k < maxDwell ∧ F.absLt (orbit F c k) (2 * 2) = true
    · have unf : dwellLoop F maxDwell c (fuel + 1) (orbit F c k) k =
          dwellLoop F maxDwell c fuel (orbit F c (k + 1)) (k + 1) := by
        rw [dwellLoop, if_pos hcont]
        rfl
      rw [unf]
      apply ih (k + 1) (by omega) (by omega)
      intro m hm
      rcases Nat.lt_succ_iff_lt_or_eq.mp hm with h | h
      · exact hbelow m h
      · rw [h, ← h4]
        exact hcont.2
    · have unf : dwellLoop F maxDwell c (fuel + 1) (orbit F c k) k = k := by
        rw [dwellLoop, if_neg hcont]
      rw [unf]
      refine ⟨hk, ?_, hbelow⟩
      by_cases hk' : k < maxDwell
      · right
        have : ¬ F.absLt (orbit F c k) (2 * 2) = true := fun h => hcont ⟨hk', h⟩
        rw [h4] at this
        simpa using this
      · left
        omega

/-- The count returned by `pixelDwell`, in terms of the values of `z` it computes. -/
theorem pixelDwell_spec {D : Type} (F : Floating D) (res maxDwell : Nat) (cmin dc : D × D)
    (y x : Nat) :
    pixelDwell F res maxDwell cmin dc y x ≤ maxDwell ∧
      (pixelDwell F res maxDwell cmin dc y x = maxDwell ∨
        F.absLt (orbit F (planePoint F res cmin dc y x) (pixelDwell F res maxDwell cmin dc y x))
          4 = false) ∧
      ∀ m < pixelDwell F res maxDwell cmin dc y x,
        F.absLt (orbit F (planePoint F res cmin dc y x) m) 4 = true :=
  dwellLoop_spec F maxDwell _ (maxDwell + 1) 0 (Nat.zero_le _) (by omega)
    (fun m hm => absurd hm (Nat.not_lt_zero m))

/-- C8 (as amended): whatever the results of the operations on `double` are, `pixelDwell`
returns the number of executions of `z = z * z + c`, started at `z = c`, performed until the
test `std::abs(z) < 4` fails or the count reaches `maxDwell`: the result is the least
`n ≤ maxDwell` such that `n = maxDwell` or the test fails on the `n`-th computed value of `z`
(so a start point on which the test fails gives dwell 0), and it lies in `[0, maxDwell]`. -/
theorem pixelDwell_escape_count (D : Type) (F : Floating D) (res maxDwell : Nat)
    (cmin dc : D × D) (y x : Nat) :
    pixelDwell F res maxDwell cmin dc y x ≤ maxDwell ∧
      (pixelDwell F res maxDwell cmin dc y x = maxDwell ∨
        F.absLt (orbit F (planePoint F res cmin dc y x) (pixelDwell F res maxDwell cmin dc y x))
          4 = false) ∧
      (∀ n ≤ maxDwell,
        (n = maxDwell ∨ F.absLt (orbit F (planePoint F res cmin dc y x) n) 4 = false) →
        pixelDwell F res maxDwell cmin dc y x ≤ n) ∧
      (F.absLt (planePoint F res cmin dc y x) 4 = false →
        pixelDwell F res maxDwell cmin dc y x = 0) := by
  obtain ⟨h1, h2, h3⟩ := pixelDwell_spec F res maxDwell cmin dc y x
  refine ⟨h1, h2, ?_, ?_⟩
  · intro n hn hstop
    by_contra hlt
    have hlt' : n < pixelDwell F res maxDwell cmin dc y x := by omega
    rcases hstop with h | h
    · omega
    · rw [h3 n hlt'] at h
      exact absurd h (by decide)
  · intro hc
    by_contra hne
    have h0 := h3 0 (by omega)
    rw [orbit, hc] at h0
    exact absurd h0 (by decide)

theorem exact_absLt (z : ℚ × ℚ) (r : Int) :
    exactFloating.absLt z r = decide (0 < r ∧ z.1 * z.1 + z.2 * z.2 < (r : ℚ) * (r : ℚ)) := rfl

theorem exact_step (z c : ℚ × ℚ) :
    exactFloating.cadd (exactFloating.cmul z z) c =
      (z.1 * z.1 - z.2 * z.2 + c.1, z.1 * z.2 + z.2 * z.1 + c.2) := rfl

theorem exact_planePoint (res : Nat) (cmin dc : ℚ × ℚ) (y x : Nat) :
    planePoint exactFloating res cmin dc y x =
      (cmin.1 + (x : ℚ) / (res : ℚ) * dc.1, cmin.2 + (y : ℚ) / (res : ℚ) * dc.2) := rfl

/-- C8 (counterexample): at pixel `(0, 0)` with `cmin = -3`, where every value met is one of
the integers `0`, `2`, `-3`, `9`, `6`, `1024` and the arithmetic is exact, the start point has
modulus 3, the test `std::abs(z) < 4` holds on it and fails on the next value `6`:
`pixelDwell` performs one iteration and returns 1, where an escape radius of 2 gives dwell
0. -/
theorem pixelDwell_radius_is_four :
    pixelDwell exactFloating 1024 512 (-3, 0) (2, 2) 0 0 = 1 ∧
      planePoint exactFloating 1024 (-3, 0) (2, 2) 0 0 = (-3, 0) ∧
      exactFloating.absLt (-3, 0) 2 = false := by
  have hc : planePoint exactFloating 1024 (-3, 0) (2, 2) 0 0 = (-3, 0) := by
    rw [exact_planePoint]
    norm_num
  have a0 : exactFloating.absLt (-3, 0) 4 = true := by
    rw [exact_absLt, decide_eq_true_eq]
    norm_num
  have a1 : exactFloating.absLt (orbit exactFloating (-3, 0) 1) 4 = false := by
    rw [orbit, orbit, exact_step, exact_absLt, decide_eq_false_iff_not]
    norm_num
  obtain ⟨_, h2, h3⟩ := pixelDwell_spec exactFloating 1024 512 (-3, 0) (2, 2) 0 0
  rw [hc] at h2 h3
  refine ⟨?_, hc, ?_⟩
  · by_contra hne
    rcases Nat.lt_or_gt_of_ne hne with h | h
    · have h0 : pixelDwell exactFloating 1024 512 (-3, 0) (2, 2) 0 0 = 0 := by omega
      rw [h0] at h2
      rcases h2 with h2 | h2
      · omega
      · rw [orbit, a0] at h2
        exact absurd h2 (by decide)
    · have := h3 1 h
      rw [a1] at this
      exact absurd this (by decide)
  · rw [exact_absLt, decide_eq_false_iff_not]
    norm_num

/-! ## Geometry of the border walk -/

theorem edgeMax_eq {res a blockSize : Nat} (hb : 1 ≤ blockSize) (ha : a + blockSize < 2 ^ 32)
    (hres1 : 1 ≤ res) (hres : res < 2 ^ 32) :
    edgeMax res a blockSize = min (a + blockSize) res - 1 := by
  unfold edgeMax
  rw [wrap_of_lt ha, usub_one (by omega) ha, usub_one hres1 hres]
  split <;> omega

theorem mem_borderWalk {res atY atX blockSize : Nat} {p : Nat × Nat} :
    p ∈ borderWalk res atY atX blockSize ↔
      ∃ i < blockSize, ∃ s < 4,
        p = (borderY atY (edgeMax res atY blockSize) i s,
          borderX atX (edgeMax res atX blockSize) i s) := by
  unfold borderWalk
  simp only [List.mem_flatMap, List.mem_map, List.mem_range]
  constructor
  · rintro ⟨i, hi, s, hs, h⟩
    exact ⟨i, hi, s, hs, h.symm⟩
  · rintro ⟨i, hi, s, hs, h⟩
    exact ⟨i, hi, s, hs, h.symm⟩

/-- An in-grid pixel of the border walk of `B` is on an edge of `B` or in the last row or
column of the grid. -/
theorem walk_edge_or_last {res : Nat} {B : Block} (hb : 1 ≤ B.size)
    (hy : B.atY + B.size < 2 ^ 32) (hx : B.atX + B.size < 2 ^ 32) (hres1 : 1 ≤ res)
    (hres : res < 2 ^ 32) {y x : Nat} (hp : (y, x) ∈ borderWalk res B.atY B.atX B.size)
    (hyr : y < res) (hxr : x < res) : OnEdge res B y x ∨ y + 1 = res ∨ x + 1 = res := by
  rw [mem_borderWalk] at hp
  obtain ⟨i, hi, s, hs, h⟩ := hp
  rw [edgeMax_eq hb hy hres1 hres, edgeMax_eq hb hx hres1 hres] at h
  simp only [Prod.mk.injEq] at h
  obtain ⟨h1, h2⟩ := h
  unfold borderY at h1
  unfold borderX at h2
  unfold OnEdge InB
  have w1 : wrap (B.atY + i) = B.atY + i := wrap_of_lt (by omega)
  have w2 : wrap (B.atX + i) = B.atX + i := wrap_of_lt (by omega)
  rw [w1] at h1
  rw [w2] at h2
  interval_cases s <;> simp at h1 h2 <;> omega

/-- An edge cell of `B` is a pixel of the border walk of `B`. -/
theorem edge_mem_walk {res : Nat} {B : Block} (hb : 1 ≤ B.size)
    (hy : B.atY + B.size < 2 ^ 32) (hx : B.atX + B.size < 2 ^ 32) (hres1 : 1 ≤ res)
    (hres : res < 2 ^ 32) {y x : Nat} (h : OnEdge res B y x) :
    (y, x) ∈ borderWalk res B.atY B.atX B.size := by
  rw [mem_borderWalk, edgeMax_eq hb hy hres1 hres, edgeMax_eq hb hx hres1 hres]
  obtain ⟨⟨h1, h2, h3, h4⟩, h5, h6, h7⟩ := h
  simp only [Prod.mk.injEq]
  unfold borderY borderX
  rcases h7 with h | h | h | h
  · refine ⟨x - B.atX, by omega, 3, by omega, ?_⟩
    have w : wrap (B.atX + (x - B.atX)) = x := by rw [wrap_of_lt (by omega)]; omega
    simp [w, h]
  · refine ⟨y - B.atY, by omega, 2, by omega, ?_⟩
    have w : wrap (B.atY + (y - B.atY)) = y := by rw [wrap_of_lt (by omega)]; omega
    simp [w, h]
  · refine ⟨x - B.atX, by omega, 1, by omega, ?_⟩
    have w : wrap (B.atX + (x - B.atX)) = x := by rw [wrap_of_lt (by omega)]; omega
    simp [w]
    omega
  · refine ⟨y - B.atY, by omega, 0, by omega, ?_⟩
    have w : wrap (B.atY + (y - B.atY)) = y := by rw [wrap_of_lt (by omega)]; omega
    simp [w]
    omega

/-- An in-grid cell of `B` in the last row or column of the grid is an edge cell of `B`. -/
theorem last_onEdge {res : Nat} {B : Block} {y x : Nat} (hin : InB B y x) (hyr : y < res)
    (hxr : x < res) (h : y + 1 = res ∨ x + 1 = res) : OnEdge res B y x := by
  unfold OnEdge
  unfold InB at hin
  refine ⟨hin, hyr, hxr, ?_⟩
  omega

/-- An edge cell of `B` that lies in a block `C` inside `B` is an edge cell of `C`. -/
theorem onEdge_sub {res : Nat} {B C : Block} {y x : Nat} (h : OnEdge res B y x)
    (hin : InB C y x) (h1 : B.atY ≤ C.atY) (h2 : C.atY + C.size ≤ B.atY + B.size)
    (h3 : B.atX ≤ C.atX) (h4 : C.atX + C.size ≤ B.atX + B.size) : OnEdge res C y x := by
  unfold OnEdge at h ⊢
  unfold InB at h hin ⊢
  refine ⟨hin, h.2.1, h.2.2.1, ?_⟩
  omega

/-! ## The probe on a consistent buffer -/

theorem memo_unsetGrid (pd : Evaluator) (cmin dc : Cplx) {res y x : Nat} (hy : y < res)
    (hx : x < res) : memo pd cmin dc (unsetGrid res) y x = toInt (pd cmin dc y x) := by
  unfold memo
  rw [cell_unsetGrid hy hx]
  simp

/-- On a buffer whose set border pixels hold their evaluator value the probe returns the
verdict determined by the evaluator. -/
theorem probe_consistent (R : Run) (hpd : ∀ y x, R.pd R.cmin R.dc y x < 2 ^ 31) {g : Grid}
    (hg : WF R.res g) (B : Block)
    (hcons : ∀ p ∈ borderWalk R.res B.atY B.atX B.size, p.1 < R.res → p.2 < R.res →
      cell g p.1 p.2 < 0 ∨ cell g p.1 p.2 = toInt (R.pd R.cmin R.dc p.1 p.2)) :
    ∃ g1, commonBorder R.res R.pd R.cmin R.dc g B.atY B.atX B.size = some (g1, verdict R B) ∧
      WF R.res g1 ∧
      (∀ y x, cell g1 y x = cell g y x ∨
        ((y, x) ∈ borderWalk R.res B.atY B.atX B.size ∧ y < R.res ∧ x < R.res ∧
          cell g y x < 0 ∧ cell g1 y x = toInt (R.pd R.cmin R.dc y x))) ∧
      (0 ≤ verdict R B → ∀ p ∈ borderWalk R.res B.atY B.atX B.size, p.1 < R.res → p.2 < R.res →
        cell g1 p.1 p.2 = verdict R B ∧ toInt (R.pd R.cmin R.dc p.1 p.2) = verdict R B) ∧
      (verdict R B = -1 ∨ 0 ≤ verdict R B) := by
  obtain ⟨g1, r, e, hw, hA, hB⟩ := commonBorder_spec hpd hg B.atY B.atX B.size
  obtain ⟨g0, r0, e0, _, _, hB0⟩ :=
    commonBorder_spec hpd (WF_unsetGrid R.res) B.atY B.atX B.size
  have hv : verdict R B = r0 := by
    unfold verdict
    rw [e0]
    rfl
  have hm : ∀ p ∈ borderWalk R.res B.atY B.atX B.size, p.1 < R.res → p.2 < R.res →
      memo R.pd R.cmin R.dc g p.1 p.2 = toInt (R.pd R.cmin R.dc p.1 p.2) := by
    intro p hp p1 p2
    unfold memo
    rcases hcons p hp p1 p2 with h | h
    · rw [if_pos h]
    · by_cases h' : cell g p.1 p.2 < 0
      · rw [if_pos h']
      · rw [if_neg h', h]
  have hm0 : ∀ p ∈ borderWalk R.res B.atY B.atX B.size, p.1 < R.res → p.2 < R.res →
      memo R.pd R.cmin R.dc (unsetGrid R.res) p.1 p.2 = toInt (R.pd R.cmin R.dc p.1 p.2) :=
    fun p _ p1 p2 => memo_unsetGrid R.pd R.cmin R.dc p1 p2
  have hr : r = r0 := by
    rcases hB with ⟨a1, a2, p, hp, p1, p2⟩ | ⟨a1, a2⟩
    · rcases hB0 with ⟨b1, b2, _⟩ | ⟨b1, b2⟩
      · have h1 := (a2 p hp p1 p2).2
        have h2 := (b2 p hp p1 p2).2
        rw [hm p hp p1 p2] at h1
        rw [hm0 p hp p1 p2] at h2
        omega
      · rcases b2 with hno | ⟨q, hq, q', hq', c1, c2, c3, c4, hne⟩
        · exact absurd ⟨p1, p2⟩ (hno p hp)
        · have h1 := (a2 q hq c1 c2).2
          have h2 := (a2 q' hq' c3 c4).2
          rw [hm q hq c1 c2] at h1
          rw [hm q' hq' c3 c4] at h2
          rw [hm0 q hq c1 c2, hm0 q' hq' c3 c4] at hne
          omega
    · rcases hB0 with ⟨b1, b2, p, hp, p1, p2⟩ | ⟨b1, b2⟩
      · rcases a2 with hno | ⟨q, hq, q', hq', c1, c2, c3, c4, hne⟩
        · exact absurd ⟨p1, p2⟩ (hno p hp)
        · have h1 := (b2 q hq c1 c2).2
          have h2 := (b2 q' hq' c3 c4).2
          rw [hm0 q hq c1 c2] at h1
          rw [hm0 q' hq' c3 c4] at h2
          rw [hm q hq c1 c2, hm q' hq' c3 c4] at hne
          omega
      · omega
  rw [hv, ← hr]
  refine ⟨g1, e, hw, hA, ?_, ?_⟩
  · intro h0 p hp p1 p2
    rcases hB with ⟨_, a2, _⟩ | ⟨a1, _⟩
    · have h1 := a2 p hp p1 p2
      rw [hm p hp p1 p2] at h1
      exact h1
    · omega
  · rcases hB with ⟨a1, _⟩ | ⟨a1, _⟩
    · exact Or.inr a1
    · exact Or.inl a1

theorem verdict_cases (R : Run) (hpd : ∀ y x, R.pd R.cmin R.dc y x < 2 ^ 31) (B : Block) :
    verdict R B = -1 ∨ 0 ≤ verdict R B := by
  obtain ⟨_, _, _, _, _, h⟩ := probe_consistent R hpd (WF_unsetGrid R.res) B
    (fun p _ p1 p2 => Or.inl (by rw [cell_unsetGrid p1 p2]; omega))
  exact h

theorem finalVal_zero (R : Run) (atY atX y x : Nat) :
    finalVal R 0 atY atX y x =
      if 0 ≤ verdict R ⟨atY, atX, R.side 0⟩ then verdict R ⟨atY, atX, R.side 0⟩
      else toInt (R.pd R.cmin R.dc y x) := by
  rw [finalVal]

theorem finalVal_succ (R : Run) (j atY atX y x : Nat) :
    finalVal R (j + 1) atY atX y x =
      if 0 ≤ verdict R ⟨atY, atX, R.side (j + 1)⟩ then verdict R ⟨atY, atX, R.side (j + 1)⟩
      else finalVal R j (atY + (y - atY) / R.side j * R.side j)
        (atX + (x - atX) / R.side j * R.side j) y x := by
  rw [finalVal]

theorem finalVal_nonneg (R : Run) (hpd : ∀ y x, R.pd R.cmin R.dc y x < 2 ^ 31) :
    ∀ (j atY atX y x : Nat), 0 ≤ finalVal R j atY atX y x := by
  intro j
  induction j with
  | zero =>
    intro atY atX y x
    rw [finalVal_zero]
    by_cases h : 0 ≤ verdict R ⟨atY, atX, R.side 0⟩
    · rw [if_pos h]
      exact h
    · rw [if_neg h]
      exact toInt_nonneg_of_lt (hpd y x)
  | succ j ih =>
    intro atY atX y x
    rw [finalVal_succ]
    by_cases h : 0 ≤ verdict R ⟨atY, atX, R.side (j + 1)⟩
    · rw [if_pos h]
      exact h
    · rw [if_neg h]
      exact ih _ _ y x

/-! ## One step of the subdivider preserves the invariant -/

theorem side_pos (R : Run) (hbd : 1 ≤ R.blockDim) (hsd : 2 ≤ R.subDiv) (j : Nat) :
    1 ≤ R.side j := by
  unfold Run.side
  have : 0 < R.subDiv ^ j := Nat.pow_pos (by omega)
  exact Nat.mul_pos hbd this

/-- The probe of the first pending block returns the verdict determined by the evaluator and
keeps the invariant. -/
theorem step_probe {R : Run} {k : Nat} (hS : Setup R k) {B : Block} {P : List Block} {g : Grid}
    (h : GI R k (B :: P) g) :
    ∃ g1, commonBorder R.res R.pd R.cmin R.dc g B.atY B.atX B.size = some (g1, verdict R B) ∧
      GI R k (B :: P) g1 ∧
      (0 ≤ verdict R B → ∀ y x, OnEdge R.res B y x →
        cell g1 y x = verdict R B ∧ toInt (R.pd R.cmin R.dc y x) = verdict R B) ∧
      (verdict R B = -1 ∨ 0 ≤ verdict R B) := by
  obtain ⟨hres1, hbd, hsd, hk, hcover, hpd⟩ := hS
  obtain ⟨hw, hlast, hP, hpair, hdone⟩ := h
  obtain ⟨⟨j, hj, hby, hbx, _⟩, hpre⟩ := hP B (List.mem_cons_self _ _)
  have hb : 1 ≤ B.size := by rw [hj]; exact side_pos R hbd hsd j
  have hy : B.atY + B.size < 2 ^ 32 := by omega
  have hx : B.atX + B.size < 2 ^ 32 := by omega
  have hres : R.res < 2 ^ 32 := by omega
  have hcons : ∀ p ∈ borderWalk R.res B.atY B.atX B.size, p.1 < R.res → p.2 < R.res →
      cell g p.1 p.2 < 0 ∨ cell g p.1 p.2 = toInt (R.pd R.cmin R.dc p.1 p.2) := by
    rintro ⟨y, x⟩ hp p1 p2
    rcases walk_edge_or_last hb hy hx hres1 hres hp p1 p2 with he | hl
    · rcases hpre y x he.1 p1 p2 with h' | h'
      · exact Or.inl h'
      · exact Or.inr h'.2
    · exact hlast y x p1 p2 hl
  obtain ⟨g1, e, hw1, hA, hU, hc⟩ := probe_consistent R hpd hw B hcons
  refine ⟨g1, e, ⟨hw1, ?_, ?_, hpair, ?_⟩, ?_, hc⟩
  · intro y x p1 p2 hl
    rcases hA y x with h' | ⟨_, _, _, _, h'⟩
    · rw [h']
      exact hlast y x p1 p2 hl
    · exact Or.inr h'
  · intro B' hB'
    refine ⟨(hP B' hB').1, ?_⟩
    intro y x hin p1 p2
    rcases hA y x with h' | ⟨hwalk, _, _, _, h'⟩
    · rw [h']
      exact (hP B' hB').2 y x hin p1 p2
    · right
      refine ⟨?_, h'⟩
      rcases walk_edge_or_last hb hy hx hres1 hres hwalk p1 p2 with he | hl
      · rcases List.mem_cons.mp hB' with hBB | hBP
        · rw [hBB]
          exact he
        · exact absurd ⟨he.1, hin⟩ ((List.pairwise_cons.mp hpair).1 B' hBP y x)
      · exact last_onEdge hin p1 p2 hl
  · intro y x p1 p2 hno
    rcases hA y x with h' | ⟨_, _, _, hneg, _⟩
    · rw [h']
      exact hdone y x p1 p2 hno
    · have := finalVal_nonneg R hpd k 0 0 y x
      rw [← hdone y x p1 p2 hno] at this
      omega
  · intro h0 y x he
    exact hU h0 (y, x) (edge_mem_walk hb hy hx hres1 hres he) he.2.1 he.2.2.1

theorem block_eta (B : Block) {n : Nat} (h : B.size = n) : (⟨B.atY, B.atX, n⟩ : Block) = B := by
  cases B
  simp only at h
  rw [h]

theorem finalVal_uniform {R : Run} {B : Block} {j : Nat} (hj : B.size = R.side j)
    (h0 : 0 ≤ verdict R B) (y x : Nat) : finalVal R j B.atY B.atX y x = verdict R B := by
  cases j with
  | zero =>
    rw [finalVal_zero, block_eta B hj, if_pos h0]
  | succ j =>
    rw [finalVal_succ, block_eta B hj, if_pos h0]

theorem level_zero {R : Run} (hbd : 1 ≤ R.blockDim) (hsd : 2 ≤ R.subDiv) {j : Nat}
    (h : R.side j ≤ R.blockDim) : j = 0 := by
  unfold Run.side at h
  by_contra hne
  have h1 : R.subDiv ^ 1 ≤ R.subDiv ^ j := Nat.pow_le_pow_right (by omega) (by omega)
  rw [Nat.pow_one] at h1
  have h2 : R.blockDim * 2 ≤ R.blockDim * R.subDiv ^ j := Nat.mul_le_mul_left _ (by omega)
  omega

/-- A terminal step (Fill or Brute Force) that gives the in-grid cells of the first pending
block their final values and changes no other cell keeps the invariant for the other
pending blocks. -/
theorem step_terminal {R : Run} {k : Nat} {B : Block} {P : List Block} {g1 g2 : Grid}
    (h : GI R k (B :: P) g1) (hw2 : WF R.res g2)
    (hin : ∀ y x, y < R.res → x < R.res → InB B y x →
      cell g2 y x = finalVal R k 0 0 y x ∧
        ((y + 1 = R.res ∨ x + 1 = R.res) → cell g2 y x = toInt (R.pd R.cmin R.dc y x)))
    (hout : ∀ y x, ¬ (InB B y x ∧ y < R.res ∧ x < R.res) → cell g2 y x = cell g1 y x) :
    GI R k P g2 := by
  obtain ⟨_, hlast, hP, hpair, hdone⟩ := h
  refine ⟨hw2, ?_, ?_, (List.pairwise_cons.mp hpair).2, ?_⟩
  · intro y x p1 p2 hl
    by_cases hB : InB B y x
    · exact Or.inr ((hin y x p1 p2 hB).2 hl)
    · rw [hout y x (fun hh => hB hh.1)]
      exact hlast y x p1 p2 hl
  · intro B' hB'
    refine ⟨(hP B' (List.mem_cons_of_mem _ hB')).1, ?_⟩
    intro y x hin' p1 p2
    have hB : ¬ InB B y x := fun hh => (List.pairwise_cons.mp hpair).1 B' hB' y x ⟨hh, hin'⟩
    rw [hout y x (fun hh => hB hh.1)]
    exact (hP B' (List.mem_cons_of_mem _ hB')).2 y x hin' p1 p2
  · intro y x p1 p2 hno
    by_cases hB : InB B y x
    · exact (hin y x p1 p2 hB).1
    · rw [hout y x (fun hh => hB hh.1)]
      apply hdone y x p1 p2
      intro B' hB'
      rcases List.mem_cons.mp hB' with h' | h'
      · rw [h']
        exact hB
      · exact hno B' h'

theorem inBlockRange_iff {res : Nat} {B : Block} (hy : B.atY + B.size < 2 ^ 32)
    (hx : B.atX + B.size < 2 ^ 32) (y x : Nat) :
    ((B.atY ≤ y ∧ y < blockEnd res B.atY B.size) ∧ (B.atX ≤ x ∧ x < blockEnd res B.atX B.size)) ↔
      (InB B y x ∧ y < res ∧ x < res) := by
  rw [blockEnd_eq hy, blockEnd_eq hx]
  unfold InB
  omega

/-- The Fill step on the first pending block, after a uniform probe. -/
theorem step_fill {R : Run} {k : Nat} (hS : Setup R k) {B : Block} {P : List Block} {g1 : Grid}
    (h : GI R k (B :: P) g1) (h0 : 0 ≤ verdict R B)
    (hE : ∀ y x, OnEdge R.res B y x →
      cell g1 y x = verdict R B ∧ toInt (R.pd R.cmin R.dc y x) = verdict R B) :
    ∃ g2, fillBlock R.res g1 (verdict R B) B.atY B.atX B.size 0 = some g2 ∧ GI R k P g2 := by
  obtain ⟨hres1, hbd, hsd, hk, hcover, hpd⟩ := hS
  have h' := h
  obtain ⟨hw, _, hP, _, _⟩ := h'
  obtain ⟨⟨j, hj, hby, hbx, hpath⟩, hpre⟩ := hP B (List.mem_cons_self _ _)
  have hy : B.atY + B.size < 2 ^ 32 := by omega
  have hx : B.atX + B.size < 2 ^ 32 := by omega
  obtain ⟨g2, e2, hw2, hc2⟩ := fillBlock_spec hw (verdict R B) B.size
    (by omega : B.atY < 2 ^ 32) (by omega : B.atX < 2 ^ 32) (by omega : R.res < 2 ^ 32)
  refine ⟨g2, e2, step_terminal h hw2 ?_ ?_⟩
  · intro y x p1 p2 hin
    have hval : cell g2 y x = verdict R B := by
      rw [hc2, if_pos ((inBlockRange_iff hy hx y x).mpr ⟨hin, p1, p2⟩)]
      by_cases hneg : cell g1 y x < 0
      · rw [if_pos hneg]
      · rw [if_neg hneg]
        rcases hpre y x hin p1 p2 with hh | hh
        · exact absurd hh hneg
        · exact (hE y x hh.1).1
    refine ⟨?_, ?_⟩
    · rw [hval, ← hpath y x hin p1 p2, finalVal_uniform hj h0]
    · intro hl
      rw [hval]
      exact (hE y x (last_onEdge hin p1 p2 hl)).2.symm
  · intro y x hno
    rw [hc2, if_neg (fun hh => hno ((inBlockRange_iff hy hx y x).mp hh))]

/-- The Brute Force step on the first pending block, after a heterogeneous probe. -/
theorem step_compute {R : Run} {k : Nat} (hS : Setup R k) {B : Block} {P : List Block}
    {g1 : Grid} (h : GI R k (B :: P) g1) (h0 : ¬ 0 ≤ verdict R B) (hsmall : B.size ≤ R.blockDim) :
    ∃ g2, computeBlock R.res R.pd R.cmin R.dc g1 B.atY B.atX B.size 0 = some g2 ∧
      GI R k P g2 := by
  obtain ⟨hres1, hbd, hsd, hk, hcover, hpd⟩ := hS
  have h' := h
  obtain ⟨hw, _, hP, _, _⟩ := h'
  obtain ⟨⟨j, hj, hby, hbx, hpath⟩, hpre⟩ := hP B (List.mem_cons_self _ _)
  have hy : B.atY + B.size < 2 ^ 32 := by omega
  have hx : B.atX + B.size < 2 ^ 32 := by omega
  have hj0 : j = 0 := level_zero hbd hsd (by rw [← hj]; exact hsmall)
  subst hj0
  obtain ⟨g2, e2, hw2, hc2⟩ := computeBlock_spec R.pd R.cmin R.dc hw B.size
    (by omega : B.atY < 2 ^ 32) (by omega : B.atX < 2 ^ 32) (by omega : R.res < 2 ^ 32)
  refine ⟨g2, e2, step_terminal h hw2 ?_ ?_⟩
  · intro y x p1 p2 hin
    have hval : cell g2 y x = toInt (R.pd R.cmin R.dc y x) := by
      rw [hc2, if_pos ((inBlockRange_iff hy hx y x).mpr ⟨hin, p1, p2⟩)]
    refine ⟨?_, fun _ => hval⟩
    rw [hval, ← hpath y x hin p1 p2, finalVal_zero, block_eta B hj, if_neg h0]
  · intro y x hno
    rw [hc2, if_neg (fun hh => hno ((inBlockRange_iff hy hx y x).mp hh))]

/-! ## The Subdivide step -/

theorem side_succ (R : Run) (j : Nat) : R.side (j + 1) = R.subDiv * R.side j := by
  unfold Run.side
  rw [Nat.pow_succ]
  ring

theorem succ_mul_le {a b : Nat} (h : a < b) (n : Nat) : a * n + n ≤ b * n := by
  have h1 : (a + 1) * n ≤ b * n := Nat.mul_le_mul_right n h
  rw [Nat.succ_mul] at h1
  exact h1

/-- The sub-block `(ydiv, xdiv)` of a block of side `subDiv * n`, without wrap-around. -/
theorem child_eq {sd n : Nat} {B : Block} (hsize : B.size = sd * n) (hsd : 1 ≤ sd)
    (hy : B.atY + B.size < 2 ^ 32) (hx : B.atX + B.size < 2 ^ 32) {yd xd : Nat} (hyd : yd < sd)
    (hxd : xd < sd) : child sd B yd xd = ⟨B.atY + yd * n, B.atX + xd * n, n⟩ := by
  have hdiv : B.size / sd = n := by rw [hsize]; exact Nat.mul_div_cancel_left n (by omega)
  have h1 := succ_mul_le hyd n
  have h2 := succ_mul_le hxd n
  unfold child
  rw [hdiv, wrap_of_lt (by omega : yd * n < 2 ^ 32), wrap_of_lt (by omega : xd * n < 2 ^ 32),
    wrap_of_lt (by omega : B.atY + yd * n < 2 ^ 32), wrap_of_lt (by omega : B.atX + xd * n < 2 ^ 32)]

theorem mem_children {sd : Nat} {B C : Block} :
    C ∈ children sd B ↔ ∃ yd < sd, ∃ xd < sd, C = child sd B yd xd := by
  unfold children
  simp only [List.mem_flatMap, List.mem_map, List.mem_range]
  constructor
  · rintro ⟨yd, hyd, xd, hxd, h⟩
    exact ⟨yd, hyd, xd, hxd, h.symm⟩
  · rintro ⟨yd, hyd, xd, hxd, h⟩
    exact ⟨yd, hyd, xd, hxd, h.symm⟩

/-- The sub-blocks of a block of side `subDiv * n` are pairwise apart. -/
theorem children_apart {sd n : Nat} {B : Block} (hsize : B.size = sd * n) (hsd : 1 ≤ sd)
    (hy : B.atY + B.size < 2 ^ 32) (hx : B.atX + B.size < 2 ^ 32) :
    (children sd B).Pairwise Apart := by
  unfold children
  rw [List.pairwise_flatMap]
  constructor
  · intro yd hyd
    rw [List.mem_range] at hyd
    rw [List.pairwise_map]
    refine List.Pairwise.imp_of_mem ?_ (List.pairwise_lt_range sd)
    intro xd xd' hxd hxd' hlt
    rw [List.mem_range] at hxd hxd'
    rw [child_eq hsize hsd hy hx hyd hxd, child_eq hsize hsd hy hx hyd hxd']
    intro y x
    unfold InB
    have := succ_mul_le hlt n
    simp only
    omega
  · refine List.Pairwise.imp_of_mem ?_ (List.pairwise_lt_range sd)
    intro yd yd' hyd hyd' hlt C hC C' hC'
    rw [List.mem_range] at hyd hyd'
    rw [List.mem_map] at hC hC'
    obtain ⟨xd, hxd, rfl⟩ := hC
    obtain ⟨xd', hxd', rfl⟩ := hC'
    rw [List.mem_range] at hxd hxd'
    rw [child_eq hsize hsd hy hx hyd hxd, child_eq hsize hsd hy hx hyd' hxd']
    intro y x
    unfold InB
    have := succ_mul_le hlt n
    simp only
    omega

/-- Every cell of a block of side `subDiv * n` lies in one of its sub-blocks. -/
theorem children_cover {sd n : Nat} {B : Block} (hsize : B.size = sd * n) (hsd : 1 ≤ sd)
    (hn : 1 ≤ n) (hy : B.atY + B.size < 2 ^ 32) (hx : B.atX + B.size < 2 ^ 32) {y x : Nat}
    (hin : InB B y x) : ∃ C ∈ children sd B, InB C y x := by
  unfold InB at hin
  have hyd : (y - B.atY) / n < sd := by
    rw [Nat.div_lt_iff_lt_mul (by omega)]
    omega
  have hxd : (x - B.atX) / n < sd := by
    rw [Nat.div_lt_iff_lt_mul (by omega)]
    omega
  refine ⟨child sd B ((y - B.atY) / n) ((x - B.atX) / n),
    mem_children.mpr ⟨_, hyd, _, hxd, rfl⟩, ?_⟩
  rw [child_eq hsize hsd hy hx hyd hxd]
  unfold InB
  have a1 := Nat.div_mul_le_self (y - B.atY) n
  have a2 := Nat.lt_div_mul_add (a := y - B.atY) (by omega : 0 < n)
  have a3 := Nat.div_mul_le_self (x - B.atX) n
  have a4 := Nat.lt_div_mul_add (a := x - B.atX) (by omega : 0 < n)
  simp only
  omega

/-- The Subdivide step on the first pending block: its sub-blocks become pending. -/
theorem step_subdivide {R : Run} {k : Nat} (hS : Setup R k) {B : Block} {P : List Block}
    {g1 : Grid} (h : GI R k (B :: P) g1) (h0 : ¬ 0 ≤ verdict R B) (hbig : ¬ B.size ≤ R.blockDim) :
    GI R k (children R.subDiv B ++ P) g1 ∧
      ∀ j, B.size = R.side (j + 1) → ∀ C ∈ children R.subDiv B, C.size = R.side j := by
  obtain ⟨hres1, hbd, hsd, hk, hcover, hpd⟩ := hS
  obtain ⟨hw, hlast, hP, hpair, hdone⟩ := h
  obtain ⟨⟨j, hj, hby, hbx, hpath⟩, hpre⟩ := hP B (List.mem_cons_self _ _)
  have hy : B.atY + B.size < 2 ^ 32 := by omega
  have hx : B.atX + B.size < 2 ^ 32 := by omega
  have hsd1 : 1 ≤ R.subDiv := by omega
  obtain ⟨j', rfl⟩ : ∃ j', j = j' + 1 := by
    cases j with
    | zero =>
      exfalso
      apply hbig
      rw [hj]
      unfold Run.side
      simp
    | succ j' => exact ⟨j', rfl⟩
  have hsize : B.size = R.subDiv * R.side j' := by rw [hj, side_succ]
  have hn : 1 ≤ R.side j' := side_pos R hbd (by omega) j'
  have hkid : ∀ C ∈ children R.subDiv B, ∃ yd < R.subDiv, ∃ xd < R.subDiv,
      C = ⟨B.atY + yd * R.side j', B.atX + xd * R.side j', R.side j'⟩ := by
    intro C hC
    obtain ⟨yd, hyd, xd, hxd, e⟩ := mem_children.mp hC
    exact ⟨yd, hyd, xd, hxd, by rw [e, child_eq hsize hsd1 hy hx hyd hxd]⟩
  have hsub : ∀ C ∈ children R.subDiv B, ∀ y x, InB C y x → InB B y x := by
    intro C hC y x hin
    obtain ⟨yd, hyd, xd, hxd, rfl⟩ := hkid C hC
    unfold InB at hin ⊢
    have := succ_mul_le hyd (R.side j')
    have := succ_mul_le hxd (R.side j')
    simp only at hin
    omega
  refine ⟨⟨hw, hlast, ?_, ?_, ?_⟩, ?_⟩
  · intro C hC
    rcases List.mem_append.mp hC with hC | hC
    · obtain ⟨yd, hyd, xd, hxd, e⟩ := hkid C hC
      have hCB := hsub C hC
      subst e
      have b1 := succ_mul_le hyd (R.side j')
      have b2 := succ_mul_le hxd (R.side j')
      refine ⟨⟨j', rfl, by simp only; omega, by simp only; omega, ?_⟩, ?_⟩
      · intro y x hin p1 p2
        rw [← hpath y x (hCB y x hin) p1 p2, finalVal_succ, block_eta B hj, if_neg h0]
        unfold InB at hin
        simp only at hin
        have e1 : (y - B.atY) / R.side j' = yd :=
          Nat.div_eq_of_lt_le (by omega) (by rw [Nat.succ_mul]; omega)
        have e2 : (x - B.atX) / R.side j' = xd :=
          Nat.div_eq_of_lt_le (by omega) (by rw [Nat.succ_mul]; omega)
        rw [e1, e2]
      · intro y x hin p1 p2
        rcases hpre y x (hCB y x hin) p1 p2 with hh | hh
        · exact Or.inl hh
        · right
          refine ⟨onEdge_sub hh.1 hin ?_ ?_ ?_ ?_, hh.2⟩ <;> simp only <;> omega
    · exact hP C (List.mem_cons_of_mem _ hC)
  · rw [List.pairwise_append]
    refine ⟨children_apart hsize hsd1 hy hx, (List.pairwise_cons.mp hpair).2, ?_⟩
    intro C hC B' hB' y x hh
    exact (List.pairwise_cons.mp hpair).1 B' hB' y x ⟨hsub C hC y x hh.1, hh.2⟩
  · intro y x p1 p2 hno
    apply hdone y x p1 p2
    intro B' hB'
    rcases List.mem_cons.mp hB' with e | hB'
    · rw [e]
      intro hin
      obtain ⟨C, hC, hCin⟩ := children_cover hsize hsd1 hn hy hx hin
      exact hno C (List.mem_append_left _ hC) hCin
    · exact hno B' (List.mem_append_right _ hB')
  · intro j2 hj2 C hC
    obtain ⟨yd, hyd, xd, hxd, e⟩ := hkid C hC
    rw [e]
    simp only
    have : R.subDiv * R.side j2 = R.subDiv * R.side j' := by
      rw [← side_succ, ← hj2, hsize]
    exact (Nat.eq_of_mul_eq_mul_left (by omega) this).symm

/-! ## The sequential strategy reaches the determined result -/

theorem foldlM_nested_gen {β : Type} (f : Grid → β → Option Grid) (mk : Nat → Nat → β)
    (cols : List Nat) :
    ∀ (rows : List Nat) (g : Grid),
      rows.foldlM (fun g y => cols.foldlM (fun g x => f g (mk y x)) g) g =
        (rows.flatMap fun y => cols.map fun x => mk y x).foldlM f g := by
  intro rows
  induction rows with
  | nil => intro g; rfl
  | cons y rows ih =>
    intro g
    rw [List.foldlM_cons, List.flatMap_cons, List.foldlM_append, List.foldlM_map]
    congr 1
    funext g1
    exact ih g1

/-- The body of `marianiSilverOriginal` with border marking off, the two loops of the
Subdivide step being a single loop over the sub-blocks. -/
theorem marianiSilverOriginal_unfold (R : Run) (fuel : Nat) (g : Grid) (B : Block) :
    marianiSilverOriginal R.res R.blockDim R.subDiv false R.pd R.cmin R.dc (fuel + 1) g
        B.atY B.atX B.size =
      (commonBorder R.res R.pd R.cmin R.dc g B.atY B.atX B.size).bind fun r =>
        if r.2 ≥ 0 then fillBlock R.res r.1 r.2 B.atY B.atX B.size 0
        else if B.size ≤ R.blockDim then
          computeBlock R.res R.pd R.cmin R.dc r.1 B.atY B.atX B.size 0
        else if R.subDiv = 0 then none
        else (children R.subDiv B).foldlM
          (fun g C => marianiSilverOriginal R.res R.blockDim R.subDiv false R.pd R.cmin R.dc
            fuel g C.atY C.atX C.size) r.1 := by
  rw [marianiSilverOriginal]
  congr 1
  funext r
  simp only [Bool.false_eq_true, if_false, Option.bind_some]
  split
  · rfl
  · split
    · rfl
    · split
      · rfl
      · exact foldlM_nested_gen
          (fun g C => marianiSilverOriginal R.res R.blockDim R.subDiv false R.pd R.cmin R.dc
            fuel g C.atY C.atX C.size) (child R.subDiv B) (List.range R.subDiv)
          (List.range R.subDiv) r.1

/-- From a state satisfying the invariant, `marianiSilverOriginal` on the first pending block
returns and leaves the invariant for the other pending blocks. -/
theorem dfs_spec {R : Run} {k : Nat} (hS : Setup R k) :
    ∀ (j : Nat) (B : Block) (P : List Block) (g : Grid) (fuel : Nat), B.size = R.side j →
      j < fuel → GI R k (B :: P) g →
      ∃ g', marianiSilverOriginal R.res R.blockDim R.subDiv false R.pd R.cmin R.dc fuel g
          B.atY B.atX B.size = some g' ∧ GI R k P g' := by
  intro j
  induction j with
  | zero =>
    intro B P g fuel hj hfuel h
    obtain ⟨fuel, rfl⟩ : ∃ f, fuel = f + 1 := ⟨fuel - 1, by omega⟩
    obtain ⟨g1, e, h1, hE, _⟩ := step_probe hS h
    rw [marianiSilverOriginal_unfold, e, Option.some_bind]
    simp only
    by_cases h0 : 0 ≤ verdict R B
    · rw [if_pos h0]
      exact step_fill hS h1 h0 (hE h0)
    · have hsmall : B.size ≤ R.blockDim := by
        rw [hj]
        unfold Run.side
        simp
      rw [if_neg h0, if_pos hsmall]
      exact step_compute hS h1 h0 hsmall
  | succ j ih =>
    intro B P g fuel hj hfuel h
    obtain ⟨fuel, rfl⟩ : ∃ f, fuel = f + 1 := ⟨fuel - 1, by omega⟩
    obtain ⟨g1, e, h1, hE, _⟩ := step_probe hS h
    rw [marianiSilverOriginal_unfold, e, Option.some_bind]
    simp only
    by_cases h0 : 0 ≤ verdict R B
    · rw [if_pos h0]
      exact step_fill hS h1 h0 (hE h0)
    · rw [if_neg h0]
      by_cases hsmall : B.size ≤ R.blockDim
      · rw [if_pos hsmall]
        exact step_compute hS h1 h0 hsmall
      · have hsd : ¬ R.subDiv = 0 := by
          have := hS.2.2.1
          omega
        rw [if_neg hsmall, if_neg hsd]
        obtain ⟨h2, hsizes⟩ := step_subdivide hS h1 h0 hsmall
        have hkids := hsizes j hj
        clear hsizes e h1 hE h
        generalize children R.subDiv B = cs at h2 hkids
        induction cs generalizing g1 with
        | nil => exact ⟨g1, rfl, h2⟩
        | cons C cs ihc =>
          obtain ⟨g2, e2, h3⟩ := ih C (cs ++ P) g1 fuel
            (hkids C (List.mem_cons_self _ _)) (by omega) h2
          rw [List.foldlM_cons, e2]
          exact ihc g2 h3 (fun C' hC' => hkids C' (List.mem_cons_of_mem _ hC'))

/-! ## The whole run from the root block -/

/-- The invariant holds initially: all-unset buffer, the root block pending. -/
theorem GI_init {R : Run} {k : Nat} (hS : Setup R k) :
    GI R k [⟨0, 0, R.side k⟩] (unsetGrid R.res) := by
  obtain ⟨hres1, hbd, hsd, hk, hcover, hpd⟩ := hS
  refine ⟨WF_unsetGrid R.res, ?_, ?_, List.pairwise_singleton _ _, ?_⟩
  · intro y x p1 p2 _
    left
    rw [cell_unsetGrid p1 p2]
    omega
  · intro B hB
    rw [List.mem_singleton] at hB
    subst hB
    refine ⟨⟨k, rfl, by simp, by simp, fun _ _ _ _ _ => rfl⟩, ?_⟩
    intro y x _ p1 p2
    left
    rw [cell_unsetGrid p1 p2]
    omega
  · intro y x p1 p2 hno
    exfalso
    apply hno ⟨0, 0, R.side k⟩ (List.mem_singleton.mpr rfl)
    unfold InB
    simp only
    omega

theorem verdict_is_value (R : Run) (hpd : ∀ y x, R.pd R.cmin R.dc y x < 2 ^ 31) (B : Block)
    (h0 : 0 ≤ verdict R B) : ∃ y x, verdict R B = toInt (R.pd R.cmin R.dc y x) := by
  obtain ⟨g0, r0, e0, _, _, hB0⟩ :=
    commonBorder_spec hpd (WF_unsetGrid R.res) B.atY B.atX B.size
  have hv : verdict R B = r0 := by
    unfold verdict
    rw [e0]
    rfl
  rcases hB0 with ⟨_, hall, p, hp, p1, p2⟩ | ⟨h, _⟩
  · refine ⟨p.1, p.2, ?_⟩
    rw [hv, ← (hall p hp p1 p2).2, memo_unsetGrid R.pd R.cmin R.dc p1 p2]
  · omega

theorem finalVal_le (R : Run) (maxDwell : Nat) (hmax : maxDwell < 2 ^ 31)
    (hpd : ∀ y x, R.pd R.cmin R.dc y x ≤ maxDwell) :
    ∀ (j atY atX y x : Nat), finalVal R j atY atX y x ≤ (maxDwell : Int) := by
  have hpd' : ∀ y x, R.pd R.cmin R.dc y x < 2 ^ 31 := fun y x =>
    Nat.lt_of_le_of_lt (hpd y x) hmax
  have hval : ∀ y x, toInt (R.pd R.cmin R.dc y x) ≤ (maxDwell : Int) := by
    intro y x
    rw [toInt_of_lt (hpd' y x)]
    exact Int.ofNat_le.mpr (hpd y x)
  have hver : ∀ B, 0 ≤ verdict R B → verdict R B ≤ (maxDwell : Int) := by
    intro B h0
    obtain ⟨y, x, e⟩ := verdict_is_value R hpd' B h0
    rw [e]
    exact hval y x
  intro j
  induction j with
  | zero =>
    intro atY atX y x
    rw [finalVal_zero]
    by_cases h : 0 ≤ verdict R ⟨atY, atX, R.side 0⟩
    · rw [if_pos h]
      exact hver _ h
    · rw [if_neg h]
      exact hval y x
  | succ j ih =>
    intro atY atX y x
    rw [finalVal_succ]
    by_cases h : 0 ≤ verdict R ⟨atY, atX, R.side (j + 1)⟩
    · rw [if_pos h]
      exact hver _ h
    · rw [if_neg h]
      exact ih _ _ y x

/-- The sequential strategy on the root block, from the all-unset buffer: it returns and
every in-grid cell holds the value determined by the evaluator. -/
theorem sequential_result {R : Run} {k : Nat} (hS : Setup R k) (fuel : Nat) (hfuel : k < fuel) :
    ∃ g', marianiSilverOriginal R.res R.blockDim R.subDiv false R.pd R.cmin R.dc fuel
        (unsetGrid R.res) 0 0 (R.side k) = some g' ∧ WF R.res g' ∧
      ∀ y x, y < R.res → x < R.res → cell g' y x = finalVal R k 0 0 y x := by
  obtain ⟨g', e, hw, _, _, _, hdone⟩ :=
    dfs_spec hS k ⟨0, 0, R.side k⟩ [] (unsetGrid R.res) fuel rfl hfuel (GI_init hS)
  exact ⟨g', e, hw, fun y x p1 p2 => hdone y x p1 p2 (fun _ hB => absurd hB (List.not_mem_nil _))⟩

/-- C1: for `res ≥ 1`, `blockDim ≥ 4`, `subDiv ≥ 2` and a root side `blockDim * subDiv ^ k`
(an `unsigned int`) that is at least `res`, and an evaluator with values in `[0, maxDwell]`:
from the all-unset `res × res` buffer, with border marking off, `marianiSilverOriginal` on the
root block returns (for every depth bound above `k`) and leaves every cell in
`[0, maxDwell]`. -/
theorem marianiSilverOriginal_sets_every_cell (res blockDim subDiv maxDwell k : Nat)
    (pd : Evaluator) (cmin dc : Cplx) (hres : 1 ≤ res) (hbd : 4 ≤ blockDim) (hsd : 2 ≤ subDiv)
    (hcover : res ≤ blockDim * subDiv ^ k) (h32 : blockDim * subDiv ^ k < 2 ^ 32)
    (hmax : maxDwell < 2 ^ 31) (hpd : ∀ y x, pd cmin dc y x ≤ maxDwell) (fuel : Nat)
    (hfuel : k < fuel) :
    ∃ g', marianiSilverOriginal res blockDim subDiv false pd cmin dc fuel (unsetGrid res) 0 0
        (blockDim * subDiv ^ k) = some g' ∧ WF res g' ∧
      ∀ y x, y < res → x < res → 0 ≤ cell g' y x ∧ cell g' y x ≤ (maxDwell : Int) := by
  have hpd' : ∀ y x, pd cmin dc y x < 2 ^ 31 := fun y x => Nat.lt_of_le_of_lt (hpd y x) hmax
  have hS : Setup ⟨res, blockDim, subDiv, pd, cmin, dc⟩ k :=
    ⟨hres, by show 1 ≤ blockDim; omega, hsd, h32, hcover, hpd'⟩
  obtain ⟨g', e, hw, hc⟩ := sequential_result hS fuel hfuel
  refine ⟨g', e, hw, ?_⟩
  intro y x p1 p2
  rw [hc y x p1 p2]
  exact ⟨finalVal_nonneg _ hpd' k 0 0 y x, finalVal_le _ maxDwell hmax hpd k 0 0 y x⟩

theorem marianiSilverOriginal_sets_every_cell_witness :
    ∃ g', marianiSilverOriginal 5 4 4 false (fun _ _ y x => (x / 3 + y / 3) % 2) ⟨0, 0⟩ ⟨0, 0⟩ 2
        (unsetGrid 5) 0 0 (4 * 4 ^ 1) = some g' ∧ WF 5 g' ∧
      ∀ y x, y < 5 → x < 5 → 0 ≤ cell g' y x ∧ cell g' y x ≤ ((1 : Nat) : Int) :=
  marianiSilverOriginal_sets_every_cell 5 4 4 1 1 (fun _ _ y x => (x / 3 + y / 3) % 2) ⟨0, 0⟩
    ⟨0, 0⟩ (by norm_num) (by norm_num) (by norm_num) (by norm_num) (by norm_num) (by norm_num)
    (by intro y x; show (x / 3 + y / 3) % 2 ≤ 1; omega) 2 (by norm_num)

/-! ## The queue strategy reaches the determined result -/

theorem GI_perm {R : Run} {k : Nat} {P P' : List Block} {g : Grid} (hp : P.Perm P')
    (h : GI R k P g) : GI R k P' g := by
  obtain ⟨hw, hlast, hP, hpair, hdone⟩ := h
  refine ⟨hw, hlast, fun B hB => hP B (hp.mem_iff.mpr hB), ?_, ?_⟩
  · refine (List.Perm.pairwise_iff ?_ hp).mp hpair
    intro B C hBC y x hh
    exact hBC y x ⟨hh.2, hh.1⟩
  · intro y x p1 p2 hno
    exact hdone y x p1 p2 (fun B hB => hno B (hp.mem_iff.mp hB))

theorem addWork_loop (mk : Nat → Job) :
    ∀ (cols : List Nat) (s : Shared),
      cols.foldl (fun s x => addWork s (mk x)) s = { s with queue := s.queue ++ cols.map mk } := by
  intro cols
  induction cols with
  | nil => intro s; simp
  | cons x cols ih =>
    intro s
    rw [List.foldl_cons, ih]
    simp [addWork]

theorem addWork_loops (mk : Nat → Nat → Job) (cols : List Nat) :
    ∀ (rows : List Nat) (s : Shared),
      rows.foldl (fun s y => cols.foldl (fun s x => addWork s (mk y x)) s) s =
        { s with queue := s.queue ++ rows.flatMap fun y => cols.map fun x => mk y x } := by
  intro rows
  induction rows with
  | nil => intro s; simp
  | cons y rows ih =>
    intro s
    rw [List.foldl_cons, addWork_loop (mk y), ih]
    simp

theorem childJobs_blocks (subDiv : Nat) (dwell : Int) (cmin dc : Cplx) (B : Block) :
    (childJobs subDiv dwell cmin dc B).map blockOf = children subDiv B := by
  unfold childJobs children
  rw [List.map_flatMap]
  congr 1
  funext ydiv
  rw [List.map_map]
  rfl

theorem childJobs_plane (subDiv : Nat) (dwell : Int) (cmin dc : Cplx) (B : Block) :
    ∀ t ∈ childJobs subDiv dwell cmin dc B, t.cmin = cmin ∧ t.dc = dc := by
  intro t ht
  unfold childJobs at ht
  simp only [List.mem_flatMap, List.mem_map, List.mem_range] at ht
  obtain ⟨_, _, _, _, rfl⟩ := ht
  exact ⟨rfl, rfl⟩

/-- The body of `marianiSilverJob` with border marking off. -/
theorem marianiSilverJob_unfold (R : Run) (s : Shared) (B : Block) :
    marianiSilverJob R.res R.blockDim R.subDiv false R.pd s R.cmin R.dc B.atY B.atX B.size =
      (commonBorder R.res R.pd R.cmin R.dc s.buf B.atY B.atX B.size).bind fun r =>
        if r.2 ≥ 0 then
          (fillBlock R.res r.1 r.2 B.atY B.atX B.size 0).map fun g3 => { s with buf := g3 }
        else if B.size ≤ R.blockDim then
          (computeBlock R.res R.pd R.cmin R.dc r.1 B.atY B.atX B.size 0).map fun g3 =>
            { s with buf := g3 }
        else if R.subDiv = 0 then none
        else some
          { raiseLimit R.subDiv { s with buf := r.1 } with
            queue := s.queue ++ childJobs R.subDiv r.2 R.cmin R.dc B } := by
  unfold marianiSilverJob
  congr 1
  funext r
  simp only [Bool.false_eq_true, if_false]
  split
  · cases fillBlock R.res r.1 r.2 B.atY B.atX B.size 0 <;> rfl
  · split
    · cases computeBlock R.res R.pd R.cmin R.dc r.1 B.atY B.atX B.size 0 <;> rfl
    · split
      · rfl
      · rw [addWork_loops]
        rfl

theorem sum_map_const {α : Type} (f : α → Nat) (c : Nat) :
    ∀ (l : List α), (∀ a ∈ l, f a = c) → (l.map f).sum = l.length * c := by
  intro l
  induction l with
  | nil => intro _; simp
  | cons a l ih =>
    intro h
    rw [List.map_cons, List.sum_cons, h a (List.mem_cons_self _ _),
      ih (fun b hb => h b (List.mem_cons_of_mem _ hb)), List.length_cons, Nat.succ_mul]
    omega

theorem children_length (sd : Nat) (B : Block) : (children sd B).length = sd * sd := by
  unfold children
  rw [List.length_flatMap, sum_map_const _ sd _ (by intro a _; simp), List.length_range]

theorem level_of_side (R : Run) (hbd : 1 ≤ R.blockDim) (hsd : 2 ≤ R.subDiv) (j : Nat) :
    Nat.log R.subDiv (R.side j / R.blockDim) = j := by
  unfold Run.side
  rw [Nat.mul_div_cancel_left _ (by omega), Nat.log_pow (by omega)]

theorem cost_cons (R : Run) (B : Block) (P : List Block) :
    cost R (B :: P) = weight R.subDiv (Nat.log R.subDiv (B.size / R.blockDim)) + cost R P := by
  unfold cost
  rw [List.map_cons, List.sum_cons]

theorem cost_append (R : Run) (P Q : List Block) : cost R (P ++ Q) = cost R P + cost R Q := by
  unfold cost
  rw [List.map_append, List.sum_append]

theorem weight_pos (sd j : Nat) : 1 ≤ weight sd j := by
  cases j <;> unfold weight <;> omega

/-- From a state satisfying the invariant, `workerWithoutThread` drains the queue, given more
iterations than the cost of the queued blocks, and leaves the determined result. -/
theorem bfs_spec {R : Run} {k : Nat} (hS : Setup R k) :
    ∀ (m : Nat) (s : Shared) (fuel : Nat), GI R k (s.queue.map blockOf) s.buf →
      (∀ t ∈ s.queue, t.cmin = R.cmin ∧ t.dc = R.dc) → cost R (s.queue.map blockOf) ≤ m →
      m < fuel →
      ∃ s', workerWithoutThread R.res R.blockDim R.subDiv false R.pd fuel s = some s' ∧
        s'.queue = [] ∧ GI R k [] s'.buf := by
  have hS' := hS
  obtain ⟨hres1, hbd, hsd, hk, hcover, hpd⟩ := hS'
  intro m
  induction m with
  | zero =>
    intro s fuel h _ hcost hfuel
    obtain ⟨fuel, rfl⟩ : ∃ f, fuel = f + 1 := ⟨fuel - 1, by omega⟩
    cases hq : s.queue with
    | nil =>
      rw [hq] at h
      refine ⟨s, ?_, hq, h⟩
      rw [workerWithoutThread, hq]
    | cons t rest =>
      rw [hq, List.map_cons, cost_cons] at hcost
      have := weight_pos R.subDiv (Nat.log R.subDiv ((blockOf t).size / R.blockDim))
      omega
  | succ m ih =>
    intro s fuel h hplane hcost hfuel
    obtain ⟨fuel, rfl⟩ : ∃ f, fuel = f + 1 := ⟨fuel - 1, by omega⟩
    cases hq : s.queue with
    | nil =>
      rw [hq] at h
      refine ⟨s, ?_, hq, h⟩
      rw [workerWithoutThread, hq]
    | cons t rest =>
      rw [hq, List.map_cons] at h hcost
      rw [cost_cons] at hcost
      have ht := hplane t (by rw [hq]; exact List.mem_cons_self _ _)
      have hrest : ∀ t' ∈ rest, t'.cmin = R.cmin ∧ t'.dc = R.dc := fun t' ht' =>
        hplane t' (by rw [hq]; exact List.mem_cons_of_mem _ ht')
      have unf : workerWithoutThread R.res R.blockDim R.subDiv false R.pd (fuel + 1) s =
          (marianiSilverJob R.res R.blockDim R.subDiv false R.pd { s with queue := rest }
            R.cmin R.dc (blockOf t).atY (blockOf t).atX (blockOf t).size).bind
            (workerWithoutThread R.res R.blockDim R.subDiv false R.pd fuel) := by
        rw [workerWithoutThread, hq]
        simp only [ht.1, ht.2, blockOf]
      have hw := weight_pos R.subDiv (Nat.log R.subDiv ((blockOf t).size / R.blockDim))
      rw [unf, marianiSilverJob_unfold]
      obtain ⟨g1, e, h1, hE, _⟩ := step_probe hS h
      simp only [e, Option.some_bind]
      by_cases h0 : 0 ≤ verdict R (blockOf t)
      · obtain ⟨g2, e2, h2⟩ := step_fill hS h1 h0 (hE h0)
        simp only [ge_iff_le, h0, if_true, e2, Option.map_some', Option.some_bind]
        exact ih _ fuel h2 hrest (by simp only; omega) (by omega)
      · by_cases hsmall : (blockOf t).size ≤ R.blockDim
        · obtain ⟨g2, e2, h2⟩ := step_compute hS h1 h0 hsmall
          simp only [ge_iff_le, h0, if_false, hsmall, if_true, e2, Option.map_some',
            Option.some_bind]
          exact ih _ fuel h2 hrest (by simp only; omega) (by omega)
        · have hsd0 : ¬ R.subDiv = 0 := by omega
          obtain ⟨h2, hsizes⟩ := step_subdivide hS h1 h0 hsmall
          simp only [ge_iff_le, h0, if_false, hsmall, hsd0, Option.some_bind]
          obtain ⟨⟨j, hj, _⟩, _⟩ := h1.2.2.1 (blockOf t) (List.mem_cons_self _ _)
          obtain ⟨j', rfl⟩ : ∃ j', j = j' + 1 := by
            cases j with
            | zero =>
              exfalso
              apply hsmall
              rw [hj]
              unfold Run.side
              simp
            | succ j' => exact ⟨j', rfl⟩
          have hkids := hsizes j' hj
          apply ih _ fuel
          · simp only [raiseLimit, List.map_append, childJobs_blocks]
            exact GI_perm List.perm_append_comm h2
          · intro t' ht'
            simp only [raiseLimit] at ht'
            rcases List.mem_append.mp ht' with h' | h'
            · exact hrest t' h'
            · exact childJobs_plane _ _ _ _ _ t' h'
          · simp only [raiseLimit, List.map_append, childJobs_blocks]
            rw [cost_append]
            have hc : cost R (children R.subDiv (blockOf t)) =
                (children R.subDiv (blockOf t)).length * weight R.subDiv j' := by
              unfold cost
              apply sum_map_const
              intro C hC
              rw [hkids C hC, level_of_side R hbd hsd]
            rw [hc, children_length]
            rw [hj, level_of_side R hbd hsd, weight] at hcost
            omega
          · omega

/-- The queue strategy drained by one worker, from the all-unset buffer with the root job
enqueued: it returns with an empty queue and every in-grid cell holds the value determined by
the evaluator. -/
theorem queue_result {R : Run} {k : Nat} (hS : Setup R k) (fuel : Nat)
    (hfuel : weight R.subDiv k < fuel) (d : Int) (c l : Int) :
    ∃ s', workerWithoutThread R.res R.blockDim R.subDiv false R.pd fuel
        { buf := unsetGrid R.res
          queue := [⟨d, 0, 0, R.side k, R.dc, R.cmin⟩]
          counter := c
          limit := l } = some s' ∧ s'.queue = [] ∧ WF R.res s'.buf ∧
      ∀ y x, y < R.res → x < R.res → cell s'.buf y x = finalVal R k 0 0 y x := by
  obtain ⟨s', e, hq, hw, _, _, _, hdone⟩ := bfs_spec hS (weight R.subDiv k)
    { buf := unsetGrid R.res
      queue := [⟨d, 0, 0, R.side k, R.dc, R.cmin⟩]
      counter := c
      limit := l } fuel (GI_init hS)
    (by
      intro t ht
      rw [List.mem_singleton] at ht
      subst ht
      exact ⟨rfl, rfl⟩)
    (by
      show cost R [⟨0, 0, R.side k⟩] ≤ weight R.subDiv k
      rw [cost_cons]
      simp only
      rw [level_of_side R hS.2.1 hS.2.2.1]
      simp [cost])
    hfuel
  exact ⟨s', e, hq, hw,
    fun y x p1 p2 => hdone y x p1 p2 (fun _ hB => absurd hB (List.not_mem_nil _))⟩

/-- C3: for the parameters of C1, an evaluator with values in `[0, maxDwell]` and the
all-unset buffer, with border marking off: the recursive strategy `marianiSilverOriginal` on
the root block returns a buffer `g` (the same for every depth bound above `k`), and the queue
strategy (root job enqueued, `limit = 1`, then `workerWithoutThread`) returns, for every bound
on its iterations above `weight subDiv k`, with an empty queue and exactly the buffer `g`. -/
theorem queue_matches_sequential (res blockDim subDiv maxDwell k : Nat) (pd : Evaluator)
    (cmin dc : Cplx) (hres : 1 ≤ res) (hbd : 4 ≤ blockDim) (hsd : 2 ≤ subDiv)
    (hcover : res ≤ blockDim * subDiv ^ k) (h32 : blockDim * subDiv ^ k < 2 ^ 32)
    (hmax : maxDwell < 2 ^ 31) (hpd : ∀ y x, pd cmin dc y x ≤ maxDwell) :
    ∃ g, (∀ fuel, k < fuel →
        marianiSilverOriginal res blockDim subDiv false pd cmin dc fuel (unsetGrid res) 0 0
          (blockDim * subDiv ^ k) = some g) ∧
      ∀ fuel, weight subDiv k < fuel →
        ∃ s', workerWithoutThread res blockDim subDiv false pd fuel
            { buf := unsetGrid res
              queue := [⟨0, 0, 0, blockDim * subDiv ^ k, dc, cmin⟩]
              counter := 0
              limit := 1 } = some s' ∧ s'.queue = [] ∧ s'.buf = g := by
  have hpd' : ∀ y x, pd cmin dc y x < 2 ^ 31 := fun y x => Nat.lt_of_le_of_lt (hpd y x) hmax
  have hS : Setup ⟨res, blockDim, subDiv, pd, cmin, dc⟩ k :=
    ⟨hres, by show 1 ≤ blockDim; omega, hsd, h32, hcover, hpd'⟩
  obtain ⟨g, _, hw, hc⟩ := sequential_result hS (k + 1) (by omega)
  refine ⟨g, ?_, ?_⟩
  · intro fuel hfuel
    obtain ⟨g2, e2, hw2, hc2⟩ := sequential_result hS fuel hfuel
    have : g2 = g := grid_ext hw2 hw (fun y x p1 p2 => by rw [hc2 y x p1 p2, hc y x p1 p2])
    rw [← this]
    exact e2
  · intro fuel hfuel
    obtain ⟨s', e, hq, hw2, hc2⟩ := queue_result hS fuel hfuel 0 0 1
    exact ⟨s', e, hq, grid_ext hw2 hw (fun y x p1 p2 => by rw [hc2 y x p1 p2, hc y x p1 p2])⟩

theorem queue_matches_sequential_witness :
    ∃ g, (∀ fuel, 1 < fuel →
        marianiSilverOriginal 5 4 4 false (fun _ _ y x => (x / 3 + y / 3) % 2) ⟨0, 0⟩ ⟨0, 0⟩ fuel
          (unsetGrid 5) 0 0 (4 * 4 ^ 1) = some g) ∧
      ∀ fuel, weight 4 1 < fuel →
        ∃ s', workerWithoutThread 5 4 4 false (fun _ _ y x => (x / 3 + y / 3) % 2) fuel
            { buf := unsetGrid 5
              queue := [⟨0, 0, 0, 4 * 4 ^ 1, ⟨0, 0⟩, ⟨0, 0⟩⟩]
              counter := 0
              limit := 1 } = some s' ∧ s'.queue = [] ∧ s'.buf = g :=
  queue_matches_sequential 5 4 4 1 1 (fun _ _ y x => (x / 3 + y / 3) % 2) ⟨0, 0⟩ ⟨0, 0⟩
    (by norm_num) (by norm_num) (by norm_num) (by norm_num) (by norm_num) (by norm_num)
    (by intro y x; show (x / 3 + y / 3) % 2 ≤ 1; omega)

/-! ## Sentinels and accepted parameters -/

theorem orbit_zero (n : Nat) : orbit exactFloating (0, 0) n = (0, 0) := by
  induction n with
  | zero => rfl
  | succ n ih =>
    rw [orbit, ih, exact_step]
    norm_num

/-- The dwell of the plane point `0` is the iteration cap. -/
theorem pixelDwell_origin (res maxDwell : Nat) (dc : ℚ × ℚ) :
    pixelDwell exactFloating res maxDwell (0, 0) dc 0 0 = maxDwell := by
  obtain ⟨_, h2, _⟩ := pixelDwell_spec exactFloating res maxDwell (0, 0) dc 0 0
  have hc : planePoint exactFloating res (0, 0) dc 0 0 = (0, 0) := by
    rw [exact_planePoint]
    norm_num
  rw [hc, orbit_zero] at h2
  rcases h2 with h | h
  · exact h
  · have : exactFloating.absLt (0, 0) 4 = true := by
      rw [exact_absLt, decide_eq_true_eq]
      norm_num
    rw [this] at h
    exact absurd h (by decide)

/-- C11 (as amended): for every max-dwell value below `dwellCompute = INT_MAX - 1` that the
program accepts (`max(1, a)` for an `int` `a`), the two border sentinels lie outside
`[0, maxDwell]` and no value returned by `pixelDwell` equals a sentinel, whatever the results
of the operations on `double` are. -/
theorem sentinels_outside_dwell_range (a : Int)
    (hlt : (acceptedMaxDwell a : Int) < dwellCompute) :
    ¬ (0 ≤ dwellFill ∧ dwellFill ≤ (acceptedMaxDwell a : Int)) ∧
      ¬ (0 ≤ dwellCompute ∧ dwellCompute ≤ (acceptedMaxDwell a : Int)) ∧
      ∀ (D : Type) (F : Floating D) (res : Nat) (cmin dc : D × D) (y x : Nat),
        toInt (pixelDwell F res (acceptedMaxDwell a) cmin dc y x) ≠ dwellFill ∧
          toInt (pixelDwell F res (acceptedMaxDwell a) cmin dc y x) ≠ dwellCompute := by
  unfold dwellCompute at hlt
  unfold dwellFill dwellCompute
  refine ⟨by omega, by omega, ?_⟩
  intro D F res cmin dc y x
  have h := (pixelDwell_spec F res (acceptedMaxDwell a) cmin dc y x).1
  have hlt' : pixelDwell F res (acceptedMaxDwell a) cmin dc y x < 2 ^ 31 := by omega
  rw [toInt_of_lt hlt']
  omega

theorem sentinels_outside_dwell_range_witness :
    ¬ (0 ≤ dwellFill ∧ dwellFill ≤ (acceptedMaxDwell 512 : Int)) ∧
      ¬ (0 ≤ dwellCompute ∧ dwellCompute ≤ (acceptedMaxDwell 512 : Int)) ∧
      ∀ (D : Type) (F : Floating D) (res : Nat) (cmin dc : D × D) (y x : Nat),
        toInt (pixelDwell F res (acceptedMaxDwell 512) cmin dc y x) ≠ dwellFill ∧
          toInt (pixelDwell F res (acceptedMaxDwell 512) cmin dc y x) ≠ dwellCompute :=
  sentinels_outside_dwell_range 512 (by decide)

/-- C11 (counterexample): the program accepts `-i 2147483647`; then `maxDwell = INT_MAX`, the
sentinel `dwellFill = INT_MAX` lies in `[0, maxDwell]`, and `pixelDwell` returns it at the
plane point `0`, where every value met is 0 and the arithmetic is exact. -/
theorem dwellFill_is_a_dwell :
    (0 ≤ dwellFill ∧ dwellFill ≤ (acceptedMaxDwell 2147483647 : Int)) ∧
      toInt (pixelDwell exactFloating 1024 (acceptedMaxDwell 2147483647) (0, 0) (2, 2) 0 0) =
        dwellFill := by
  have h : acceptedMaxDwell 2147483647 = 2147483647 := by decide
  rw [pixelDwell_origin, h]
  decide

/-! ## One Brute Force step on a block beyond the grid -/

/-- C15: on the all-unset 5 × 5 buffer, with `blockDim = 4` and the evaluator `y % 2`, the
block `(0, 8, 4)` has a heterogeneous probe and side `≤ blockDim`; one step of
`marianiSilverOriginal` (Brute Force, border marking off) changes the cells `(0, 4)` and
`(1, 4)`, which lie outside the block. -/
theorem bruteForce_step_writes_outside :
    (commonBorder 5 (fun _ _ y _ => y % 2) ⟨0, 0⟩ ⟨0, 0⟩ (unsetGrid 5) 0 8 4).map Prod.snd =
        some (-1) ∧
      ¬ InB ⟨0, 8, 4⟩ 0 4 ∧ ¬ InB ⟨0, 8, 4⟩ 1 4 ∧
      marianiSilverOriginal 5 4 4 false (fun _ _ y _ => y % 2) ⟨0, 0⟩ ⟨0, 0⟩ 1 (unsetGrid 5) 0 8 4 =
        some [[-1, -1, -1, -1, 0], [-1, -1, -1, -1, 1], [-1, -1, -1, -1, -1],
          [-1, -1, -1, -1, -1], [-1, -1, -1, -1, -1]] := by
  decide

/-! ## The Subdivide step tiles the parent block -/

theorem children_size {sd n : Nat} {B : Block} (hsize : B.size = sd * n) (hsd : 1 ≤ sd) :
    ∀ C ∈ children sd B, C.size = n := by
  intro C hC
  obtain ⟨yd, _, xd, _, rfl⟩ := mem_children.mp hC
  unfold child
  simp only
  rw [hsize]
  exact Nat.mul_div_cancel_left n (by omega)

theorem children_inside {sd n : Nat} {B : Block} (hsize : B.size = sd * n) (hsd : 1 ≤ sd)
    (hy : B.atY + B.size < 2 ^ 32) (hx : B.atX + B.size < 2 ^ 32) :
    ∀ C ∈ children sd B, B.atY ≤ C.atY ∧ C.atY + C.size ≤ B.atY + B.size ∧ B.atX ≤ C.atX ∧
      C.atX + C.size ≤ B.atX + B.size := by
  intro C hC
  obtain ⟨yd, hyd, xd, hxd, rfl⟩ := mem_children.mp hC
  rw [child_eq hsize hsd hy hx hyd hxd]
  have := succ_mul_le hyd n
  have := succ_mul_le hxd n
  simp only
  omega

/-- The side of a block reached from a root of side `blockDim * subDiv ^ n` that fits the
unsigned range. -/
theorem reached_side {blockDim subDiv n : Nat} (hsd : 2 ≤ subDiv)
    {root B : Block} (hroot : root.size = blockDim * subDiv ^ n)
    (hy : root.atY + root.size < 2 ^ 32) (hx : root.atX + root.size < 2 ^ 32)
    (h : Reached blockDim subDiv root B) :
    (∃ j, j ≤ n ∧ B.size = blockDim * subDiv ^ j) ∧
      root.atY ≤ B.atY ∧ B.atY + B.size ≤ root.atY + root.size ∧
      root.atX ≤ B.atX ∧ B.atX + B.size ≤ root.atX + root.size := by
  induction h with
  | root => exact ⟨⟨n, le_refl n, hroot⟩, le_refl _, le_refl _, le_refl _, le_refl _⟩
  | sub hB hbig hC ih =>
    rename_i B C
    obtain ⟨⟨j, hjn, hj⟩, b1, b2, b3, b4⟩ := ih
    obtain ⟨j', rfl⟩ : ∃ j', j = j' + 1 := by
      cases j with
      | zero =>
        exfalso
        rw [hj] at hbig
        simp at hbig
      | succ j' => exact ⟨j', rfl⟩
    have hsize : B.size = subDiv * (blockDim * subDiv ^ j') := by
      rw [hj, Nat.pow_succ]
      ring
    have hin := children_inside hsize (by omega : 1 ≤ subDiv) (by omega) (by omega) C hC
    have hsz := children_size hsize (by omega : 1 ≤ subDiv) C hC
    refine ⟨⟨j', by omega, hsz⟩, ?_, ?_, ?_, ?_⟩ <;> omega

/-- C18 (as amended): for every block `(atY, atX, side)` with `side = blockDim * subDiv ^ k`,
`k ≥ 1`, whose extent fits the unsigned range (`atY + side < 2 ^ 32`, `atX + side < 2 ^ 32`),
the Subdivide step produces exactly `subDiv²` sub-blocks, each of side
`blockDim * subDiv ^ (k - 1)`, that are pairwise disjoint and whose union is exactly the parent
block; and every block reached from it has side `blockDim * subDiv ^ j` for some `j`. -/
theorem subdivide_tiles_parent (blockDim subDiv k : Nat) (B : Block) (hbd : 1 ≤ blockDim)
    (hsd : 2 ≤ subDiv) (hk : 1 ≤ k) (hsize : B.size = blockDim * subDiv ^ k)
    (hy : B.atY + B.size < 2 ^ 32) (hx : B.atX + B.size < 2 ^ 32) :
    (children subDiv B).length = subDiv ^ 2 ∧
      (∀ C ∈ children subDiv B, C.size = blockDim * subDiv ^ (k - 1)) ∧
      (children subDiv B).Pairwise Apart ∧
      (∀ y x, InB B y x ↔ ∃ C ∈ children subDiv B, InB C y x) ∧
      ∀ C, Reached blockDim subDiv B C → ∃ j, C.size = blockDim * subDiv ^ j := by
  obtain ⟨k', rfl⟩ : ∃ k', k = k' + 1 := ⟨k - 1, by omega⟩
  have hsd1 : 1 ≤ subDiv := by omega
  have hsize' : B.size = subDiv * (blockDim * subDiv ^ k') := by
    rw [hsize, Nat.pow_succ]
    ring
  have hn : 1 ≤ blockDim * subDiv ^ k' := Nat.mul_pos hbd (Nat.pow_pos (by omega))
  refine ⟨?_, ?_, children_apart hsize' hsd1 hy hx, ?_, ?_⟩
  · rw [children_length, Nat.pow_two]
  · intro C hC
    rw [Nat.add_sub_cancel]
    exact children_size hsize' hsd1 C hC
  · intro y x
    constructor
    · exact fun h => children_cover hsize' hsd1 hn hy hx h
    · rintro ⟨C, hC, hin⟩
      have := children_inside hsize' hsd1 hy hx C hC
      unfold InB at hin ⊢
      omega
  · intro C hC
    obtain ⟨⟨j, _, hj⟩, _⟩ := reached_side hsd hsize hy hx hC
    exact ⟨j, hj⟩

theorem subdivide_tiles_parent_witness :
    (children 4 ⟨0, 0, 64⟩).length = 4 ^ 2 ∧
      (∀ C ∈ children 4 ⟨0, 0, 64⟩, C.size = 16 * 4 ^ (1 - 1)) ∧
      (children 4 ⟨0, 0, 64⟩).Pairwise Apart ∧
      (∀ y x, InB ⟨0, 0, 64⟩ y x ↔ ∃ C ∈ children 4 ⟨0, 0, 64⟩, InB C y x) ∧
      ∀ C, Reached 16 4 ⟨0, 0, 64⟩ C → ∃ j, C.size = 16 * 4 ^ j :=
  subdivide_tiles_parent 16 4 1 ⟨0, 0, 64⟩ (by norm_num) (by norm_num) (by norm_num)
    (by norm_num) (by norm_num) (by norm_num)

/-- C18 (counterexample): for the block `(4294967292, 0, 8)` with `blockDim = 4`, `subDiv = 2`
the row `atY + 1 * 4` of the lower sub-blocks wraps around to 0: the sub-block `(0, 0, 4)` holds
the cell `(0, 0)`, which is not in the parent block. -/
theorem subdivide_wraps_around :
    (⟨4294967292, 0, 8⟩ : Block).size = 4 * 2 ^ 1 ∧
      (⟨0, 0, 4⟩ : Block) ∈ children 2 ⟨4294967292, 0, 8⟩ ∧ InB ⟨0, 0, 4⟩ 0 0 ∧
      ¬ InB ⟨4294967292, 0, 8⟩ 0 0 := by
  decide

/-! ## A worker iteration without a popped job -/

/-- C20: with `res = 5`, `blockDim = 4`, `subDiv = 4`, border marking off: (1) a worker that
finds `queue` empty and `counter = limit = 1` when its wait loop ends (the other worker has just
popped the root job) pops nothing and still runs `marianiSilverJob`, on its initial
`currentTask`; (2) a worker whose `currentTask` is the root job it processed before, and that
finds `queue` empty and `counter = limit = 17` on the finished buffer, pops nothing and runs
`marianiSilverJob` on the root job again: `limit` becomes 33 and 16 jobs are pushed. -/
theorem worker_runs_job_without_pop :
    workerIteration 5 4 4 false (fun _ _ y x => (x / 3 + y / 3) % 2)
        { buf := unsetGrid 5, queue := [], counter := 1, limit := 1 } emptyTask =
      (marianiSilverJob 5 4 4 false (fun _ _ y x => (x / 3 + y / 3) % 2)
        { buf := unsetGrid 5, queue := [], counter := 1, limit := 1 } emptyTask.cmin emptyTask.dc
        emptyTask.atY emptyTask.atX emptyTask.blockSize).map (fun s1 => (s1, emptyTask)) ∧
      (workerIteration 5 4 4 false (fun _ _ y x => (x / 3 + y / 3) % 2)
        { buf := unsetGrid 5, queue := [], counter := 1, limit := 1 } emptyTask).isSome = true ∧
      (workerIteration 5 4 4 false (fun _ _ y x => (x / 3 + y / 3) % 2)
        { buf := [[0, 0, 0, 1, 1], [0, 0, 0, 1, 1], [0, 0, 0, 1, 1], [1, 1, 1, 0, 0],
            [1, 1, 1, 0, 0]]
          queue := []
          counter := 17
          limit := 17 }
        ⟨0, 0, 0, 16, ⟨0, 0⟩, ⟨0, 0⟩⟩).map
        (fun r => (r.1.queue.length, r.1.counter, r.1.limit, r.2.blockSize)) =
        some (16, 17, 33, 16) := by
  refine ⟨rfl, by decide, by decide⟩

/-! ## The Subdivide branch of a job -/

theorem int_wrap_id {z : Int} (h0 : 0 ≤ z) (h1 : z < 2 ^ 31) : toInt (toU32 z) = z := by
  unfold toU32
  have h5 : z % 2 ^ 32 = z := Int.emod_eq_of_lt h0 (by omega)
  have h6 : z.toNat < 2 ^ 31 := by omega
  rw [h5, toInt_of_lt h6, Int.toNat_of_nonneg h0]

theorem foldl_addWork (l : List Job) :
    ∀ (s : Shared), l.foldl addWork s = { s with queue := s.queue ++ l } := by
  induction l with
  | nil => intro s; simp
  | cons t l ih =>
    intro s
    rw [List.foldl_cons, ih]
    simp [addWork]

/-- The Subdivide branch of `marianiSilverJob`: `limit` is raised first, then the jobs of the
sub-blocks are pushed one by one. -/
theorem marianiSilverJob_subdivide (res blockDim subDiv : Nat) (mark : Bool) (pd : Evaluator)
    (s : Shared) (cmin dc : Cplx) (atY atX blockSize : Nat) (g1 : Grid) (r : Int)
    (hprobe : commonBorder res pd cmin dc s.buf atY atX blockSize = some (g1, r)) (hr : r < 0)
    (hbig : blockDim < blockSize) (hsd : subDiv ≠ 0) :
    marianiSilverJob res blockDim subDiv mark pd s cmin dc atY atX blockSize =
      some ((childJobs subDiv r cmin dc ⟨atY, atX, blockSize⟩).foldl addWork
        (raiseLimit subDiv { s with buf := g1 })) := by
  unfold marianiSilverJob
  rw [hprobe, Option.some_bind]
  have h1 : ¬ r ≥ 0 := by omega
  have h2 : ¬ blockSize ≤ blockDim := by omega
  simp only [h1, h2, hsd, if_false]
  rw [addWork_loops, foldl_addWork]
  rfl

/-! ## Termination of the recursion -/

theorem wrap_lt (n : Nat) : wrap n < 2 ^ 32 := Nat.mod_lt _ (by norm_num)

/-- A loop whose body returns and keeps `Inv` returns and keeps `Inv`. -/
theorem foldlM_inv {α β : Type} (f : β → α → Option β) (Inv : β → Prop) :
    ∀ (l : List α) (b : β), Inv b → (∀ a ∈ l, ∀ b, Inv b → ∃ b', f b a = some b' ∧ Inv b') →
      ∃ b', l.foldlM f b = some b' ∧ Inv b' := by
  intro l
  induction l with
  | nil => exact fun b hb _ => ⟨b, rfl, hb⟩
  | cons a l ih =>
    intro b hb hstep
    obtain ⟨b1, e1, h1⟩ := hstep a (List.mem_cons_self _ _) b hb
    obtain ⟨b2, e2, h2⟩ := ih b1 h1 (fun a' ha' => hstep a' (List.mem_cons_of_mem _ ha'))
    exact ⟨b2, by rw [List.foldlM_cons, e1]; exact e2, h2⟩

/-- The optional border marking after a terminal step returns a well-formed buffer. -/
theorem mark_total {res : Nat} (mark : Bool) {g : Grid} (hg : WF res g) (dwell : Int)
    (atY atX blockSize : Nat) :
    ∃ g', (if mark = true then markBorder res g dwell atY atX blockSize else some g) = some g' ∧
      WF res g' := by
  cases mark with
  | false => exact ⟨g, by simp, hg⟩
  | true =>
    obtain ⟨g', e, hw, _⟩ := markBorder_spec hg dwell atY atX blockSize
    exact ⟨g', by simpa using e, hw⟩

/-- With recursion depth above the block side, `marianiSilverOriginal` returns a well-formed
buffer, for every block and every well-formed buffer. -/
theorem marianiSilverOriginal_total (res blockDim subDiv : Nat) (mark : Bool) (pd : Evaluator)
    (cmin dc : Cplx) (hsd : 2 ≤ subDiv) (hres : res < 2 ^ 32)
    (hpd : ∀ y x, pd cmin dc y x < 2 ^ 31) :
    ∀ (fuel : Nat) (g : Grid) (atY atX blockSize : Nat), WF res g → atY < 2 ^ 32 →
      atX < 2 ^ 32 → blockSize < fuel →
      ∃ g', marianiSilverOriginal res blockDim subDiv mark pd cmin dc fuel g atY atX blockSize =
          some g' ∧ WF res g' := by
  intro fuel
  induction fuel with
  | zero =>
    intro g atY atX blockSize _ _ _ h
    omega
  | succ fuel ih =>
    intro g atY atX blockSize hg hY hX hfuel
    obtain ⟨g1, r, e, hw1, _, _⟩ := commonBorder_spec hpd hg atY atX blockSize
    rw [marianiSilverOriginal, e, Option.some_bind]
    simp only
    by_cases h0 : r ≥ 0
    · rw [if_pos h0]
      obtain ⟨g2, e2, hw2, _⟩ := fillBlock_spec hw1 r blockSize hY hX hres
      rw [e2, Option.some_bind]
      exact mark_total mark hw2 dwellFill atY atX blockSize
    · rw [if_neg h0]
      by_cases hsmall : blockSize ≤ blockDim
      · rw [if_pos hsmall]
        obtain ⟨g2, e2, hw2, _⟩ := computeBlock_spec pd cmin dc hw1 blockSize hY hX hres
        rw [e2, Option.some_bind]
        exact mark_total mark hw2 dwellCompute atY atX blockSize
      · have hsd0 : ¬ subDiv = 0 := by omega
        rw [if_neg hsmall, if_neg hsd0]
        have hlt : blockSize / subDiv < fuel := by
          have : blockSize / subDiv < blockSize := Nat.div_lt_self (by omega) (by omega)
          omega
        apply foldlM_inv _ (WF res) _ _ hw1
        intro ydiv _ g2 hw2
        apply foldlM_inv _ (WF res) _ _ hw2
        intro xdiv _ g3 hw3
        exact ih g3 _ _ _ hw3 (wrap_lt _) (wrap_lt _) hlt

/-- C17: for every block side, every `blockDim` and every `subDiv ≥ 2` the recursion of
`marianiSilverOriginal` terminates: a Subdivide step (side above `blockDim`) calls itself on
blocks of the strictly smaller side `blockSize / subDiv`, and with a recursion depth above the
block side the call returns, on every `res × res` buffer and at every block position. -/
theorem marianiSilverOriginal_terminates (res blockDim subDiv : Nat) (mark : Bool)
    (pd : Evaluator) (cmin dc : Cplx) (g : Grid) (atY atX blockSize : Nat) (hsd : 2 ≤ subDiv)
    (hres : res < 2 ^ 32) (hpd : ∀ y x, pd cmin dc y x < 2 ^ 31) (hg : WF res g)
    (hY : atY < 2 ^ 32) (hX : atX < 2 ^ 32) :
    (blockDim < blockSize → blockSize / subDiv < blockSize) ∧
      ∀ fuel, blockSize < fuel →
        ∃ g', marianiSilverOriginal res blockDim subDiv mark pd cmin dc fuel g atY atX
            blockSize = some g' ∧ WF res g' := by
  refine ⟨fun h => Nat.div_lt_self (by omega) (by omega), ?_⟩
  intro fuel hfuel
  exact marianiSilverOriginal_total res blockDim subDiv mark pd cmin dc hsd hres hpd fuel g atY
    atX blockSize hg hY hX hfuel

theorem marianiSilverOriginal_terminates_witness :
    (4 < 16 → 16 / 4 < 16) ∧
      ∀ fuel, 16 < fuel →
        ∃ g', marianiSilverOriginal 5 4 4 true (fun _ _ y x => (x / 3 + y / 3) % 2) ⟨0, 0⟩
            ⟨0, 0⟩ fuel (unsetGrid 5) 0 0 16 = some g' ∧ WF 5 g' :=
  marianiSilverOriginal_terminates 5 4 4 true (fun _ _ y x => (x / 3 + y / 3) % 2) ⟨0, 0⟩ ⟨0, 0⟩
    (unsetGrid 5) 0 0 16 (by norm_num) (by norm_num)
    (by intro y x; show (x / 3 + y / 3) % 2 < 2 ^ 31; omega) (WF_unsetGrid 5) (by norm_num)
    (by norm_num)

/-! ## The record of steps refines the sequential strategy -/

theorem foldlM_fst {α β L : Type} (f : β → α → Option β) (F : β × L → α → Option (β × L))
    (h : ∀ b l a, (F (b, l) a).map Prod.fst = f b a) :
    ∀ (xs : List α) (b : β) (l : L), (xs.foldlM F (b, l)).map Prod.fst = xs.foldlM f b := by
  intro xs
  induction xs with
  | nil => intro b l; rfl
  | cons a xs ih =>
    intro b l
    rw [List.foldlM_cons, List.foldlM_cons]
    have ha := h b l a
    cases hF : F (b, l) a with
    | none =>
      rw [hF] at ha
      rw [← ha]
      rfl
    | some st =>
      rw [hF] at ha
      rw [← ha]
      obtain ⟨b1, l1⟩ := st
      exact ih b1 l1

/-- The buffer returned with the record is the buffer returned by
`marianiSilverOriginal`. -/
theorem marianiSilverOriginalLog_fst (res blockDim subDiv : Nat) (mark : Bool) (pd : Evaluator)
    (cmin dc : Cplx) :
    ∀ (fuel : Nat) (g : Grid) (atY atX blockSize : Nat),
      (marianiSilverOriginalLog res blockDim subDiv mark pd cmin dc fuel g atY atX blockSize).map
          Prod.fst =
        marianiSilverOriginal res blockDim subDiv mark pd cmin dc fuel g atY atX blockSize := by
  intro fuel
  induction fuel with
  | zero => intro g atY atX blockSize; rfl
  | succ fuel ih =>
    intro g atY atX blockSize
    rw [marianiSilverOriginalLog, marianiSilverOriginal]
    cases commonBorder res pd cmin dc g atY atX blockSize with
    | none => rfl
    | some r =>
      simp only [Option.some_bind]
      by_cases h0 : r.2 ≥ 0
      · simp only [h0, if_true]
        cases fillBlock res r.1 r.2 atY atX blockSize 0 with
        | none => rfl
        | some g2 =>
          simp only [Option.some_bind]
          cases mark with
          | false => rfl
          | true =>
            simp only [if_true]
            cases markBorder res g2 dwellFill atY atX blockSize <;> rfl
      · simp only [h0, if_false]
        by_cases hsmall : blockSize ≤ blockDim
        · simp only [hsmall, if_true]
          cases computeBlock res pd cmin dc r.1 atY atX blockSize 0 with
          | none => rfl
          | some g2 =>
            simp only [Option.some_bind]
            cases mark with
            | false => rfl
            | true =>
              simp only [if_true]
              cases markBorder res g2 dwellCompute atY atX blockSize <;> rfl
        · simp only [hsmall, if_false]
          by_cases hsd : subDiv = 0
          · simp only [hsd, if_true]
            rfl
          · simp only [hsd, if_false]
            apply foldlM_fst
            intro b l ydiv
            apply foldlM_fst
            intro b' l' xdiv
            rw [Option.map_map]
            exact ih b' _ _ _

/-! ## No step of a run changes a set cell -/

theorem probe_keeps {res : Nat} {pd : Evaluator} {cmin dc : Cplx}
    (hpd : ∀ y x, pd cmin dc y x < 2 ^ 31) {g g1 : Grid} (hg : WF res g) {atY atX blockSize : Nat}
    {r : Int} (h : commonBorder res pd cmin dc g atY atX blockSize = some (g1, r)) :
    KeepsSet g g1 := by
  obtain ⟨g', r', e, _, hA, _⟩ := commonBorder_spec hpd hg atY atX blockSize
  rw [h] at e
  simp only [Option.some.injEq, Prod.mk.injEq] at e
  obtain ⟨e1, _⟩ := e
  subst e1
  intro y x h0
  rcases hA y x with h' | ⟨_, _, _, h3, _⟩
  · exact h'
  · omega

theorem fill_keeps {res : Nat} {g1 g2 : Grid} (hg : WF res g1) {dwell : Int}
    {atY atX blockSize : Nat} (hY : atY < 2 ^ 32) (hX : atX < 2 ^ 32) (hres : res < 2 ^ 32)
    (h : fillBlock res g1 dwell atY atX blockSize 0 = some g2) : KeepsSet g1 g2 := by
  obtain ⟨g', e, _, hc⟩ := fillBlock_spec hg dwell blockSize hY hX hres
  rw [h] at e
  simp only [Option.some.injEq] at e
  subst e
  intro y x h0
  rw [hc]
  have hneg : ¬ cell g1 y x < 0 := by omega
  simp only [hneg, if_false, ite_self]

/-- The Brute Force step on the first pending block stores into a set cell the value it
holds. -/
theorem compute_keeps {R : Run} {k : Nat} (hS : Setup R k) {B : Block} {P : List Block}
    {g1 g2 : Grid} (h : GI R k (B :: P) g1)
    (he : computeBlock R.res R.pd R.cmin R.dc g1 B.atY B.atX B.size 0 = some g2) :
    KeepsSet g1 g2 := by
  obtain ⟨hres1, hbd, hsd, hk, hcover, hpd⟩ := hS
  obtain ⟨hw, _, hP, _, _⟩ := h
  obtain ⟨⟨j, hj, hby, hbx, _⟩, hpre⟩ := hP B (List.mem_cons_self _ _)
  have hy : B.atY + B.size < 2 ^ 32 := by omega
  have hx : B.atX + B.size < 2 ^ 32 := by omega
  obtain ⟨g', e, _, hc⟩ := computeBlock_spec R.pd R.cmin R.dc hw B.size
    (by omega : B.atY < 2 ^ 32) (by omega : B.atX < 2 ^ 32) (by omega : R.res < 2 ^ 32)
  rw [he] at e
  simp only [Option.some.injEq] at e
  subst e
  intro y x h0
  rw [hc]
  by_cases hin : (B.atY ≤ y ∧ y < blockEnd R.res B.atY B.size) ∧
      (B.atX ≤ x ∧ x < blockEnd R.res B.atX B.size)
  · rw [if_pos hin]
    obtain ⟨hB, p1, p2⟩ := (inBlockRange_iff hy hx y x).mp hin
    rcases hpre y x hB p1 p2 with h' | h'
    · omega
    · exact h'.2.symm
  · rw [if_neg hin]

theorem foldlM_nested_any {σ β : Type} (f : σ → β → Option σ) (mk : Nat → Nat → β)
    (cols : List Nat) :
    ∀ (rows : List Nat) (st : σ),
      rows.foldlM (fun st y => cols.foldlM (fun st x => f st (mk y x)) st) st =
        (rows.flatMap fun y => cols.map fun x => mk y x).foldlM f st := by
  intro rows
  induction rows with
  | nil => intro st; rfl
  | cons y rows ih =>
    intro st
    rw [List.foldlM_cons, List.flatMap_cons, List.foldlM_append, List.foldlM_map]
    congr 1
    funext st1
    exact ih st1

/-- The body of `marianiSilverOriginalLog` with border marking off, the two loops of the
Subdivide step being a single loop over the sub-blocks. -/
theorem marianiSilverOriginalLog_unfold (R : Run) (fuel : Nat) (g : Grid) (B : Block) :
    marianiSilverOriginalLog R.res R.blockDim R.subDiv false R.pd R.cmin R.dc (fuel + 1) g
        B.atY B.atX B.size =
      (commonBorder R.res R.pd R.cmin R.dc g B.atY B.atX B.size).bind fun r =>
        if r.2 ≥ 0 then
          (fillBlock R.res r.1 r.2 B.atY B.atX B.size 0).bind fun g2 =>
            some (g2, [⟨OpKind.probe, B.atY, B.atX, B.size, g, r.1⟩,
              ⟨OpKind.fill, B.atY, B.atX, B.size, r.1, g2⟩])
        else if B.size ≤ R.blockDim then
          (computeBlock R.res R.pd R.cmin R.dc r.1 B.atY B.atX B.size 0).bind fun g2 =>
            some (g2, [⟨OpKind.probe, B.atY, B.atX, B.size, g, r.1⟩,
              ⟨OpKind.bruteForce, B.atY, B.atX, B.size, r.1, g2⟩])
        else if R.subDiv = 0 then none
        else (children R.subDiv B).foldlM
          (fun st C =>
            (marianiSilverOriginalLog R.res R.blockDim R.subDiv false R.pd R.cmin R.dc fuel st.1
              C.atY C.atX C.size).map fun r' => (r'.1, st.2 ++ r'.2))
          (r.1, [⟨OpKind.probe, B.atY, B.atX, B.size, g, r.1⟩,
            ⟨OpKind.subdivide, B.atY, B.atX, B.size, r.1, r.1⟩]) := by
  rw [marianiSilverOriginalLog]
  congr 1
  funext r
  simp only [Bool.false_eq_true, if_false]
  split
  · rfl
  · split
    · rfl
    · split
      · rfl
      · exact foldlM_nested_any
          (fun (st : Grid × List Event) C =>
            (marianiSilverOriginalLog R.res R.blockDim R.subDiv false R.pd R.cmin R.dc fuel st.1
              C.atY C.atX C.size).map fun r' => (r'.1, st.2 ++ r'.2))
          (child R.subDiv B) (List.range R.subDiv) (List.range R.subDiv) _

/-- From a state satisfying the invariant, the recorded run on the first pending block
returns, leaves the invariant for the other pending blocks, and none of its steps changes a
set cell. -/
theorem dfs_log_spec {R : Run} {k : Nat} (hS : Setup R k) :
    ∀ (j : Nat) (B : Block) (P : List Block) (g : Grid) (fuel : Nat), B.size = R.side j →
      j < fuel → GI R k (B :: P) g →
      ∃ g' log, marianiSilverOriginalLog R.res R.blockDim R.subDiv false R.pd R.cmin R.dc fuel g
          B.atY B.atX B.size = some (g', log) ∧ GI R k P g' ∧
        ∀ e ∈ log, KeepsSet e.before e.after := by
  have hpd := hS.2.2.2.2.2
  intro j
  induction j with
  | zero =>
    intro B P g fuel hj hfuel h
    obtain ⟨fuel, rfl⟩ : ∃ f, fuel = f + 1 := ⟨fuel - 1, by omega⟩
    obtain ⟨g1, e, h1, hE, _⟩ := step_probe hS h
    have k1 := probe_keeps hpd h.1 e
    have hb : B.atY < 2 ^ 32 ∧ B.atX < 2 ^ 32 ∧ R.res < 2 ^ 32 := by
      obtain ⟨⟨j0, hj0, hby, hbx, _⟩, _⟩ := h1.2.2.1 B (List.mem_cons_self _ _)
      have hk := hS.2.2.2.1
      have hcover := hS.2.2.2.2.1
      omega
    rw [marianiSilverOriginalLog_unfold, e, Option.some_bind]
    simp only
    by_cases h0 : 0 ≤ verdict R B
    · rw [if_pos h0]
      obtain ⟨g2, e2, h2⟩ := step_fill hS h1 h0 (hE h0)
      have k2 := fill_keeps h1.1 hb.1 hb.2.1 hb.2.2 e2
      rw [e2, Option.some_bind]
      refine ⟨g2, _, rfl, h2, ?_⟩
      intro ev hev
      simp only [List.mem_cons, List.mem_singleton, List.not_mem_nil, or_false] at hev
      rcases hev with rfl | rfl
      · exact k1
      · exact k2
    · have hsmall : B.size ≤ R.blockDim := by
        rw [hj]
        unfold Run.side
        simp
      rw [if_neg h0, if_pos hsmall]
      obtain ⟨g2, e2, h2⟩ := step_compute hS h1 h0 hsmall
      have k2 := compute_keeps hS h1 e2
      rw [e2, Option.some_bind]
      refine ⟨g2, _, rfl, h2, ?_⟩
      intro ev hev
      simp only [List.mem_cons, List.mem_singleton, List.not_mem_nil, or_false] at hev
      rcases hev with rfl | rfl
      · exact k1
      · exact k2
  | succ j ih =>
    intro B P g fuel hj hfuel h
    obtain ⟨fuel, rfl⟩ : ∃ f, fuel = f + 1 := ⟨fuel - 1, by omega⟩
    obtain ⟨g1, e, h1, hE, _⟩ := step_probe hS h
    have k1 := probe_keeps hpd h.1 e
    have hb : B.atY < 2 ^ 32 ∧ B.atX < 2 ^ 32 ∧ R.res < 2 ^ 32 := by
      obtain ⟨⟨j0, hj0, hby, hbx, _⟩, _⟩ := h1.2.2.1 B (List.mem_cons_self _ _)
      have hk := hS.2.2.2.1
      have hcover := hS.2.2.2.2.1
      omega
    rw [marianiSilverOriginalLog_unfold, e, Option.some_bind]
    simp only
    by_cases h0 : 0 ≤ verdict R B
    · rw [if_pos h0]
      obtain ⟨g2, e2, h2⟩ := step_fill hS h1 h0 (hE h0)
      have k2 := fill_keeps h1.1 hb.1 hb.2.1 hb.2.2 e2
      rw [e2, Option.some_bind]
      refine ⟨g2, _, rfl, h2, ?_⟩
      intro ev hev
      simp only [List.mem_cons, List.mem_singleton, List.not_mem_nil, or_false] at hev
      rcases hev with rfl | rfl
      · exact k1
      · exact k2
    · rw [if_neg h0]
      by_cases hsmall : B.size ≤ R.blockDim
      · rw [if_pos hsmall]
        obtain ⟨g2, e2, h2⟩ := step_compute hS h1 h0 hsmall
        have k2 := compute_keeps hS h1 e2
        rw [e2, Option.some_bind]
        refine ⟨g2, _, rfl, h2, ?_⟩
        intro ev hev
        simp only [List.mem_cons, List.mem_singleton, List.not_mem_nil, or_false] at hev
        rcases hev with rfl | rfl
        · exact k1
        · exact k2
      · have hsd : ¬ R.subDiv = 0 := by
          have := hS.2.2.1
          omega
        rw [if_neg hsmall, if_neg hsd]
        obtain ⟨h2, hsizes⟩ := step_subdivide hS h1 h0 hsmall
        have hkids := hsizes j hj
        have hlog0 : ∀ ev ∈ [(⟨OpKind.probe, B.atY, B.atX, B.size, g, g1⟩ : Event),
            ⟨OpKind.subdivide, B.atY, B.atX, B.size, g1, g1⟩], KeepsSet ev.before ev.after := by
          intro ev hev
          simp only [List.mem_cons, List.mem_singleton, List.not_mem_nil, or_false] at hev
          rcases hev with rfl | rfl
          · exact k1
          · exact fun _ _ _ => rfl
        generalize ([(⟨OpKind.probe, B.atY, B.atX, B.size, g, g1⟩ : Event),
            ⟨OpKind.subdivide, B.atY, B.atX, B.size, g1, g1⟩]) = log0 at hlog0
        clear hsizes e h1 hE h k1 hb
        generalize children R.subDiv B = cs at h2 hkids
        induction cs generalizing g1 log0 with
        | nil => exact ⟨g1, log0, rfl, h2, hlog0⟩
        | cons C cs ihc =>
          obtain ⟨g2, log2, e2, h3, hl2⟩ := ih C (cs ++ P) g1 fuel
            (hkids C (List.mem_cons_self _ _)) (by omega) h2
          rw [List.foldlM_cons]
          simp only [e2, Option.map_some', Option.bind_eq_bind, Option.some_bind]
          refine ihc g2 (log0 ++ log2) ?_ h3 (fun C' hC' => hkids C' (List.mem_cons_of_mem _ hC'))
          intro ev hev
          rcases List.mem_append.mp hev with h' | h'
          · exact hlog0 ev h'
          · exact hl2 ev h'

/-- C12: for the parameters of C1, with border marking off, the run of
`marianiSilverOriginal` on the root block from the all-unset buffer returns, and none of its
steps (each call of `commonBorder`, `fillBlock` and `computeBlock`, recorded with the buffer
before and after it) changes a cell that holds a value `≥ 0`: such a cell holds the same value
after the call. -/
theorem no_step_changes_a_set_cell (res blockDim subDiv maxDwell k : Nat) (pd : Evaluator)
    (cmin dc : Cplx) (hres : 1 ≤ res) (hbd : 4 ≤ blockDim) (hsd : 2 ≤ subDiv)
    (hcover : res ≤ blockDim * subDiv ^ k) (h32 : blockDim * subDiv ^ k < 2 ^ 32)
    (hmax : maxDwell < 2 ^ 31) (hpd : ∀ y x, pd cmin dc y x ≤ maxDwell) (fuel : Nat)
    (hfuel : k < fuel) :
    ∃ g' log, marianiSilverOriginalLog res blockDim subDiv false pd cmin dc fuel (unsetGrid res)
          0 0 (blockDim * subDiv ^ k) = some (g', log) ∧
      marianiSilverOriginal res blockDim subDiv false pd cmin dc fuel (unsetGrid res) 0 0
          (blockDim * subDiv ^ k) = some g' ∧
      ∀ e ∈ log, ∀ y x, 0 ≤ cell e.before y x → cell e.after y x = cell e.before y x := by
  have hpd' : ∀ y x, pd cmin dc y x < 2 ^ 31 := fun y x => Nat.lt_of_le_of_lt (hpd y x) hmax
  have hS : Setup ⟨res, blockDim, subDiv, pd, cmin, dc⟩ k :=
    ⟨hres, by show 1 ≤ blockDim; omega, hsd, h32, hcover, hpd'⟩
  obtain ⟨g', log, e, _, hl⟩ := dfs_log_spec hS k ⟨0, 0, blockDim * subDiv ^ k⟩ []
    (unsetGrid res) fuel rfl hfuel (GI_init hS)
  refine ⟨g', log, e, ?_, hl⟩
  have h := marianiSilverOriginalLog_fst res blockDim subDiv false pd cmin dc fuel
    (unsetGrid res) 0 0 (blockDim * subDiv ^ k)
  rw [← h]
  exact congrArg (Option.map Prod.fst) e

theorem no_step_changes_a_set_cell_witness :
    ∃ g' log, marianiSilverOriginalLog 5 4 4 false (fun _ _ y x => (x / 3 + y / 3) % 2) ⟨0, 0⟩
          ⟨0, 0⟩ 2 (unsetGrid 5) 0 0 (4 * 4 ^ 1) = some (g', log) ∧
      marianiSilverOriginal 5 4 4 false (fun _ _ y x => (x / 3 + y / 3) % 2) ⟨0, 0⟩ ⟨0, 0⟩ 2
          (unsetGrid 5) 0 0 (4 * 4 ^ 1) = some g' ∧
      ∀ e ∈ log, ∀ y x, 0 ≤ cell e.before y x → cell e.after y x = cell e.before y x :=
  no_step_changes_a_set_cell 5 4 4 1 1 (fun _ _ y x => (x / 3 + y / 3) % 2) ⟨0, 0⟩ ⟨0, 0⟩
    (by norm_num) (by norm_num) (by norm_num) (by norm_num) (by norm_num) (by norm_num)
    (by intro y x; show (x / 3 + y / 3) % 2 ≤ 1; omega) 2 (by norm_num)

/-! ## A root block with a uniform border -/

/-- C14: for a root block `(0, 0, S)` that covers the grid and whose in-grid perimeter pixels
all have the evaluator value `d`, the sequential strategy on the all-unset buffer performs the
probe and one Fill (and the border marking when it is on), no Subdivide and no Brute Force,
already with recursion depth 1; afterwards every cell equals `d`, except that with border
marking on the perimeter cells hold `dwellFill`. -/
theorem uniform_root_single_fill (res blockDim subDiv : Nat) (mark : Bool) (pd : Evaluator)
    (cmin dc : Cplx) (S d : Nat) (hres : 1 ≤ res) (hcover : res ≤ S) (h32 : S < 2 ^ 32)
    (hpd : ∀ y x, pd cmin dc y x < 2 ^ 31)
    (hunif : ∀ p ∈ borderWalk res 0 0 S, p.1 < res → p.2 < res → pd cmin dc p.1 p.2 = d)
    (fuel : Nat) (hfuel : 1 ≤ fuel) :
    ∃ g' log, marianiSilverOriginalLog res blockDim subDiv mark pd cmin dc fuel (unsetGrid res)
          0 0 S = some (g', log) ∧
      marianiSilverOriginal res blockDim subDiv mark pd cmin dc fuel (unsetGrid res) 0 0 S =
        some g' ∧
      log.map Event.kind =
        (if mark = true then [OpKind.probe, OpKind.fill, OpKind.mark]
          else [OpKind.probe, OpKind.fill]) ∧
      ∀ y x, y < res → x < res →
        cell g' y x =
          if mark = true ∧ (y, x) ∈ borderWalk res 0 0 S then dwellFill else (d : Int) := by
  obtain ⟨fuel, rfl⟩ : ∃ f, fuel = f + 1 := ⟨fuel - 1, by omega⟩
  have hres32 : res < 2 ^ 32 := by omega
  have h00 : ((0, 0) : Nat × Nat) ∈ borderWalk res 0 0 S := by
    have hS1 : 1 ≤ (⟨0, 0, S⟩ : Block).size := by show 1 ≤ S; omega
    have hS2 : (⟨0, 0, S⟩ : Block).atY + (⟨0, 0, S⟩ : Block).size < 2 ^ 32 := by
      show 0 + S < 2 ^ 32
      omega
    have : OnEdge res ⟨0, 0, S⟩ 0 0 :=
      ⟨⟨le_refl _, by show 0 < 0 + S; omega, le_refl _, by show 0 < 0 + S; omega⟩, hres, hres,
        Or.inl rfl⟩
    exact edge_mem_walk hS1 hS2 hS2 hres hres32 this
  have hdval : ∀ p ∈ borderWalk res 0 0 S, p.1 < res → p.2 < res →
      memo pd cmin dc (unsetGrid res) p.1 p.2 = (d : Int) := by
    intro p hp p1 p2
    rw [memo_unsetGrid pd cmin dc p1 p2, toInt_of_lt (hpd _ _), hunif p hp p1 p2]
  obtain ⟨g1, r, e, hw1, hA, hB⟩ := commonBorder_spec hpd (WF_unsetGrid res) 0 0 S
  have hr : r = (d : Int) ∧ ∀ p ∈ borderWalk res 0 0 S, p.1 < res → p.2 < res →
      cell g1 p.1 p.2 = (d : Int) := by
    rcases hB with ⟨_, hall, _⟩ | ⟨_, hno | ⟨p, hp, q, hq, p1, p2, q1, q2, hne⟩⟩
    · have h1 := (hall (0, 0) h00 hres hres).2
      rw [hdval (0, 0) h00 hres hres] at h1
      refine ⟨h1.symm, ?_⟩
      intro p hp p1 p2
      rw [(hall p hp p1 p2).1, ← h1]
    · exact absurd ⟨hres, hres⟩ (hno (0, 0) h00)
    · rw [hdval p hp p1 p2, hdval q hq q1 q2] at hne
      exact absurd rfl hne
  obtain ⟨hrd, hwalk⟩ := hr
  subst hrd
  obtain ⟨g2, e2, hw2, hc2⟩ := fillBlock_spec hw1 (d : Int) S (by norm_num : 0 < 2 ^ 32)
    (by norm_num : 0 < 2 ^ 32) hres32
  have hcell2 : ∀ y x, y < res → x < res → cell g2 y x = (d : Int) := by
    intro y x p1 p2
    have hin : (0 ≤ y ∧ y < blockEnd res 0 S) ∧ (0 ≤ x ∧ x < blockEnd res 0 S) := by
      rw [blockEnd_eq (by omega : 0 + S < 2 ^ 32)]
      omega
    rw [hc2, if_pos hin]
    rcases hA y x with h' | ⟨hp, _, _, _, _⟩
    · rw [h', cell_unsetGrid p1 p2]
      simp
    · rw [hwalk (y, x) hp p1 p2]
      simp
  have hlog : ∃ g' log, marianiSilverOriginalLog res blockDim subDiv mark pd cmin dc (fuel + 1)
        (unsetGrid res) 0 0 S = some (g', log) ∧
      log.map Event.kind =
        (if mark = true then [OpKind.probe, OpKind.fill, OpKind.mark]
          else [OpKind.probe, OpKind.fill]) ∧
      ∀ y x, y < res → x < res →
        cell g' y x =
          if mark = true ∧ (y, x) ∈ borderWalk res 0 0 S then dwellFill else (d : Int) := by
    rw [marianiSilverOriginalLog, e, Option.some_bind]
    have h0 : (d : Int) ≥ 0 := Int.natCast_nonneg d
    simp only [h0, if_true, e2, Option.some_bind]
    cases mark with
    | false =>
      refine ⟨g2, _, rfl, rfl, ?_⟩
      intro y x p1 p2
      simp [hcell2 y x p1 p2]
    | true =>
      obtain ⟨g3, e3, _, hc3⟩ := markBorder_spec hw2 dwellFill 0 0 S
      simp only [if_true, e3, Option.map_some']
      refine ⟨g3, _, rfl, rfl, ?_⟩
      intro y x p1 p2
      rw [hc3]
      simp only [p1, p2, and_self, and_true, true_and, hcell2 y x p1 p2]
  obtain ⟨g', log, el, hk, hc⟩ := hlog
  refine ⟨g', log, el, ?_, hk, hc⟩
  have h := marianiSilverOriginalLog_fst res blockDim subDiv mark pd cmin dc (fuel + 1)
    (unsetGrid res) 0 0 S
  rw [← h]
  exact congrArg (Option.map Prod.fst) el

theorem uniform_root_single_fill_witness :
    ∃ g' log, marianiSilverOriginalLog 64 16 4 false (fun _ _ _ _ => 50) ⟨0, 0⟩ ⟨0, 0⟩ 1
          (unsetGrid 64) 0 0 64 = some (g', log) ∧
      marianiSilverOriginal 64 16 4 false (fun _ _ _ _ => 50) ⟨0, 0⟩ ⟨0, 0⟩ 1 (unsetGrid 64) 0 0
          64 = some g' ∧
      log.map Event.kind =
        (if false = true then [OpKind.probe, OpKind.fill, OpKind.mark]
          else [OpKind.probe, OpKind.fill]) ∧
      ∀ y x, y < 64 → x < 64 →
        cell g' y x =
          if false = true ∧ (y, x) ∈ borderWalk 64 0 0 64 then dwellFill else ((50 : Nat) : Int) :=
  uniform_root_single_fill 64 16 4 false (fun _ _ _ _ => 50) ⟨0, 0⟩ ⟨0, 0⟩ 64 50 (by norm_num)
    (by norm_num) (by norm_num) (by intro _ _; norm_num) (fun _ _ _ _ => rfl) 1 (by norm_num)

/-! ## Termination of a single worker -/

theorem length_le_cost (R : Run) : ∀ (P : List Block), P.length ≤ cost R P := by
  intro P
  induction P with
  | nil => simp [cost]
  | cons B P ih =>
    rw [cost_cons, List.length_cons]
    have := weight_pos R.subDiv (Nat.log R.subDiv (B.size / R.blockDim))
    omega

theorem childJobs_length (subDiv : Nat) (dwell : Int) (cmin dc : Cplx) (B : Block) :
    (childJobs subDiv dwell cmin dc B).length = subDiv * subDiv := by
  rw [← children_length subDiv B, ← childJobs_blocks subDiv dwell cmin dc B, List.length_map]

theorem childJobs_coords (subDiv : Nat) (dwell : Int) (cmin dc : Cplx) (B : Block) :
    ∀ t ∈ childJobs subDiv dwell cmin dc B,
      t.blockSize = B.size / subDiv ∧ t.atY < 2 ^ 32 ∧ t.atX < 2 ^ 32 := by
  intro t ht
  unfold childJobs at ht
  simp only [List.mem_flatMap, List.mem_map, List.mem_range] at ht
  obtain ⟨_, _, _, _, rfl⟩ := ht
  exact ⟨rfl, wrap_lt _, wrap_lt _⟩

/-- One call of `marianiSilverJob` on a well-formed buffer returns; it leaves `counter`, and
either leaves `queue` and `limit` (Fill, Brute Force) or raises `limit` and pushes the jobs of
the sub-blocks (Subdivide, for a side above `blockDim`). -/
theorem marianiSilverJob_total (res blockDim subDiv : Nat) (mark : Bool) (pd : Evaluator)
    (hsd : 2 ≤ subDiv) (hres : res < 2 ^ 32) (hpd : ∀ cmin dc y x, pd cmin dc y x < 2 ^ 31)
    (s : Shared) (cmin dc : Cplx) (atY atX blockSize : Nat) (hw : WF res s.buf)
    (hY : atY < 2 ^ 32) (hX : atX < 2 ^ 32) :
    ∃ s1, marianiSilverJob res blockDim subDiv mark pd s cmin dc atY atX blockSize = some s1 ∧
      WF res s1.buf ∧ s1.counter = s.counter ∧
      ((s1.queue = s.queue ∧ s1.limit = s.limit) ∨
        (blockDim < blockSize ∧ s1.limit = (raiseLimit subDiv s).limit ∧
          ∃ r, s1.queue = s.queue ++ childJobs subDiv r cmin dc ⟨atY, atX, blockSize⟩)) := by
  obtain ⟨g1, r, e, hw1, _, _⟩ := commonBorder_spec (hpd cmin dc) hw atY atX blockSize
  by_cases h0 : r ≥ 0
  · obtain ⟨g2, e2, hw2, _⟩ := fillBlock_spec hw1 r blockSize hY hX hres
    obtain ⟨g3, e3, hw3⟩ := mark_total mark hw2 dwellFill atY atX blockSize
    refine ⟨{ s with buf := g3 }, ?_, hw3, rfl, Or.inl ⟨rfl, rfl⟩⟩
    unfold marianiSilverJob
    rw [e, Option.some_bind]
    simp only [h0, if_true, e2, Option.some_bind, e3, Option.map_some']
  · by_cases hsmall : blockSize ≤ blockDim
    · obtain ⟨g2, e2, hw2, _⟩ := computeBlock_spec pd cmin dc hw1 blockSize hY hX hres
      obtain ⟨g3, e3, hw3⟩ := mark_total mark hw2 dwellCompute atY atX blockSize
      refine ⟨{ s with buf := g3 }, ?_, hw3, rfl, Or.inl ⟨rfl, rfl⟩⟩
      unfold marianiSilverJob
      rw [e, Option.some_bind]
      simp only [h0, if_false, hsmall, if_true, e2, Option.some_bind, e3, Option.map_some']
    · have e' := marianiSilverJob_subdivide res blockDim subDiv mark pd s cmin dc atY atX
        blockSize g1 r e (by omega) (by omega) (by omega)
      rw [foldl_addWork] at e'
      exact ⟨_, e', hw1, rfl, Or.inr ⟨by omega, rfl, r, rfl⟩⟩

/-- A single worker drains the queue and stops with `counter = limit`, as long as the weights
of the queued blocks and the jobs already processed stay below `2 ^ 31`. -/
theorem worker_total (R : Run) (mark : Bool) (hbd : 1 ≤ R.blockDim) (hsd : 2 ≤ R.subDiv)
    (hres : R.res < 2 ^ 32) (hpd : ∀ cmin dc y x, R.pd cmin dc y x < 2 ^ 31) (M : Nat)
    (hM : M < 2 ^ 31) :
    ∀ (m : Nat) (s : Shared) (cur : Job) (fuel : Nat), WF R.res s.buf →
      (∀ t ∈ s.queue, (∃ j, t.blockSize = R.side j) ∧ t.atY < 2 ^ 32 ∧ t.atX < 2 ^ 32) →
      s.limit = s.counter + (s.queue.length : Int) → 0 ≤ s.counter →
      s.counter + (cost R (s.queue.map blockOf) : Int) ≤ (M : Int) →
      cost R (s.queue.map blockOf) ≤ m → m < fuel →
      ∃ s', worker R.res R.blockDim R.subDiv mark R.pd fuel s cur = some s' ∧ s'.queue = [] ∧
        s'.counter = s'.limit := by
  intro m
  induction m with
  | zero =>
    intro s cur fuel _ _ hlim _ _ hcost hfuel
    obtain ⟨fuel, rfl⟩ : ∃ f, fuel = f + 1 := ⟨fuel - 1, by omega⟩
    have hlen := length_le_cost R (s.queue.map blockOf)
    rw [List.length_map] at hlen
    have hq : s.queue = [] := List.length_eq_zero.mp (by omega)
    rw [hq] at hlim
    simp only [List.length_nil, Int.ofNat_zero, add_zero] at hlim
    refine ⟨s, ?_, hq, hlim.symm⟩
    rw [worker, if_neg (by omega)]
  | succ m ih =>
    intro s cur fuel hw hjobs hlim hc0 hM' hcost hfuel
    obtain ⟨fuel, rfl⟩ : ∃ f, fuel = f + 1 := ⟨fuel - 1, by omega⟩
    cases hq : s.queue with
    | nil =>
      rw [hq] at hlim
      simp only [List.length_nil, Int.ofNat_zero, add_zero] at hlim
      refine ⟨s, ?_, hq, hlim.symm⟩
      rw [worker, if_neg (by omega)]
    | cons t rest =>
      rw [hq] at hlim hM' hcost
      rw [List.map_cons, cost_cons] at hM' hcost
      rw [List.length_cons] at hlim
      obtain ⟨⟨j, hj⟩, hY, hX⟩ := hjobs t (by rw [hq]; exact List.mem_cons_self _ _)
      have hrest : ∀ t' ∈ rest,
          (∃ j, t'.blockSize = R.side j) ∧ t'.atY < 2 ^ 32 ∧ t'.atX < 2 ^ 32 :=
        fun t' ht' => hjobs t' (by rw [hq]; exact List.mem_cons_of_mem _ ht')
      have hwt : weight R.subDiv (Nat.log R.subDiv ((blockOf t).size / R.blockDim)) =
          weight R.subDiv j := by
        show weight R.subDiv (Nat.log R.subDiv (t.blockSize / R.blockDim)) = _
        rw [hj, level_of_side R hbd hsd]
      rw [hwt] at hM' hcost
      have hwpos := weight_pos R.subDiv j
      have hlenrest := length_le_cost R (rest.map blockOf)
      rw [List.length_map] at hlenrest
      have hcnt : toInt (toU32 (s.counter + 1)) = s.counter + 1 :=
        int_wrap_id (by omega) (by push_cast at hM'; omega)
      obtain ⟨s1, e1, hw1, hc1, hcase⟩ := marianiSilverJob_total R.res R.blockDim R.subDiv mark
        R.pd hsd hres hpd { s with queue := rest, counter := toInt (toU32 (s.counter + 1)) }
        t.cmin t.dc t.atY t.atX t.blockSize hw hY hX
      have unf : worker R.res R.blockDim R.subDiv mark R.pd (fuel + 1) s cur =
          worker R.res R.blockDim R.subDiv mark R.pd fuel s1 { t with dwell := cur.dwell } := by
        rw [worker, if_pos (by push_cast at hlim; omega), hq]
        simp only [e1, Option.some_bind]
      rw [unf]
      simp only at hc1
      rw [hcnt] at hc1
      rcases hcase with ⟨hq1, hl1⟩ | ⟨hbig, hl1, r, hq1⟩
      · simp only at hq1 hl1
        apply ih s1 _ fuel hw1
        · rw [hq1]
          exact hrest
        · rw [hq1, hl1, hc1, hlim]
          push_cast
          omega
        · rw [hc1]
          omega
        · rw [hq1, hc1]
          push_cast at hM' ⊢
          omega
        · rw [hq1]
          omega
        · omega
      · simp only at hq1
        obtain ⟨j', rfl⟩ : ∃ j', j = j' + 1 := by
          cases j with
          | zero =>
            exfalso
            rw [hj] at hbig
            unfold Run.side at hbig
            simp at hbig
          | succ j' => exact ⟨j', rfl⟩
        have hdiv : t.blockSize / R.subDiv = R.side j' := by
          rw [hj, side_succ]
          exact Nat.mul_div_cancel_left _ (by omega)
        have hB : (⟨t.atY, t.atX, t.blockSize⟩ : Block).size = R.subDiv * R.side j' := by
          show t.blockSize = _
          rw [hj, side_succ]
        have hkids : cost R ((childJobs R.subDiv r t.cmin t.dc
            ⟨t.atY, t.atX, t.blockSize⟩).map blockOf) =
            R.subDiv * R.subDiv * weight R.subDiv j' := by
          rw [childJobs_blocks]
          unfold cost
          rw [sum_map_const (c := weight R.subDiv j'), children_length]
          intro C hC
          show weight R.subDiv (Nat.log R.subDiv (C.size / R.blockDim)) = _
          rw [children_size hB (by omega) C hC, level_of_side R hbd hsd]
        have hw' : weight R.subDiv (j' + 1) = 1 + R.subDiv * R.subDiv * weight R.subDiv j' := rfl
        rw [hw'] at hM' hcost
        have hw1' := weight_pos R.subDiv j'
        have hsq : R.subDiv * R.subDiv ≤ R.subDiv * R.subDiv * weight R.subDiv j' :=
          Nat.le_mul_of_pos_right _ hw1'
        have hMn : s.counter + (1 + ((R.subDiv * R.subDiv : Nat) : Int) +
            (rest.length : Int)) ≤ (M : Int) := by
          have h1 : ((R.subDiv * R.subDiv : Nat) : Int) ≤
              ((R.subDiv * R.subDiv * weight R.subDiv j' : Nat) : Int) := by exact_mod_cast hsq
          have h2 : (rest.length : Int) ≤ ((cost R (rest.map blockOf) : Nat) : Int) := by
            exact_mod_cast hlenrest
          have h3 : ((1 + R.subDiv * R.subDiv * weight R.subDiv j' + cost R (rest.map blockOf) :
              Nat) : Int) = 1 + ((R.subDiv * R.subDiv * weight R.subDiv j' : Nat) : Int) +
              ((cost R (rest.map blockOf) : Nat) : Int) := by push_cast; ring
          rw [h3] at hM'
          omega
        have hsq0 : (0 : Int) ≤ ((R.subDiv * R.subDiv : Nat) : Int) := Int.ofNat_nonneg _
        have hraise : (raiseLimit R.subDiv
            { s with queue := rest, counter := toInt (toU32 (s.counter + 1)) }).limit =
            s.limit + ((R.subDiv * R.subDiv : Nat) : Int) := by
          show toInt (toU32 (s.limit + toInt (wrap (R.subDiv * R.subDiv)))) = _
          have e1 : toInt (wrap (R.subDiv * R.subDiv)) = ((R.subDiv * R.subDiv : Nat) : Int) := by
            have h31 : R.subDiv * R.subDiv < 2 ^ 31 := by
              have : ((R.subDiv * R.subDiv : Nat) : Int) < 2 ^ 31 := by omega
              exact_mod_cast this
            unfold wrap
            rw [Nat.mod_eq_of_lt (by omega), toInt_of_lt h31]
          rw [e1]
          have hlim' : s.limit = s.counter + (rest.length : Int) + 1 := by
            rw [hlim]; push_cast; ring
          exact int_wrap_id (by omega) (by omega)
        apply ih s1 _ fuel hw1
        · intro t' ht'
          rw [hq1, List.mem_append] at ht'
          rcases ht' with ht' | ht'
          · exact hrest t' ht'
          · obtain ⟨e1, e2, e3⟩ := childJobs_coords _ _ _ _ _ t' ht'
            exact ⟨⟨j', by rw [e1]; exact hdiv⟩, e2, e3⟩
        · rw [hq1, hl1, hraise, hc1, hlim, List.length_append, childJobs_length]
          push_cast
          omega
        · rw [hc1]
          omega
        · rw [hq1, hc1, List.map_append, cost_append, hkids]
          push_cast at hM' ⊢
          omega
        · rw [hq1, List.map_append, cost_append, hkids]
          omega
        · omega

/-- C13 (as amended): for every grid size below `2 ^ 32`, minimum block size of at least 1 and
subdivision factor of at least 2, with or without border marking, a single worker started on
`queue = [root job]`, `limit = 1`, `counter = 0`, the root block having side
`blockDim * subDiv ^ k`, returns whenever the full subdivision tree has fewer than `2 ^ 31`
jobs; when it stops the queue is empty and `counter` equals `limit`. -/
theorem single_worker_drains_queue (res blockDim subDiv k : Nat) (mark : Bool) (pd : Evaluator)
    (cmin dc : Cplx) (atY atX : Nat) (hbd : 1 ≤ blockDim) (hsd : 2 ≤ subDiv)
    (hres : res < 2 ^ 32) (hpd : ∀ cmin dc y x, pd cmin dc y x < 2 ^ 31) (hY : atY < 2 ^ 32)
    (hX : atX < 2 ^ 32) (hjobs : weight subDiv k < 2 ^ 31) (fuel : Nat)
    (hfuel : weight subDiv k < fuel) :
    ∃ s', worker res blockDim subDiv mark pd fuel
        ⟨unsetGrid res, [⟨0, atY, atX, blockDim * subDiv ^ k, dc, cmin⟩], 0, 1⟩ emptyTask =
          some s' ∧ s'.queue = [] ∧ s'.counter = s'.limit := by
  have hcost : cost ⟨res, blockDim, subDiv, pd, cmin, dc⟩
      ([(⟨0, atY, atX, blockDim * subDiv ^ k, dc, cmin⟩ : Job)].map blockOf) =
      weight subDiv k := by
    rw [List.map_cons, List.map_nil, cost_cons]
    show weight subDiv (Nat.log subDiv (blockDim * subDiv ^ k / blockDim)) + cost _ [] = _
    rw [Nat.mul_div_cancel_left _ (by omega), Nat.log_pow (by omega)]
    simp [cost]
  refine worker_total ⟨res, blockDim, subDiv, pd, cmin, dc⟩ mark hbd hsd hres hpd
    (weight subDiv k) hjobs (weight subDiv k) _ emptyTask fuel (WF_unsetGrid res) ?_ ?_
    (le_refl _) ?_ ?_ hfuel
  · intro t ht
    rw [List.mem_singleton] at ht
    subst ht
    exact ⟨⟨k, rfl⟩, hY, hX⟩
  · simp
  · rw [hcost]
    simp
  · rw [hcost]

theorem single_worker_drains_queue_witness :
    ∃ s', worker 5 4 4 false (fun _ _ _ _ => 3) 18
        ⟨unsetGrid 5, [⟨0, 0, 0, 4 * 4 ^ 1, ⟨0, 0⟩, ⟨0, 0⟩⟩], 0, 1⟩ emptyTask =
          some s' ∧ s'.queue = [] ∧ s'.counter = s'.limit :=
  single_worker_drains_queue 5 4 4 1 false (fun _ _ _ _ => 3) ⟨0, 0⟩ ⟨0, 0⟩ 0 0 (by decide)
    (by decide) (by decide) (fun _ _ _ _ => by norm_num) (by decide) (by decide) (by decide) 18
    (by decide)

/-- C13 (counterexample): with `subDiv = 46341` the statement `limit += subDiv * subDiv` of
the root job wraps `limit` around to a negative number, the loop test `counter < limit` fails,
and the worker stops with `46341 * 46341` jobs in the queue and `counter = 1` above `limit`. -/
theorem worker_stops_with_jobs_queued :
    ∃ s', worker 5 4 46341 false (fun _ _ _ x => x % 2) 2
        ⟨unsetGrid 5, [⟨0, 0, 0, 4 * 46341 ^ 1, ⟨0, 0⟩, ⟨0, 0⟩⟩], 0, 1⟩ emptyTask = some s' ∧
      s'.queue.length = 46341 * 46341 ∧ s'.counter = 1 ∧ s'.limit = -2147479014 := by
  have hpd : ∀ y x : Nat,
      (fun (_ _ : Cplx) (_ x : Nat) => x % 2) ⟨0, 0⟩ ⟨0, 0⟩ y x < 2 ^ 31 := by
    intro _ x
    show x % 2 < 2 ^ 31
    omega
  obtain ⟨g1, r, e, _, _, hr⟩ := @commonBorder_spec 5 (fun _ _ _ x => x % 2) ⟨0, 0⟩ ⟨0, 0⟩ hpd
    (unsetGrid 5) (WF_unsetGrid 5) 0 0 (4 * 46341 ^ 1)
  have hneg : r < 0 := by
    rcases hr with ⟨_, hall, _⟩ | ⟨h, _⟩
    · exfalso
      have hS1 : 1 ≤ (⟨0, 0, 4 * 46341 ^ 1⟩ : Block).size := by
        show 1 ≤ 4 * 46341 ^ 1
        norm_num
      have hS2 : (⟨0, 0, 4 * 46341 ^ 1⟩ : Block).atY + (⟨0, 0, 4 * 46341 ^ 1⟩ : Block).size <
          2 ^ 32 := by
        show 0 + 4 * 46341 ^ 1 < 2 ^ 32
        norm_num
      have w0 : ((0 : Nat), (0 : Nat)) ∈ borderWalk 5 0 0 (4 * 46341 ^ 1) :=
        edge_mem_walk hS1 hS2 hS2 (by decide) (by decide)
          ⟨⟨le_refl _, by show 0 < 0 + 4 * 46341 ^ 1; norm_num, le_refl _,
            by show 0 < 0 + 4 * 46341 ^ 1; norm_num⟩, by decide, by decide, Or.inl rfl⟩
      have w1 : ((0 : Nat), (1 : Nat)) ∈ borderWalk 5 0 0 (4 * 46341 ^ 1) :=
        edge_mem_walk hS1 hS2 hS2 (by decide) (by decide)
          ⟨⟨le_refl _, by show 0 < 0 + 4 * 46341 ^ 1; norm_num, Nat.zero_le _,
            by show 1 < 0 + 4 * 46341 ^ 1; norm_num⟩, by decide, by decide, Or.inl rfl⟩
      have m0 := (hall _ w0 (by decide) (by decide)).2
      have m1 := (hall _ w1 (by decide) (by decide)).2
      rw [memo_unsetGrid _ _ _ (by decide) (by decide)] at m0 m1
      rw [← m1] at m0
      revert m0
      decide
    · omega
  have ejob := marianiSilverJob_subdivide 5 4 46341 false (fun _ _ _ x => x % 2)
    ⟨unsetGrid 5, [], toInt (toU32 (0 + 1)), 1⟩ ⟨0, 0⟩ ⟨0, 0⟩ 0 0 (4 * 46341 ^ 1) g1 r e hneg
    (by norm_num) (by decide)
  have hrun : worker 5 4 46341 false (fun _ _ _ x => x % 2) 2
      ⟨unsetGrid 5, [⟨0, 0, 0, 4 * 46341 ^ 1, ⟨0, 0⟩, ⟨0, 0⟩⟩], 0, 1⟩ emptyTask =
      some ((childJobs 46341 r ⟨0, 0⟩ ⟨0, 0⟩ ⟨0, 0, 4 * 46341 ^ 1⟩).foldl addWork
        (raiseLimit 46341 ⟨g1, [], toInt (toU32 (0 + 1)), 1⟩)) := by
    rw [worker, if_pos (by decide)]
    show Option.bind (marianiSilverJob 5 4 46341 false (fun _ _ _ x => x % 2)
      ⟨unsetGrid 5, [], toInt (toU32 (0 + 1)), 1⟩ ⟨0, 0⟩ ⟨0, 0⟩ 0 0 (4 * 46341 ^ 1)) _ = _
    rw [ejob, Option.some_bind, worker, if_neg]
    rw [foldl_addWork]
    show ¬ (toInt (toU32 (0 + 1)) < toInt (toU32 (1 + toInt (wrap (46341 * 46341)))))
    decide
  refine ⟨_, hrun, ?_, ?_, ?_⟩
  · rw [foldl_addWork]
    show ([] ++ childJobs 46341 r ⟨0, 0⟩ ⟨0, 0⟩ ⟨0, 0, 4 * 46341 ^ 1⟩).length = _
    rw [List.nil_append, childJobs_length]
  · rw [foldl_addWork]
    show toInt (toU32 (0 + 1)) = 1
    decide
  · rw [foldl_addWork]
    show toInt (toU32 (1 + toInt (wrap (46341 * 46341)))) = -2147479014
    decide

/-! ## The border probe with four edge workers -/

theorem tally_mono {res : Nat} {pd : Evaluator} {cmin dc : Cplx} {g : Grid}
    {L L' : List (Nat × Nat)} {cd : Int} (hsub : ∀ p, p ∈ L ↔ p ∈ L')
    (h : Tally res pd cmin dc g L cd) : Tally res pd cmin dc g L' cd := by
  rcases h with ⟨h1, h2⟩ | ⟨h1, ⟨p, hp, hin⟩, h3⟩ | ⟨h1, p, hp, q, hq, h⟩
  · exact Or.inl ⟨h1, fun p hp => h2 p ((hsub p).mpr hp)⟩
  · exact Or.inr (Or.inl ⟨h1, ⟨p, (hsub p).mp hp, hin⟩, fun q hq => h3 q ((hsub q).mpr hq)⟩)
  · exact Or.inr (Or.inr ⟨h1, p, (hsub p).mp hp, q, (hsub q).mp hq, h⟩)

/-- One uninterrupted call of `threadedCommonBorder`. -/
theorem threadedCommonBorder_spec {res : Nat} {pd : Evaluator} {cmin dc : Cplx}
    (hpd : ∀ y x, pd cmin dc y x < 2 ^ 31) {g0 g : Grid} (hg : WF res g)
    (hm : ∀ y x, memo pd cmin dc g y x = memo pd cmin dc g0 y x) {L : List (Nat × Nat)}
    {cd : Int} (h : Tally res pd cmin dc g0 L cd) (i s yMax xMax atY atX : Nat) :
    ∃ g' cd', threadedCommonBorder res pd cmin dc i s yMax xMax atY atX g cd = some (g', cd') ∧
      WF res g' ∧ (∀ y x, memo pd cmin dc g' y x = memo pd cmin dc g0 y x) ∧
      Tally res pd cmin dc g0 (L ++ [(borderY atY yMax i s, borderX atX xMax i s)]) cd' := by
  generalize hyv : borderY atY yMax i s = y
  generalize hxv : borderX atX xMax i s = x
  by_cases hin : y < res ∧ x < res
  · obtain ⟨hy, hx⟩ := hin
    obtain ⟨g1, e1, hw1, hc1, hf1⟩ := probe_step pd cmin dc hg hy hx
    have hv1 : 0 ≤ cell g1 y x := by
      rw [hc1]
      exact memo_nonneg hpd g y x
    have hval : cell g1 y x = memo pd cmin dc g0 y x := by rw [hc1, hm]
    have hmemo : ∀ y' x', memo pd cmin dc g1 y' x' = memo pd cmin dc g0 y' x' := by
      intro y' x'
      rw [← hm]
      rcases hf1 y' x' with h | ⟨h1, h2, h3, h4⟩
      · simp [memo, h]
      · subst h1; subst h2
        unfold memo
        rw [if_neg (by omega), if_pos h3, h4]
    have unf : threadedCommonBorder res pd cmin dc i s yMax xMax atY atX g cd =
        (if cd = -1 then some (g1, cell g1 y x)
          else if cd ≠ cell g1 y x then some (g1, -2) else some (g1, cd)) := by
      simp only [threadedCommonBorder, hyv, hxv, hy, hx, and_self, if_true, bufAt_eq hg hy hx,
        Option.some_bind, e1, bufAt_eq hw1 hy hx]
    rw [unf]
    rcases h with ⟨h1, h2⟩ | ⟨h1, ⟨p, hp, hpin⟩, h3⟩ | ⟨h1, p, hp, q, hq, h⟩
    · refine ⟨g1, cell g1 y x, by rw [if_pos h1], hw1, hmemo, Or.inr (Or.inl ⟨hv1, ?_, ?_⟩)⟩
      · exact ⟨(y, x), by simp, hy, hx⟩
      · intro q hq hq1 hq2
        rw [List.mem_append, List.mem_singleton] at hq
        rcases hq with hq | hq
        · exact absurd ⟨hq1, hq2⟩ (h2 q hq)
        · subst hq
          exact hval.symm
    · by_cases hne : cd ≠ cell g1 y x
      · refine ⟨g1, -2, by rw [if_neg (by omega), if_pos hne], hw1, hmemo,
          Or.inr (Or.inr ⟨rfl, p, by simp [hp], (y, x), by simp, hpin.1, hpin.2, hy, hx, ?_⟩)⟩
        rw [h3 p hp hpin.1 hpin.2, ← hval]
        exact hne
      · have heq : cd = cell g1 y x := by omega
        refine ⟨g1, cd, by rw [if_neg (by omega), if_neg hne], hw1, hmemo,
          Or.inr (Or.inl ⟨h1, ⟨p, by simp [hp], hpin⟩, ?_⟩)⟩
        intro q hq hq1 hq2
        rw [List.mem_append, List.mem_singleton] at hq
        rcases hq with hq | hq
        · exact h3 q hq hq1 hq2
        · subst hq
          rw [heq, hval]
    · refine ⟨g1, -2, by rw [if_neg (by omega), if_pos (by omega)], hw1, hmemo,
        Or.inr (Or.inr ⟨rfl, p, by simp [hp], q, by simp [hq], h⟩)⟩
  · have unf : threadedCommonBorder res pd cmin dc i s yMax xMax atY atX g cd = some (g, cd) := by
      unfold threadedCommonBorder
      rw [hyv, hxv, if_neg hin]
    refine ⟨g, cd, unf, hg, hm, ?_⟩
    rcases h with ⟨h1, h2⟩ | ⟨h1, ⟨p, hp, hpin⟩, h3⟩ | ⟨h1, p, hp, q, hq, h⟩
    · refine Or.inl ⟨h1, ?_⟩
      intro q hq
      rw [List.mem_append, List.mem_singleton] at hq
      rcases hq with hq | hq
      · exact h2 q hq
      · subst hq
        exact hin
    · refine Or.inr (Or.inl ⟨h1, ⟨p, by simp [hp], hpin⟩, ?_⟩)
      intro q hq hq1 hq2
      rw [List.mem_append, List.mem_singleton] at hq
      rcases hq with hq | hq
      · exact h3 q hq hq1 hq2
      · subst hq
        exact absurd ⟨hq1, hq2⟩ hin
    · exact Or.inr (Or.inr ⟨h1, p, by simp [hp], q, by simp [hq], h⟩)

/-- One round of `multipleThreadCommonBorder`: the workers `ss` one after another. -/
theorem threadedRound_spec {res : Nat} {pd : Evaluator} {cmin dc : Cplx}
    (hpd : ∀ y x, pd cmin dc y x < 2 ^ 31) (g0 : Grid) (i yMax xMax atY atX : Nat) :
    ∀ (ss : List Nat) (g : Grid) (cd : Int) (L : List (Nat × Nat)), WF res g →
      (∀ y x, memo pd cmin dc g y x = memo pd cmin dc g0 y x) → Tally res pd cmin dc g0 L cd →
      ∃ g' cd', ss.foldlM
          (fun st s => threadedCommonBorder res pd cmin dc i s yMax xMax atY atX st.1 st.2)
          (g, cd) = some (g', cd') ∧
        WF res g' ∧ (∀ y x, memo pd cmin dc g' y x = memo pd cmin dc g0 y x) ∧
        Tally res pd cmin dc g0
          (L ++ ss.map fun s => (borderY atY yMax i s, borderX atX xMax i s)) cd' := by
  intro ss
  induction ss with
  | nil =>
    intro g cd L hg hm h
    exact ⟨g, cd, rfl, hg, hm, by simpa using h⟩
  | cons s ss ih =>
    intro g cd L hg hm h
    obtain ⟨g1, cd1, e1, hw1, hm1, h1⟩ := threadedCommonBorder_spec hpd hg hm h i s yMax xMax
      atY atX
    obtain ⟨g2, cd2, e2, hw2, hm2, h2⟩ := ih g1 cd1 _ hw1 hm1 h1
    refine ⟨g2, cd2, ?_, hw2, hm2, ?_⟩
    · rw [List.foldlM_cons]
      show Option.bind (threadedCommonBorder res pd cmin dc i s yMax xMax atY atX g cd) _ = _
      rw [e1, Option.some_bind]
      exact e2
    · simpa using h2

/-- The rounds of `multipleThreadCommonBorder`. -/
theorem multipleThreadCommonBorderFrom_spec {res : Nat} {pd : Evaluator} {cmin dc : Cplx}
    (hpd : ∀ y x, pd cmin dc y x < 2 ^ 31) (g0 : Grid) (order : Nat → List Nat)
    (yMax xMax atY atX : Nat) :
    ∀ (rounds : List Nat) (g : Grid) (cd : Int) (L : List (Nat × Nat)), WF res g →
      (∀ y x, memo pd cmin dc g y x = memo pd cmin dc g0 y x) → Tally res pd cmin dc g0 L cd →
      ∃ g' r, multipleThreadCommonBorderFrom res pd cmin dc order yMax xMax atY atX rounds g cd =
          some (g', r) ∧ WF res g' ∧
        Tally res pd cmin dc g0
          (L ++ rounds.flatMap fun i =>
            (order i).map fun s => (borderY atY yMax i s, borderX atX xMax i s)) r := by
  intro rounds
  induction rounds with
  | nil =>
    intro g cd L hg _ h
    exact ⟨g, cd, rfl, hg, by simpa using h⟩
  | cons i rounds ih =>
    intro g cd L hg hm h
    obtain ⟨g1, cd1, e1, hw1, hm1, h1⟩ := threadedRound_spec hpd g0 i yMax xMax atY atX
      (order i) g cd L hg hm h
    by_cases hstop : cd1 = -2
    · refine ⟨g1, cd1, ?_, hw1, ?_⟩
      · rw [multipleThreadCommonBorderFrom, e1, Option.some_bind]
        simp only [hstop, if_true]
      · rcases h1 with ⟨h2, _⟩ | ⟨h2, _⟩ | ⟨h2, p, hp, q, hq, hne⟩
        · omega
        · omega
        · refine Or.inr (Or.inr ⟨h2, p, ?_, q, ?_, hne⟩)
          · rw [List.flatMap_cons, ← List.append_assoc]
            exact List.mem_append_left _ hp
          · rw [List.flatMap_cons, ← List.append_assoc]
            exact List.mem_append_left _ hq
    · obtain ⟨g2, r, e2, hw2, h2⟩ := ih g1 cd1 _ hw1 hm1 h1
      refine ⟨g2, r, ?_, hw2, ?_⟩
      · rw [multipleThreadCommonBorderFrom, e1, Option.some_bind]
        simp only [hstop, if_false]
        exact e2
      · rw [List.flatMap_cons, ← List.append_assoc]
        exact h2

/-- The verdict of `multipleThreadCommonBorder` in terms of the memoised values of the border
pixels, for workers that run in any order within a round. -/
theorem multipleThreadCommonBorder_spec {res : Nat} {pd : Evaluator} {cmin dc : Cplx}
    (hpd : ∀ y x, pd cmin dc y x < 2 ^ 31) {g : Grid} (hg : WF res g) (order : Nat → List Nat)
    (horder : ∀ i, (order i).Perm (List.range 4)) (atY atX blockSize : Nat) :
    ∃ g' r, multipleThreadCommonBorder res pd cmin dc order g atY atX blockSize = some (g', r) ∧
      WF res g' ∧ Tally res pd cmin dc g (borderWalk res atY atX blockSize) r := by
  obtain ⟨g', r, e, hw, h⟩ := multipleThreadCommonBorderFrom_spec hpd g order
    (edgeMax res atY blockSize) (edgeMax res atX blockSize) atY atX (List.range blockSize) g (-1)
    [] hg (fun _ _ => rfl) (Or.inl ⟨rfl, by simp⟩)
  refine ⟨g', r, e, hw, tally_mono ?_ h⟩
  intro p
  unfold borderWalk
  simp only [List.nil_append, List.mem_flatMap, List.mem_map]
  constructor
  · rintro ⟨i, hi, s, hs, rfl⟩
    exact ⟨i, hi, s, (horder i).mem_iff.mp hs, rfl⟩
  · rintro ⟨i, hi, s, hs, rfl⟩
    exact ⟨i, hi, s, (horder i).mem_iff.mpr hs, rfl⟩

/-- C16: on every `res × res` buffer and every block, for every order in which the four edge
workers of each round run one after another, `multipleThreadCommonBorder` returns; it returns
`d ≥ 0` exactly when `commonBorder` returns `d` on the same buffer, and otherwise `-1` or `-2`
(exactly when `commonBorder` returns `-1`); and `marianiSilverWithThreadedCommonBorder` goes on
from a negative verdict, `-2` as well as `-1`, with Brute Force for a side `≤ blockDim` and
with Subdivide otherwise. -/
theorem threaded_probe_agrees (res blockDim subDiv : Nat) (mark : Bool) (pd : Evaluator)
    (order : Nat → Nat → Nat → Nat → List Nat) (cmin dc : Cplx) (g : Grid)
    (atY atX blockSize : Nat) (hpd : ∀ y x, pd cmin dc y x < 2 ^ 31) (hg : WF res g)
    (horder : ∀ i, (order atY atX blockSize i).Perm (List.range 4)) :
    ∃ g1 r1 g2 r2, commonBorder res pd cmin dc g atY atX blockSize = some (g1, r1) ∧
      multipleThreadCommonBorder res pd cmin dc (order atY atX blockSize) g atY atX blockSize =
        some (g2, r2) ∧
      (∀ d : Int, 0 ≤ d → (r2 = d ↔ r1 = d)) ∧
      (r2 < 0 → r2 = -1 ∨ r2 = -2) ∧ (r2 < 0 ↔ r1 = -1) ∧
      (r2 < 0 → ∀ fuel,
        marianiSilverWithThreadedCommonBorder res blockDim subDiv mark pd order cmin dc (fuel + 1)
            g atY atX blockSize =
          if blockSize ≤ blockDim then
            (computeBlock res pd cmin dc g2 atY atX blockSize 0).bind fun g3 =>
              if mark then markBorder res g3 dwellCompute atY atX blockSize else some g3
          else if subDiv = 0 then none
          else
            (List.range subDiv).foldlM
              (fun g ydiv =>
                (List.range subDiv).foldlM
                  (fun g xdiv =>
                    marianiSilverWithThreadedCommonBorder res blockDim subDiv mark pd order cmin
                      dc fuel g (wrap (atY + wrap (ydiv * (blockSize / subDiv))))
                      (wrap (atX + wrap (xdiv * (blockSize / subDiv))))
                      (blockSize / subDiv)) g) g2) := by
  obtain ⟨g1, r1, e1, _, _, h1⟩ := commonBorder_spec hpd hg atY atX blockSize
  obtain ⟨g2, r2, e2, _, h2⟩ := multipleThreadCommonBorder_spec hpd hg (order atY atX blockSize)
    horder atY atX blockSize
  have key : (0 ≤ r2 ∧ r2 = r1) ∨ ((r2 = -1 ∨ r2 = -2) ∧ r1 = -1) := by
    rcases h2 with ⟨a1, a2⟩ | ⟨a1, ⟨p, hp, hpin⟩, a3⟩ | ⟨a1, p, hp, q, hq, hp1, hp2, hq1, hq2, hne⟩
    · rcases h1 with ⟨_, _, p, hp, hpin⟩ | ⟨b1, _⟩
      · exact absurd hpin (a2 p hp)
      · exact Or.inr ⟨Or.inl a1, b1⟩
    · rcases h1 with ⟨_, b2, _⟩ | ⟨_, b2 | ⟨p', hp', q', hq', c1, c2, c3, c4, hne⟩⟩
      · refine Or.inl ⟨a1, ?_⟩
        rw [← a3 p hp hpin.1 hpin.2, (b2 p hp hpin.1 hpin.2).2]
      · exact absurd hpin (b2 p hp)
      · exfalso
        apply hne
        rw [a3 p' hp' c1 c2, a3 q' hq' c3 c4]
    · rcases h1 with ⟨_, b2, _⟩ | ⟨b1, _⟩
      · exfalso
        apply hne
        rw [(b2 p hp hp1 hp2).2, (b2 q hq hq1 hq2).2]
      · exact Or.inr ⟨Or.inr a1, b1⟩
  refine ⟨g1, r1, g2, r2, e1, e2, ?_, ?_, ?_, ?_⟩
  · intro d hd
    rcases key with ⟨_, k⟩ | ⟨k1, k2⟩
    · rw [k]
    · constructor <;> intro h <;> omega
  · intro h
    rcases key with ⟨k, _⟩ | ⟨k1, _⟩
    · omega
    · exact k1
  · rcases key with ⟨k, k'⟩ | ⟨k1, k2⟩
    · constructor <;> intro h <;> omega
    · constructor <;> intro h <;> omega
  · intro hneg fuel
    rw [marianiSilverWithThreadedCommonBorder, e2, Option.some_bind]
    simp only [ge_iff_le]
    rw [if_neg (by omega)]

theorem threaded_probe_agrees_witness :
    ∃ g1 r1 g2 r2,
      commonBorder 5 (fun _ _ y x => (x / 3 + y / 3) % 2) ⟨0, 0⟩ ⟨0, 0⟩ (unsetGrid 5) 0 0 16 =
        some (g1, r1) ∧
      multipleThreadCommonBorder 5 (fun _ _ y x => (x / 3 + y / 3) % 2) ⟨0, 0⟩ ⟨0, 0⟩
        (fun _ => [3, 1, 0, 2]) (unsetGrid 5) 0 0 16 = some (g2, r2) ∧
      (∀ d : Int, 0 ≤ d → (r2 = d ↔ r1 = d)) ∧
      (r2 < 0 → r2 = -1 ∨ r2 = -2) ∧ (r2 < 0 ↔ r1 = -1) ∧
      (r2 < 0 → ∀ fuel,
        marianiSilverWithThreadedCommonBorder 5 4 4 false (fun _ _ y x => (x / 3 + y / 3) % 2)
            (fun _ _ _ _ => [3, 1, 0, 2]) ⟨0, 0⟩ ⟨0, 0⟩ (fuel + 1) (unsetGrid 5) 0 0 16 =
          if 16 ≤ 4 then
            (computeBlock 5 (fun _ _ y x => (x / 3 + y / 3) % 2) ⟨0, 0⟩ ⟨0, 0⟩ g2 0 0 16 0).bind
              fun g3 => if false then markBorder 5 g3 dwellCompute 0 0 16 else some g3
          else if 4 = 0 then none
          else
            (List.range 4).foldlM
              (fun g ydiv =>
                (List.range 4).foldlM
                  (fun g xdiv =>
                    marianiSilverWithThreadedCommonBorder 5 4 4 false
                      (fun _ _ y x => (x / 3 + y / 3) % 2) (fun _ _ _ _ => [3, 1, 0, 2]) ⟨0, 0⟩
                      ⟨0, 0⟩ fuel g (wrap (0 + wrap (ydiv * (16 / 4))))
                      (wrap (0 + wrap (xdiv * (16 / 4)))) (16 / 4)) g) g2) :=
  threaded_probe_agrees 5 4 4 false (fun _ _ y x => (x / 3 + y / 3) % 2)
    (fun _ _ _ _ => [3, 1, 0, 2]) ⟨0, 0⟩ ⟨0, 0⟩ (unsetGrid 5) 0 0 16
    (by intro y x; show (x / 3 + y / 3) % 2 < 2 ^ 31; omega) (WF_unsetGrid 5)
    (fun _ => by show [3, 1, 0, 2].Perm (List.range 4); decide)

/-- On the all-unset 2 × 2 buffer with the evaluator `x % 2`, the workers run in the order
3, 1, 0, 2: the threaded probe of the block `(0, 0, 2)` returns `-2` where `commonBorder`
returns `-1`. -/
theorem multipleThreadCommonBorder_conflict :
    (multipleThreadCommonBorder 2 (fun _ _ _ x => x % 2) ⟨0, 0⟩ ⟨0, 0⟩ (fun _ => [3, 1, 0, 2])
        (unsetGrid 2) 0 0 2).map Prod.snd = some (-2) ∧
      (commonBorder 2 (fun _ _ _ x => x % 2) ⟨0, 0⟩ ⟨0, 0⟩ (unsetGrid 2) 0 0 2).map Prod.snd =
        some (-1) := by
  decide

/-! ## Accesses stay inside the grid -/

theorem bufAt_none {res : Nat} {g : Grid} (hg : WF res g) {y x : Nat}
    (h : ¬ (y < res ∧ x < res)) : bufAt g y x = none := by
  obtain ⟨hlen, hrows⟩ := hg
  unfold bufAt
  by_cases hy : y < g.length
  · have h1 : g[y]? = some g[y] := List.getElem?_eq_getElem hy
    rw [h1]
    have hrow := hrows g[y] (List.getElem_mem hy)
    simp only
    apply List.getElem?_eq_none
    omega
  · have h1 : g[y]? = none := List.getElem?_eq_none (by omega)
    rw [h1]

theorem bufSet_none {res : Nat} {g : Grid} (hg : WF res g) {y x : Nat}
    (h : ¬ (y < res ∧ x < res)) (v : Int) : bufSet g y x v = none := by
  obtain ⟨hlen, hrows⟩ := hg
  unfold bufSet
  by_cases hy : y < g.length
  · have h1 : g[y]? = some g[y] := List.getElem?_eq_getElem hy
    rw [h1]
    have hrow := hrows g[y] (List.getElem_mem hy)
    simp only
    rw [if_neg (by omega)]
  · have h1 : g[y]? = none := List.getElem?_eq_none (by omega)
    rw [h1]

/-- The border probe returns on every `res × res` buffer, whatever the evaluator. -/
theorem commonBorderFrom_total {res : Nat} (pd : Evaluator) (cmin dc : Cplx) :
    ∀ (L : List (Nat × Nat)) (g : Grid) (cd : Int), WF res g →
      ∃ g' r, commonBorderFrom res pd cmin dc L g cd = some (g', r) ∧ WF res g' := by
  intro L
  induction L with
  | nil =>
    intro g cd hg
    exact ⟨g, cd, rfl, hg⟩
  | cons p rest ih =>
    intro g cd hg
    obtain ⟨y, x⟩ := p
    by_cases hin : y < res ∧ x < res
    · obtain ⟨hy, hx⟩ := hin
      obtain ⟨g1, e1, hw1, _, _⟩ := probe_step pd cmin dc hg hy hx
      have unf : commonBorderFrom res pd cmin dc ((y, x) :: rest) g cd =
          (if cd = -1 then commonBorderFrom res pd cmin dc rest g1 (cell g1 y x)
            else if cd ≠ cell g1 y x then some (g1, -1)
            else commonBorderFrom res pd cmin dc rest g1 cd) := by
        simp only [commonBorderFrom, hy, hx, and_self, if_true, bufAt_eq hg hy hx,
          Option.some_bind, e1, bufAt_eq hw1 hy hx]
      rw [unf]
      by_cases h1 : cd = -1
      · rw [if_pos h1]
        exact ih g1 _ hw1
      · rw [if_neg h1]
        by_cases h2 : cd ≠ cell g1 y x
        · rw [if_pos h2]
          exact ⟨g1, -1, rfl, hw1⟩
        · rw [if_neg h2]
          exact ih g1 _ hw1
    · have unf : commonBorderFrom res pd cmin dc ((y, x) :: rest) g cd =
          commonBorderFrom res pd cmin dc rest g cd := by
        simp only [commonBorderFrom, hin, if_false]
      rw [unf]
      exact ih g cd hg

/-- C21: on a `res × res` buffer an access `.at(y).at(x)` with `y ≥ res` or `x ≥ res` fails,
and for every block `(atY, atX, blockSize)` of unsigned 32-bit values, whether it lies in the
grid, extends past it or lies beyond it, `commonBorder`, `markBorder`, `fillBlock` and
`computeBlock` (with `omitBorder = 0`) return without a failed access and leave a `res × res`
buffer. -/
theorem block_functions_stay_in_grid (res : Nat) (pd : Evaluator) (cmin dc : Cplx) (g : Grid)
    (dwell : Int) (atY atX blockSize : Nat) (hres : res < 2 ^ 32) (hg : WF res g)
    (hY : atY < 2 ^ 32) (hX : atX < 2 ^ 32) :
    (∀ y x, ¬ (y < res ∧ x < res) → bufAt g y x = none ∧ ∀ v, bufSet g y x v = none) ∧
      (∃ g' r, commonBorder res pd cmin dc g atY atX blockSize = some (g', r) ∧ WF res g') ∧
      (∃ g', markBorder res g dwell atY atX blockSize = some g' ∧ WF res g') ∧
      (∃ g', fillBlock res g dwell atY atX blockSize 0 = some g' ∧ WF res g') ∧
      ∃ g', computeBlock res pd cmin dc g atY atX blockSize 0 = some g' ∧ WF res g' := by
  refine ⟨fun y x h => ⟨bufAt_none hg h, bufSet_none hg h⟩, ?_, ?_, ?_, ?_⟩
  · exact commonBorderFrom_total pd cmin dc _ g (-1) hg
  · obtain ⟨g', e, hw, _⟩ := markBorder_spec hg dwell atY atX blockSize
    exact ⟨g', e, hw⟩
  · obtain ⟨g', e, hw, _⟩ := fillBlock_spec hg dwell blockSize hY hX hres
    exact ⟨g', e, hw⟩
  · obtain ⟨g', e, hw, _⟩ := computeBlock_spec pd cmin dc hg blockSize hY hX hres
    exact ⟨g', e, hw⟩

theorem block_functions_stay_in_grid_witness :
    (∀ y x, ¬ (y < 5 ∧ x < 5) →
        bufAt (unsetGrid 5) y x = none ∧ ∀ v, bufSet (unsetGrid 5) y x v = none) ∧
      (∃ g' r, commonBorder 5 (fun _ _ y x => (x / 3 + y / 3) % 2) ⟨0, 0⟩ ⟨0, 0⟩ (unsetGrid 5)
        4294967290 3 100 = some (g', r) ∧ WF 5 g') ∧
      (∃ g', markBorder 5 (unsetGrid 5) dwellFill 4294967290 3 100 = some g' ∧ WF 5 g') ∧
      (∃ g', fillBlock 5 (unsetGrid 5) dwellFill 4294967290 3 100 0 = some g' ∧ WF 5 g') ∧
      ∃ g', computeBlock 5 (fun _ _ y x => (x / 3 + y / 3) % 2) ⟨0, 0⟩ ⟨0, 0⟩ (unsetGrid 5)
        4294967290 3 100 0 = some g' ∧ WF 5 g' :=
  block_functions_stay_in_grid 5 (fun _ _ y x => (x / 3 + y / 3) % 2) ⟨0, 0⟩ ⟨0, 0⟩
    (unsetGrid 5) dwellFill 4294967290 3 100 (by norm_num) (WF_unsetGrid 5) (by norm_num)
    (by norm_num)

/-! ## The colour table -/

theorem closeGradient_colourGradient : closeGradient colourGradient = colourGradient := by
  unfold closeGradient colourGradient
  rw [if_neg]
  simp

theorem gradientStep_length (maxDwell : Nat) (st : MapState) (gradient : ℚ × Rgb) :
    (gradientStep maxDwell st gradient).colours.length =
      st.colours.length + toU32 (Int.ceil ((maxDwell : ℚ) * (gradient.1 - st.pos))) := by
  unfold gradientStep
  simp

theorem foldl_gradientStep_le (maxDwell : Nat) :
    ∀ (l : List (ℚ × Rgb)) (st : MapState),
      st.colours.length ≤ (l.foldl (gradientStep maxDwell) st).colours.length := by
  intro l
  induction l with
  | nil => intro st; simp
  | cons a l ih =>
    intro st
    rw [List.foldl_cons]
    have := ih (gradientStep maxDwell st a)
    rw [gradientStep_length] at this
    omega

/-- The table built by `createColourMap(n)` is non-empty for `1 ≤ n < 2 ^ 32`. -/
theorem createColourMap_length_pos (n : Nat) (h1 : 1 ≤ n) (h32 : n < 2 ^ 32) :
    0 < (createColourMap n []).length := by
  unfold createColourMap
  rw [closeGradient_colourGradient]
  unfold colourGradient
  rw [List.foldl_cons, List.foldl_cons]
  refine lt_of_lt_of_le ?_ (foldl_gradientStep_le n _ _)
  rw [gradientStep_length, gradientStep_length]
  have hq : (0 : ℚ) < (n : ℚ) * (3 / 100 - 0) := by
    have : (1 : ℚ) ≤ (n : ℚ) := by exact_mod_cast h1
    nlinarith
  have hle : (n : ℚ) * (3 / 100 - 0) ≤ (n : ℚ) := by
    have : (0 : ℚ) ≤ (n : ℚ) := by positivity
    nlinarith
  have hc : 0 < Int.ceil ((n : ℚ) * (3 / 100 - 0)) := Int.ceil_pos.mpr hq
  have hc2 : Int.ceil ((n : ℚ) * (3 / 100 - 0)) ≤ (n : Int) := by
    apply Int.ceil_le.mpr
    exact_mod_cast hle
  have : toU32 (Int.ceil ((n : ℚ) * (3 / 100 - 0))) =
      (Int.ceil ((n : ℚ) * (3 / 100 - 0))).toNat := by
    unfold toU32
    rw [Int.emod_eq_of_lt (by omega) (by omega)]
  show 0 < _ + toU32 (Int.ceil ((n : ℚ) * (3 / 100 - 0)))
  rw [this]
  omega

theorem createColourMap_zero : createColourMap 0 [] = [] := by
  unfold createColourMap
  rw [closeGradient_colourGradient]
  simp [colourGradient, gradientStep, toU32]

/-- C23: with the default `maxDwell = 512` and `colourIterations = 513` (option `-c 513`) the
argument `maxDwell / colourIterations` of `createColourMap` is 0, the table `colours` stays
empty, and `dwellColor` fails its assertion `colours.size() > 0` for every pixel. -/
theorem colour_table_empty :
    acceptedMaxDwell 512 = 512 ∧ toU32 (max 1 513) = 513 ∧ mainColourMap 512 513 = [] ∧
      ∀ index dwell, dwellColor (mainColourMap 512 513) index dwell = none := by
  have h : mainColourMap 512 513 = [] := by
    unfold mainColourMap
    have : wrap (512 / 513) = 0 := by decide
    rw [this, createColourMap_zero]
  refine ⟨by decide, by decide, h, ?_⟩
  intro index dwell
  rw [h]
  rfl

/-- For `colourIterations ≤ maxDwell` the table built by `main` is non-empty and `dwellColor`
returns a colour. -/
theorem colour_table_nonempty (maxDwell colourIterations : Nat) (h1 : 1 ≤ colourIterations)
    (h2 : colourIterations ≤ maxDwell) (h32 : maxDwell < 2 ^ 32) (index dwell : Nat) :
    0 < (mainColourMap maxDwell colourIterations).length ∧
      (dwellColor (mainColourMap maxDwell colourIterations) index dwell).isSome = true := by
  have hq : 1 ≤ maxDwell / colourIterations := (Nat.one_le_div_iff (by omega)).mpr h2
  have hle : maxDwell / colourIterations ≤ maxDwell := Nat.div_le_self _ _
  have hpos : 0 < (mainColourMap maxDwell colourIterations).length := by
    unfold mainColourMap
    rw [wrap_of_lt (by omega)]
    exact createColourMap_length_pos _ hq (by omega)
  refine ⟨hpos, ?_⟩
  unfold dwellColor
  rw [if_pos hpos]
  split
  · rfl
  · split
    · rfl
    · have := Nat.mod_lt index hpos
      rw [List.getElem?_eq_getElem this]
      rfl

/-! ## Border marking: geometry of the visits -/

theorem ahead_apart {B C : Block} (h : Ahead B C) : Apart B C := by
  intro y x hh
  obtain ⟨⟨b1, b2, b3, b4⟩, c1, c2, c3, c4⟩ := hh
  have := h.1 y b1 b2 c1 c2
  omega

theorem ahead_of_sub {B C D : Block} (h : Ahead B C) (h1 : B.atY ≤ D.atY)
    (h2 : D.atY + D.size ≤ B.atY + B.size) (h3 : B.atX ≤ D.atX)
    (h4 : D.atX + D.size ≤ B.atX + B.size) : Ahead D C := by
  constructor
  · intro y d1 d2 c1 c2
    have := h.1 y (by omega) (by omega) c1 c2
    omega
  · intro x d1 d2 c1 c2
    have := h.2 x (by omega) (by omega) c1 c2
    omega

theorem children_ahead {sd n : Nat} {B : Block} (hsize : B.size = sd * n) (hsd : 1 ≤ sd)
    (hy : B.atY + B.size < 2 ^ 32) (hx : B.atX + B.size < 2 ^ 32) :
    (children sd B).Pairwise Ahead := by
  unfold children
  rw [List.pairwise_flatMap]
  constructor
  · intro yd hyd
    rw [List.mem_range] at hyd
    rw [List.pairwise_map]
    refine List.Pairwise.imp_of_mem ?_ (List.pairwise_lt_range sd)
    intro xd xd' hxd hxd' hlt
    rw [List.mem_range] at hxd hxd'
    rw [child_eq hsize hsd hy hx hyd hxd, child_eq hsize hsd hy hx hyd hxd']
    have := succ_mul_le hlt n
    constructor
    · intro y _ _ _ _
      simp only
      omega
    · intro x a1 a2 a3 a4
      simp only at a1 a2 a3 a4 ⊢
      omega
  · refine List.Pairwise.imp_of_mem ?_ (List.pairwise_lt_range sd)
    intro yd yd' hyd hyd' hlt C hC C' hC'
    rw [List.mem_range] at hyd hyd'
    rw [List.mem_map] at hC hC'
    obtain ⟨xd, hxd, rfl⟩ := hC
    obtain ⟨xd', hxd', rfl⟩ := hC'
    rw [List.mem_range] at hxd hxd'
    rw [child_eq hsize hsd hy hx hyd hxd, child_eq hsize hsd hy hx hyd' hxd']
    have := succ_mul_le hlt n
    constructor
    · intro y a1 a2 a3 a4
      simp only at a1 a2 a3 a4 ⊢
      omega
    · intro x _ _ _ _
      simp only
      omega

/-- The in-grid pixels of the border walk of a block that starts in the grid are edge cells
of the block. -/
theorem walk_inside {res : Nat} {B : Block} (hb : 1 ≤ B.size)
    (hy : B.atY + B.size < 2 ^ 32) (hx : B.atX + B.size < 2 ^ 32) (hres1 : 1 ≤ res)
    (hres : res < 2 ^ 32) {y x : Nat} (hp : (y, x) ∈ borderWalk res B.atY B.atX B.size)
    (hyr : y < res) (hxr : x < res) (hin : B.atY < res ∧ B.atX < res) : OnEdge res B y x := by
  rw [mem_borderWalk] at hp
  obtain ⟨i, hi, s, hs, h⟩ := hp
  rw [edgeMax_eq hb hy hres1 hres, edgeMax_eq hb hx hres1 hres] at h
  simp only [Prod.mk.injEq] at h
  obtain ⟨h1, h2⟩ := h
  unfold borderY at h1
  unfold borderX at h2
  unfold OnEdge InB
  have w1 : wrap (B.atY + i) = B.atY + i := wrap_of_lt (by omega)
  have w2 : wrap (B.atX + i) = B.atX + i := wrap_of_lt (by omega)
  rw [w1] at h1
  rw [w2] at h2
  interval_cases s <;> simp at h1 h2 <;> omega

/-- The in-grid pixels of the border walk of a block that starts beyond the grid: a pixel in
a row of the block left of it, or in a column of the block above it. -/
theorem walk_outside {res : Nat} {B : Block} (hb : 1 ≤ B.size)
    (hy : B.atY + B.size < 2 ^ 32) (hx : B.atX + B.size < 2 ^ 32) (hres1 : 1 ≤ res)
    (hres : res < 2 ^ 32) {y x : Nat} (hp : (y, x) ∈ borderWalk res B.atY B.atX B.size)
    (hyr : y < res) (hxr : x < res) (hout : res ≤ B.atY ∨ res ≤ B.atX) :
    (B.atY ≤ y ∧ y < B.atY + B.size ∧ x < B.atX) ∨
      (B.atX ≤ x ∧ x < B.atX + B.size ∧ y < B.atY) := by
  rw [mem_borderWalk] at hp
  obtain ⟨i, hi, s, hs, h⟩ := hp
  rw [edgeMax_eq hb hy hres1 hres, edgeMax_eq hb hx hres1 hres] at h
  simp only [Prod.mk.injEq] at h
  obtain ⟨h1, h2⟩ := h
  unfold borderY at h1
  unfold borderX at h2
  have w1 : wrap (B.atY + i) = B.atY + i := wrap_of_lt (by omega)
  have w2 : wrap (B.atX + i) = B.atX + i := wrap_of_lt (by omega)
  rw [w1] at h1
  rw [w2] at h2
  interval_cases s <;> simp at h1 h2 <;> omega

/-- A pixel of the border walk of a block beyond the grid lies in no block visited later. -/
theorem walk_outside_free {res : Nat} {B C : Block} (hb : 1 ≤ B.size)
    (hy : B.atY + B.size < 2 ^ 32) (hx : B.atX + B.size < 2 ^ 32) (hres1 : 1 ≤ res)
    (hres : res < 2 ^ 32) {y x : Nat} (hp : (y, x) ∈ borderWalk res B.atY B.atX B.size)
    (hyr : y < res) (hxr : x < res) (hout : res ≤ B.atY ∨ res ≤ B.atX) (hA : Ahead B C) :
    ¬ InB C y x := by
  intro hC
  obtain ⟨c1, c2, c3, c4⟩ := hC
  rcases walk_outside hb hy hx hres1 hres hp hyr hxr hout with ⟨a1, a2, a3⟩ | ⟨a1, a2, a3⟩
  · have := hA.1 y a1 a2 c1 c2
    omega
  · have := hA.2 x a1 a2 c3 c4
    omega

/-! ## Border marking: the steps of a run -/

theorem sentinel_nonneg {v : Int} (h : v = dwellFill ∨ v = dwellCompute) : 0 ≤ v := by
  unfold dwellFill dwellCompute at h
  omega

/-- The invariant is kept by the memoising writes of a border probe of the first pending
block. -/
theorem GM_frame {R : Run} {k : Nat} (hS : Setup R k) {B : Block} {P : List Block}
    {g g1 : Grid} (h : GM R k (B :: P) g) (hw1 : WF R.res g1)
    (hA : ∀ y x, cell g1 y x = cell g y x ∨
      ((y, x) ∈ borderWalk R.res B.atY B.atX B.size ∧ y < R.res ∧ x < R.res ∧
        cell g y x < 0 ∧ cell g1 y x = toInt (R.pd R.cmin R.dc y x))) :
    GM R k (B :: P) g1 := by
  obtain ⟨hres1, hbd, hsd, hk, hcover, hpd⟩ := hS
  obtain ⟨hw, hP, hpair, hdone⟩ := h
  obtain ⟨⟨j, hj, hby, hbx, _⟩, hpre⟩ := hP B (List.mem_cons_self _ _)
  have hb : 1 ≤ B.size := by rw [hj]; exact side_pos R hbd hsd j
  have hy : B.atY + B.size < 2 ^ 32 := by omega
  have hx : B.atX + B.size < 2 ^ 32 := by omega
  have hres : R.res < 2 ^ 32 := by omega
  refine ⟨hw1, ?_, hpair, ?_⟩
  · intro B' hB'
    refine ⟨(hP B' hB').1, ?_⟩
    intro y x hin p1 p2
    rcases hA y x with h' | ⟨hwalk, _, _, _, h'⟩
    · rw [h']
      exact (hP B' hB').2 y x hin p1 p2
    · right
      refine ⟨?_, h'⟩
      rcases walk_edge_or_last hb hy hx hres1 hres hwalk p1 p2 with he | hl
      · rcases List.mem_cons.mp hB' with hBB | hBP
        · rw [hBB]
          exact he
        · exact absurd ⟨he.1, hin⟩
            (ahead_apart ((List.pairwise_cons.mp hpair).1 B' hBP) y x)
      · exact last_onEdge hin p1 p2 hl
  · intro y x p1 p2 hno
    rcases hA y x with h' | ⟨_, _, _, hneg, _⟩
    · rw [h']
      exact hdone y x p1 p2 hno
    · exfalso
      rcases hdone y x p1 p2 hno with h' | h'
      · have := finalVal_nonneg R hpd k 0 0 y x
        omega
      · have := sentinel_nonneg h'
        omega

/-- The border probe of the first pending block in a run with border marking: for a block
that starts in the grid the verdict is the one of the run without marking. -/
theorem GM_probe {R : Run} {k : Nat} (hS : Setup R k) {B : Block} {P : List Block} {g : Grid}
    (h : GM R k (B :: P) g) :
    ∃ g1 r, commonBorder R.res R.pd R.cmin R.dc g B.atY B.atX B.size = some (g1, r) ∧
      GM R k (B :: P) g1 ∧
      ((B.atY < R.res ∧ B.atX < R.res) → r = verdict R B ∧
        (0 ≤ r → ∀ y x, OnEdge R.res B y x →
          cell g1 y x = r ∧ toInt (R.pd R.cmin R.dc y x) = r)) := by
  have hS' := hS
  obtain ⟨hres1, hbd, hsd, hk, hcover, hpd⟩ := hS'
  have h' := h
  obtain ⟨hw, hP, hpair, hdone⟩ := h'
  obtain ⟨⟨j, hj, hby, hbx, _⟩, hpre⟩ := hP B (List.mem_cons_self _ _)
  have hb : 1 ≤ B.size := by rw [hj]; exact side_pos R hbd hsd j
  have hy : B.atY + B.size < 2 ^ 32 := by omega
  have hx : B.atX + B.size < 2 ^ 32 := by omega
  have hres : R.res < 2 ^ 32 := by omega
  by_cases hin : B.atY < R.res ∧ B.atX < R.res
  · have hcons : ∀ p ∈ borderWalk R.res B.atY B.atX B.size, p.1 < R.res → p.2 < R.res →
        cell g p.1 p.2 < 0 ∨ cell g p.1 p.2 = toInt (R.pd R.cmin R.dc p.1 p.2) := by
      rintro ⟨y, x⟩ hp p1 p2
      have he := walk_inside hb hy hx hres1 hres hp p1 p2 hin
      rcases hpre y x he.1 p1 p2 with h' | h'
      · exact Or.inl h'
      · exact Or.inr h'.2
    obtain ⟨g1, e, hw1, hA, hU, _⟩ := probe_consistent R hpd hw B hcons
    refine ⟨g1, verdict R B, e, GM_frame hS h hw1 hA, fun _ => ⟨rfl, ?_⟩⟩
    intro h0 y x he
    exact hU h0 (y, x) (edge_mem_walk hb hy hx hres1 hres he) he.2.1 he.2.2.1
  · obtain ⟨g1, r, e, hw1, hA, _⟩ := commonBorder_spec hpd hw B.atY B.atX B.size
    exact ⟨g1, r, e, GM_frame hS h hw1 hA, fun hh => absurd hh hin⟩

/-- The border marking that ends the visit of the first pending block. -/
theorem GM_mark {R : Run} {k : Nat} (hS : Setup R k) {B : Block} {P : List Block}
    {g1 g2 : Grid} (h : GM R k (B :: P) g1) (hw2 : WF R.res g2)
    (hin2 : ∀ y x, y < R.res → x < R.res → InB B y x → cell g2 y x = finalVal R k 0 0 y x)
    (hout2 : ∀ y x, ¬ (InB B y x ∧ y < R.res ∧ x < R.res) → cell g2 y x = cell g1 y x)
    (s : Int) (hs : s = dwellFill ∨ s = dwellCompute) :
    ∃ g3, markBorder R.res g2 s B.atY B.atX B.size = some g3 ∧ GM R k P g3 := by
  obtain ⟨hres1, hbd, hsd, hk, hcover, hpd⟩ := hS
  obtain ⟨hw, hP, hpair, hdone⟩ := h
  obtain ⟨⟨j, hj, hby, hbx, _⟩, hpre⟩ := hP B (List.mem_cons_self _ _)
  have hb : 1 ≤ B.size := by rw [hj]; exact side_pos R hbd hsd j
  have hy : B.atY + B.size < 2 ^ 32 := by omega
  have hx : B.atX + B.size < 2 ^ 32 := by omega
  have hres : R.res < 2 ^ 32 := by omega
  obtain ⟨g3, e3, hw3, hc3⟩ := markBorder_spec hw2 s B.atY B.atX B.size
  refine ⟨g3, e3, hw3, ?_, (List.pairwise_cons.mp hpair).2, ?_⟩
  · intro C hC
    refine ⟨(hP C (List.mem_cons_of_mem _ hC)).1, ?_⟩
    intro y x hinC p1 p2
    have hAh := (List.pairwise_cons.mp hpair).1 C hC
    have hB : ¬ InB B y x := fun hh => ahead_apart hAh y x ⟨hh, hinC⟩
    have hnw : ¬ ((y, x) ∈ borderWalk R.res B.atY B.atX B.size ∧ y < R.res ∧ x < R.res) := by
      rintro ⟨hwalk, _, _⟩
      by_cases hin : B.atY < R.res ∧ B.atX < R.res
      · exact hB (walk_inside hb hy hx hres1 hres hwalk p1 p2 hin).1
      · exact walk_outside_free hb hy hx hres1 hres hwalk p1 p2 (by omega) hAh hinC
    rw [hc3, if_neg hnw, hout2 y x (fun hh => hB hh.1)]
    exact (hP C (List.mem_cons_of_mem _ hC)).2 y x hinC p1 p2
  · intro y x p1 p2 hno
    rw [hc3]
    by_cases hwk : (y, x) ∈ borderWalk R.res B.atY B.atX B.size ∧ y < R.res ∧ x < R.res
    · rw [if_pos hwk]
      exact Or.inr hs
    · rw [if_neg hwk]
      by_cases hB : InB B y x
      · exact Or.inl (hin2 y x p1 p2 hB)
      · rw [hout2 y x (fun hh => hB hh.1)]
        apply hdone y x p1 p2
        intro B' hB'
        rcases List.mem_cons.mp hB' with h' | h'
        · rw [h']
          exact hB
        · exact hno B' h'

/-- The Fill step on the first pending block, followed by the marking of its border. -/
theorem GM_fill {R : Run} {k : Nat} (hS : Setup R k) {B : Block} {P : List Block} {g1 : Grid}
    (h : GM R k (B :: P) g1) {r : Int} (h0 : 0 ≤ r)
    (hins : (B.atY < R.res ∧ B.atX < R.res) → r = verdict R B ∧
      (0 ≤ r → ∀ y x, OnEdge R.res B y x →
        cell g1 y x = r ∧ toInt (R.pd R.cmin R.dc y x) = r)) :
    ∃ g3, ((fillBlock R.res g1 r B.atY B.atX B.size 0).bind fun g2 =>
        markBorder R.res g2 dwellFill B.atY B.atX B.size) = some g3 ∧ GM R k P g3 := by
  have hS' := hS
  obtain ⟨hres1, hbd, hsd, hk, hcover, hpd⟩ := hS'
  have h' := h
  obtain ⟨hw, hP, _, _⟩ := h'
  obtain ⟨⟨j, hj, hby, hbx, hpath⟩, hpre⟩ := hP B (List.mem_cons_self _ _)
  have hy : B.atY + B.size < 2 ^ 32 := by omega
  have hx : B.atX + B.size < 2 ^ 32 := by omega
  obtain ⟨g2, e2, hw2, hc2⟩ := fillBlock_spec hw r B.size
    (by omega : B.atY < 2 ^ 32) (by omega : B.atX < 2 ^ 32) (by omega : R.res < 2 ^ 32)
  rw [e2, Option.some_bind]
  refine GM_mark hS h hw2 ?_ ?_ dwellFill (Or.inl rfl)
  · intro y x p1 p2 hin
    have hinside : B.atY < R.res ∧ B.atX < R.res := by
      obtain ⟨a1, _, a3, _⟩ := hin
      omega
    obtain ⟨hr, hE⟩ := hins hinside
    have hval : cell g2 y x = r := by
      rw [hc2, if_pos ((inBlockRange_iff hy hx y x).mpr ⟨hin, p1, p2⟩)]
      by_cases hneg : cell g1 y x < 0
      · rw [if_pos hneg]
      · rw [if_neg hneg]
        rcases hpre y x hin p1 p2 with hh | hh
        · exact absurd hh hneg
        · exact (hE h0 y x hh.1).1
    rw [hval, ← hpath y x hin p1 p2, hr, finalVal_uniform hj (by rw [← hr]; exact h0)]
  · intro y x hno
    rw [hc2, if_neg (fun hh => hno ((inBlockRange_iff hy hx y x).mp hh))]

/-- The Brute Force step on the first pending block, followed by the marking of its
border. -/
theorem GM_compute {R : Run} {k : Nat} (hS : Setup R k) {B : Block} {P : List Block}
    {g1 : Grid} (h : GM R k (B :: P) g1) (hsmall : B.size ≤ R.blockDim)
    (hins : (B.atY < R.res ∧ B.atX < R.res) → ¬ 0 ≤ verdict R B) :
    ∃ g3, ((computeBlock R.res R.pd R.cmin R.dc g1 B.atY B.atX B.size 0).bind fun g2 =>
        markBorder R.res g2 dwellCompute B.atY B.atX B.size) = some g3 ∧ GM R k P g3 := by
  have hS' := hS
  obtain ⟨hres1, hbd, hsd, hk, hcover, hpd⟩ := hS'
  have h' := h
  obtain ⟨hw, hP, _, _⟩ := h'
  obtain ⟨⟨j, hj, hby, hbx, hpath⟩, hpre⟩ := hP B (List.mem_cons_self _ _)
  have hy : B.atY + B.size < 2 ^ 32 := by omega
  have hx : B.atX + B.size < 2 ^ 32 := by omega
  have hj0 : j = 0 := level_zero hbd hsd (by rw [← hj]; exact hsmall)
  subst hj0
  obtain ⟨g2, e2, hw2, hc2⟩ := computeBlock_spec R.pd R.cmin R.dc hw B.size
    (by omega : B.atY < 2 ^ 32) (by omega : B.atX < 2 ^ 32) (by omega : R.res < 2 ^ 32)
  rw [e2, Option.some_bind]
  refine GM_mark hS h hw2 ?_ ?_ dwellCompute (Or.inr rfl)
  · intro y x p1 p2 hin
    have hinside : B.atY < R.res ∧ B.atX < R.res := by
      obtain ⟨a1, _, a3, _⟩ := hin
      omega
    have h0 := hins hinside
    rw [hc2, if_pos ((inBlockRange_iff hy hx y x).mpr ⟨hin, p1, p2⟩), ← hpath y x hin p1 p2,
      finalVal_zero, block_eta B hj, if_neg h0]
  · intro y x hno
    rw [hc2, if_neg (fun hh => hno ((inBlockRange_iff hy hx y x).mp hh))]

/-- The Subdivide step on the first pending block in a run with border marking. -/
theorem GM_subdivide {R : Run} {k : Nat} (hS : Setup R k) {B : Block} {P : List Block}
    {g1 : Grid} (h : GM R k (B :: P) g1)
    (hcase : (B.atY < R.res ∧ B.atX < R.res) → ¬ 0 ≤ verdict R B)
    (hbig : ¬ B.size ≤ R.blockDim) :
    GM R k (children R.subDiv B ++ P) g1 ∧
      ∀ j, B.size = R.side (j + 1) → ∀ C ∈ children R.subDiv B, C.size = R.side j := by
  obtain ⟨hres1, hbd, hsd, hk, hcover, hpd⟩ := hS
  obtain ⟨hw, hP, hpair, hdone⟩ := h
  obtain ⟨⟨j, hj, hby, hbx, hpath⟩, hpre⟩ := hP B (List.mem_cons_self _ _)
  have hy : B.atY + B.size < 2 ^ 32 := by omega
  have hx : B.atX + B.size < 2 ^ 32 := by omega
  have hsd1 : 1 ≤ R.subDiv := by omega
  obtain ⟨j', rfl⟩ : ∃ j', j = j' + 1 := by
    cases j with
    | zero =>
      exfalso
      apply hbig
      rw [hj]
      unfold Run.side
      simp
    | succ j' => exact ⟨j', rfl⟩
  have hsize : B.size = R.subDiv * R.side j' := by rw [hj, side_succ]
  have hn : 1 ≤ R.side j' := side_pos R hbd (by omega) j'
  have hkid : ∀ C ∈ children R.subDiv B, ∃ yd < R.subDiv, ∃ xd < R.subDiv,
      C = ⟨B.atY + yd * R.side j', B.atX + xd * R.side j', R.side j'⟩ := by
    intro C hC
    obtain ⟨yd, hyd, xd, hxd, e⟩ := mem_children.mp hC
    exact ⟨yd, hyd, xd, hxd, by rw [e, child_eq hsize hsd1 hy hx hyd hxd]⟩
  have hsub : ∀ C ∈ children R.subDiv B, ∀ y x, InB C y x → InB B y x := by
    intro C hC y x hin
    obtain ⟨yd, hyd, xd, hxd, rfl⟩ := hkid C hC
    unfold InB at hin ⊢
    have := succ_mul_le hyd (R.side j')
    have := succ_mul_le hxd (R.side j')
    simp only at hin
    omega
  refine ⟨⟨hw, ?_, ?_, ?_⟩, ?_⟩
  · intro C hC
    rcases List.mem_append.mp hC with hC | hC
    · obtain ⟨yd, hyd, xd, hxd, e⟩ := hkid C hC
      have hCB := hsub C hC
      subst e
      have b1 := succ_mul_le hyd (R.side j')
      have b2 := succ_mul_le hxd (R.side j')
      refine ⟨⟨j', rfl, by simp only; omega, by simp only; omega, ?_⟩, ?_⟩
      · intro y x hin p1 p2
        have hinB := hCB y x hin
        have h0 : ¬ 0 ≤ verdict R B := by
          apply hcase
          obtain ⟨a1, _, a3, _⟩ := hinB
          omega
        rw [← hpath y x hinB p1 p2, finalVal_succ, block_eta B hj, if_neg h0]
        unfold InB at hin
        simp only at hin
        have e1 : (y - B.atY) / R.side j' = yd :=
          Nat.div_eq_of_lt_le (by omega) (by rw [Nat.succ_mul]; omega)
        have e2 : (x - B.atX) / R.side j' = xd :=
          Nat.div_eq_of_lt_le (by omega) (by rw [Nat.succ_mul]; omega)
        rw [e1, e2]
      · intro y x hin p1 p2
        rcases hpre y x (hCB y x hin) p1 p2 with hh | hh
        · exact Or.inl hh
        · right
          refine ⟨onEdge_sub hh.1 hin ?_ ?_ ?_ ?_, hh.2⟩ <;> simp only <;> omega
    · exact hP C (List.mem_cons_of_mem _ hC)
  · rw [List.pairwise_append]
    refine ⟨children_ahead hsize hsd1 hy hx, (List.pairwise_cons.mp hpair).2, ?_⟩
    intro C hC B' hB'
    obtain ⟨c1, c2, c3, c4⟩ := children_inside hsize hsd1 hy hx C hC
    exact ahead_of_sub ((List.pairwise_cons.mp hpair).1 B' hB') c1 c2 c3 c4
  · intro y x p1 p2 hno
    apply hdone y x p1 p2
    intro B' hB'
    rcases List.mem_cons.mp hB' with e | hB'
    · rw [e]
      intro hin
      obtain ⟨C, hC, hCin⟩ := children_cover hsize hsd1 hn hy hx hin
      exact hno C (List.mem_append_left _ hC) hCin
    · exact hno B' (List.mem_append_right _ hB')
  · intro j2 hj2 C hC
    obtain ⟨yd, hyd, xd, hxd, e⟩ := hkid C hC
    rw [e]
    simp only
    have : R.subDiv * R.side j2 = R.subDiv * R.side j' := by
      rw [← side_succ, ← hj2, hsize]
    exact (Nat.eq_of_mul_eq_mul_left (by omega) this).symm

/-! ## Border marking: the whole run -/

theorem marianiSilverOriginal_unfold_mark (R : Run) (fuel : Nat) (g : Grid) (B : Block) :
    marianiSilverOriginal R.res R.blockDim R.subDiv true R.pd R.cmin R.dc (fuel + 1) g
        B.atY B.atX B.size =
      (commonBorder R.res R.pd R.cmin R.dc g B.atY B.atX B.size).bind fun r =>
        if r.2 ≥ 0 then
          (fillBlock R.res r.1 r.2 B.atY B.atX B.size 0).bind fun g2 =>
            markBorder R.res g2 dwellFill B.atY B.atX B.size
        else if B.size ≤ R.blockDim then
          (computeBlock R.res R.pd R.cmin R.dc r.1 B.atY B.atX B.size 0).bind fun g2 =>
            markBorder R.res g2 dwellCompute B.atY B.atX B.size
        else if R.subDiv = 0 then none
        else (children R.subDiv B).foldlM
          (fun g C => marianiSilverOriginal R.res R.blockDim R.subDiv true R.pd R.cmin R.dc
            fuel g C.atY C.atX C.size) r.1 := by
  rw [marianiSilverOriginal]
  congr 1
  funext r
  simp only [if_true]
  split
  · rfl
  · split
    · rfl
    · split
      · rfl
      · exact foldlM_nested_gen
          (fun g C => marianiSilverOriginal R.res R.blockDim R.subDiv true R.pd R.cmin R.dc
            fuel g C.atY C.atX C.size) (child R.subDiv B) (List.range R.subDiv)
          (List.range R.subDiv) r.1

/-- From a state satisfying the invariant, `marianiSilverOriginal` with border marking on the
first pending block returns and leaves the invariant for the other pending blocks. -/
theorem dfs_mark_spec {R : Run} {k : Nat} (hS : Setup R k) :
    ∀ (j : Nat) (B : Block) (P : List Block) (g : Grid) (fuel : Nat), B.size = R.side j →
      j < fuel → GM R k (B :: P) g →
      ∃ g', marianiSilverOriginal R.res R.blockDim R.subDiv true R.pd R.cmin R.dc fuel g
          B.atY B.atX B.size = some g' ∧ GM R k P g' := by
  intro j
  induction j with
  | zero =>
    intro B P g fuel hj hfuel h
    obtain ⟨fuel, rfl⟩ : ∃ f, fuel = f + 1 := ⟨fuel - 1, by omega⟩
    obtain ⟨g1, r, e, h1, hins⟩ := GM_probe hS h
    rw [marianiSilverOriginal_unfold_mark, e, Option.some_bind]
    simp only
    by_cases h0 : r ≥ 0
    · rw [if_pos h0]
      exact GM_fill hS h1 h0 hins
    · have hsmall : B.size ≤ R.blockDim := by
        rw [hj]
        unfold Run.side
        simp
      rw [if_neg h0, if_pos hsmall]
      refine GM_compute hS h1 hsmall ?_
      intro hin
      rw [← (hins hin).1]
      exact h0
  | succ j ih =>
    intro B P g fuel hj hfuel h
    obtain ⟨fuel, rfl⟩ : ∃ f, fuel = f + 1 := ⟨fuel - 1, by omega⟩
    obtain ⟨g1, r, e, h1, hins⟩ := GM_probe hS h
    rw [marianiSilverOriginal_unfold_mark, e, Option.some_bind]
    simp only
    have hneg : ¬ r ≥ 0 → (B.atY < R.res ∧ B.atX < R.res) → ¬ 0 ≤ verdict R B := by
      intro h0 hin
      rw [← (hins hin).1]
      exact h0
    by_cases h0 : r ≥ 0
    · rw [if_pos h0]
      exact GM_fill hS h1 h0 hins
    · rw [if_neg h0]
      by_cases hsmall : B.size ≤ R.blockDim
      · rw [if_pos hsmall]
        exact GM_compute hS h1 hsmall (hneg h0)
      · have hsd : ¬ R.subDiv = 0 := by
          have := hS.2.2.1
          omega
        rw [if_neg hsmall, if_neg hsd]
        obtain ⟨h2, hsizes⟩ := GM_subdivide hS h1 (hneg h0) hsmall
        have hkids := hsizes j hj
        clear hsizes e h1 hins hneg h
        generalize children R.subDiv B = cs at h2 hkids
        induction cs generalizing g1 with
        | nil => exact ⟨g1, rfl, h2⟩
        | cons C cs ihc =>
          obtain ⟨g2, e2, h3⟩ := ih C (cs ++ P) g1 fuel
            (hkids C (List.mem_cons_self _ _)) (by omega) h2
          rw [List.foldlM_cons, e2]
          exact ihc g2 h3 (fun C' hC' => hkids C' (List.mem_cons_of_mem _ hC'))

theorem GM_init {R : Run} {k : Nat} (hS : Setup R k) :
    GM R k [⟨0, 0, R.side k⟩] (unsetGrid R.res) := by
  obtain ⟨hw, _, hP, _, hdone⟩ := GI_init hS
  exact ⟨hw, hP, List.pairwise_singleton _ _, fun y x p1 p2 hno => Or.inl (hdone y x p1 p2 hno)⟩

/-- The result of the sequential strategy with border marking: every cell holds the value it
has without marking, or a border sentinel. -/
theorem marked_result {R : Run} {k : Nat} (hS : Setup R k) (fuel : Nat) (hfuel : k < fuel) :
    ∃ g', marianiSilverOriginal R.res R.blockDim R.subDiv true R.pd R.cmin R.dc fuel
        (unsetGrid R.res) 0 0 (R.side k) = some g' ∧ WF R.res g' ∧
      ∀ y x, y < R.res → x < R.res →
        cell g' y x = finalVal R k 0 0 y x ∨ cell g' y x = dwellFill ∨
          cell g' y x = dwellCompute := by
  obtain ⟨g', e, hw, _, _, hdone⟩ :=
    dfs_mark_spec hS k ⟨0, 0, R.side k⟩ [] (unsetGrid R.res) fuel rfl hfuel (GM_init hS)
  exact ⟨g', e, hw, fun y x p1 p2 => hdone y x p1 p2 (fun _ hB => absurd hB (List.not_mem_nil _))⟩

/-- C22: for `res ≥ 1`, `blockDim ≥ 1`, `subDiv ≥ 2`, a root block `(0, 0, blockDim * subDiv ^ k)`
that covers the grid, and an evaluator with values in `[0, maxDwell]` where
`maxDwell < dwellCompute`, the runs of `marianiSilverOriginal` from the all-unset buffer with
and without border marking both return; no cell of the result without marking holds a
sentinel, and every cell of the result with marking that holds neither `dwellFill` nor
`dwellCompute` holds the value it has without marking. -/
theorem marking_is_visual (res blockDim subDiv maxDwell k : Nat) (pd : Evaluator)
    (cmin dc : Cplx) (hres : 1 ≤ res) (hbd : 1 ≤ blockDim) (hsd : 2 ≤ subDiv)
    (hcover : res ≤ blockDim * subDiv ^ k) (h32 : blockDim * subDiv ^ k < 2 ^ 32)
    (hmax : (maxDwell : Int) < dwellCompute) (hpd : ∀ y x, pd cmin dc y x ≤ maxDwell)
    (fuel : Nat) (hfuel : k < fuel) :
    ∃ gOn gOff,
      marianiSilverOriginal res blockDim subDiv true pd cmin dc fuel (unsetGrid res) 0 0
          (blockDim * subDiv ^ k) = some gOn ∧
      marianiSilverOriginal res blockDim subDiv false pd cmin dc fuel (unsetGrid res) 0 0
          (blockDim * subDiv ^ k) = some gOff ∧
      ∀ y x, y < res → x < res →
        cell gOff y x ≠ dwellFill ∧ cell gOff y x ≠ dwellCompute ∧
          (cell gOn y x ≠ dwellFill → cell gOn y x ≠ dwellCompute →
            cell gOn y x = cell gOff y x) := by
  have hmax' : maxDwell < 2 ^ 31 := by
    unfold dwellCompute at hmax
    omega
  have hpd' : ∀ y x, pd cmin dc y x < 2 ^ 31 := fun y x => Nat.lt_of_le_of_lt (hpd y x) hmax'
  have hS : Setup ⟨res, blockDim, subDiv, pd, cmin, dc⟩ k :=
    ⟨hres, hbd, hsd, h32, hcover, hpd'⟩
  obtain ⟨gOn, eOn, _, hOn⟩ := marked_result hS fuel hfuel
  obtain ⟨gOff, eOff, _, hOff⟩ := sequential_result hS fuel hfuel
  refine ⟨gOn, gOff, eOn, eOff, ?_⟩
  intro y x p1 p2
  have hle := finalVal_le ⟨res, blockDim, subDiv, pd, cmin, dc⟩ maxDwell hmax' hpd k 0 0 y x
  rw [hOff y x p1 p2]
  unfold dwellCompute at hmax
  refine ⟨?_, ?_, ?_⟩
  · unfold dwellFill
    omega
  · unfold dwellCompute
    omega
  · intro n1 n2
    rcases hOn y x p1 p2 with h | h | h
    · exact h
    · exact absurd h n1
    · exact absurd h n2

theorem marking_is_visual_witness :
    ∃ gOn gOff,
      marianiSilverOriginal 5 4 4 true (fun _ _ y x => (x / 3 + y / 3) % 2) ⟨0, 0⟩ ⟨0, 0⟩ 2
          (unsetGrid 5) 0 0 (4 * 4 ^ 1) = some gOn ∧
      marianiSilverOriginal 5 4 4 false (fun _ _ y x => (x / 3 + y / 3) % 2) ⟨0, 0⟩ ⟨0, 0⟩ 2
          (unsetGrid 5) 0 0 (4 * 4 ^ 1) = some gOff ∧
      ∀ y x, y < 5 → x < 5 →
        cell gOff y x ≠ dwellFill ∧ cell gOff y x ≠ dwellCompute ∧
          (cell gOn y x ≠ dwellFill → cell gOn y x ≠ dwellCompute →
            cell gOn y x = cell gOff y x) :=
  marking_is_visual 5 4 4 1 1 (fun _ _ y x => (x / 3 + y / 3) % 2) ⟨0, 0⟩ ⟨0, 0⟩ (by norm_num)
    (by norm_num) (by norm_num) (by norm_num) (by norm_num) (by decide)
    (by intro y x; show (x / 3 + y / 3) % 2 ≤ 1; omega) 2 (by norm_num)

/-! ## The queue protocol: jobs in the queue against `limit - counter` -/

theorem sum_map_set (f : Local → Nat) :
    ∀ (ls : List Local) (i : Nat) (l l' : Local), ls[i]? = some l →
      ((ls.set i l').map f).sum + f l = (ls.map f).sum + f l' := by
  intro ls
  induction ls with
  | nil =>
    intro i l l' h
    simp at h
  | cons a ls ih =>
    intro i l l' h
    cases i with
    | zero =>
      simp only [List.getElem?_cons_zero, Option.some.injEq] at h
      subst h
      simp only [List.set_cons_zero, List.map_cons, List.sum_cons]
      omega
    | succ i =>
      simp only [List.getElem?_cons_succ] at h
      have := ih i l l' h
      simp only [List.set_cons_succ, List.map_cons, List.sum_cons]
      omega

theorem pending_afterPush (cur : Job) (rest : List Job) :
    pending { pc := afterPush rest, currentTask := cur } = rest.length := by
  cases rest with
  | nil => rfl
  | cons t rest => rfl

/-- The effect of one step of a worker on the queue, the counters and the jobs the worker has
still to push. -/
theorem localStep_balance (res blockDim subDiv : Nat) (mark : Bool) (pd : Evaluator)
    (s : Shared) (held : Bool) (l : Local) (s' : Shared) (held' : Bool) (l' : Local)
    (h : localStep res blockDim subDiv mark pd s held l = Outcome.next (s', held', l'))
    (hguard : ∀ dwell, l.pc = Pc.raise dwell →
      s.limit + ((subDiv * subDiv : Nat) : Int) < 2 ^ 31)
    (h0 : 0 ≤ s.counter) (h1 : s.counter ≤ s.limit) (h2 : s.limit < 2 ^ 31) :
    (s'.queue.length : Int) + (pending l' : Int) - s'.limit + s'.counter =
        (s.queue.length : Int) + (pending l : Int) - s.limit + s.counter ∧
      0 ≤ s'.counter ∧ s'.limit < 2 ^ 31 := by
  obtain ⟨pc, cur⟩ := l
  cases pc with
  | loopTest =>
    simp only [localStep] at h
    split at h <;>
    · simp only [Outcome.next.injEq, Prod.mk.injEq] at h
      obtain ⟨rfl, _, rfl⟩ := h
      exact ⟨rfl, h0, h2⟩
  | lock =>
    simp only [localStep] at h
    split at h
    · exact absurd h (by simp)
    · simp only [Outcome.next.injEq, Prod.mk.injEq] at h
      obtain ⟨rfl, _, rfl⟩ := h
      exact ⟨rfl, h0, h2⟩
  | waitTest =>
    simp only [localStep] at h
    split at h <;>
    · simp only [Outcome.next.injEq, Prod.mk.injEq] at h
      obtain ⟨rfl, _, rfl⟩ := h
      exact ⟨rfl, h0, h2⟩
  | popTest =>
    simp only [localStep] at h
    split at h
    · rename_i hlt
      split at h
      · exact absurd h (by simp)
      · rename_i front rest hq
        simp only [Outcome.next.injEq, Prod.mk.injEq] at h
        obtain ⟨rfl, _, rfl⟩ := h
        have hc : toInt (toU32 (s.counter + 1)) = s.counter + 1 :=
          int_wrap_id (by omega) (by omega)
        simp only [hc, hq, List.length_cons]
        refine ⟨?_, by omega, h2⟩
        show ((rest.length : Int) + (0 : Nat) - s.limit + (s.counter + 1) =
          ((rest.length + 1 : Nat) : Int) + (0 : Nat) - s.limit + s.counter)
        push_cast
        ring
    · simp only [Outcome.next.injEq, Prod.mk.injEq] at h
      obtain ⟨rfl, _, rfl⟩ := h
      exact ⟨rfl, h0, h2⟩
  | job =>
    simp only [localStep] at h
    split at h
    · exact absurd h (by simp)
    · split at h
      · split at h
        · exact absurd h (by simp)
        · simp only [Outcome.next.injEq, Prod.mk.injEq] at h
          obtain ⟨rfl, _, rfl⟩ := h
          exact ⟨rfl, h0, h2⟩
      · split at h
        · split at h
          · exact absurd h (by simp)
          · simp only [Outcome.next.injEq, Prod.mk.injEq] at h
            obtain ⟨rfl, _, rfl⟩ := h
            exact ⟨rfl, h0, h2⟩
        · simp only [Outcome.next.injEq, Prod.mk.injEq] at h
          obtain ⟨rfl, _, rfl⟩ := h
          exact ⟨rfl, h0, h2⟩
  | raise dwell =>
    simp only [localStep] at h
    split at h
    · exact absurd h (by simp)
    · rename_i hsd
      simp only [Outcome.next.injEq, Prod.mk.injEq] at h
      obtain ⟨rfl, _, rfl⟩ := h
      have hg := hguard dwell rfl
      have hsq : ((subDiv * subDiv : Nat) : Int) < 2 ^ 31 := by omega
      have hsq' : subDiv * subDiv < 2 ^ 31 := by exact_mod_cast hsq
      have hw : toInt (wrap (subDiv * subDiv)) = ((subDiv * subDiv : Nat) : Int) := by
        rw [wrap_of_lt (by omega), toInt_of_lt hsq']
      have hlim : (raiseLimit subDiv s).limit = s.limit + ((subDiv * subDiv : Nat) : Int) := by
        unfold raiseLimit
        simp only
        rw [hw, int_wrap_id (by omega) hg]
      have hq : (raiseLimit subDiv s).queue = s.queue := rfl
      have hc : (raiseLimit subDiv s).counter = s.counter := rfl
      rw [pending_afterPush, childJobs_length, hlim, hq, hc]
      refine ⟨?_, h0, hg⟩
      show _ = (s.queue.length : Int) + ((0 : Nat) : Int) - s.limit + s.counter
      push_cast
      ring
  | push rest =>
    cases rest with
    | nil =>
      simp only [localStep, Outcome.next.injEq, Prod.mk.injEq] at h
      obtain ⟨rfl, _, rfl⟩ := h
      exact ⟨rfl, h0, h2⟩
    | cons task rest =>
      simp only [localStep] at h
      split at h
      · exact absurd h (by simp)
      · simp only [Outcome.next.injEq, Prod.mk.injEq] at h
        obtain ⟨rfl, _, rfl⟩ := h
        rw [pending_afterPush]
        refine ⟨?_, h0, h2⟩
        show (((s.queue ++ [task]).length : Nat) : Int) + (rest.length : Int) - s.limit +
          s.counter = (s.queue.length : Int) + ((rest.length + 1 : Nat) : Int) - s.limit +
            s.counter
        rw [List.length_append, List.length_singleton]
        push_cast
        ring
  | done =>
    simp only [localStep] at h
    exact absurd h (by simp)

theorem workerStep_next {res blockDim subDiv : Nat} {mark : Bool} {pd : Evaluator} {w w' : World}
    {i : Nat} (h : workerStep res blockDim subDiv mark pd w i = Outcome.next w') :
    ∃ l s' held' l', w.locals[i]? = some l ∧
      localStep res blockDim subDiv mark pd w.shared w.held l = Outcome.next (s', held', l') ∧
      w' = ⟨s', held', w.locals.set i l'⟩ := by
  unfold workerStep at h
  cases hl : w.locals[i]? with
  | none =>
    rw [hl] at h
    exact absurd h (by simp)
  | some l =>
    rw [hl] at h
    simp only at h
    cases hs : localStep res blockDim subDiv mark pd w.shared w.held l with
    | blocked =>
      rw [hs] at h
      exact absurd h (by simp)
    | undefined =>
      rw [hs] at h
      exact absurd h (by simp)
    | next r =>
      rw [hs] at h
      simp only [Outcome.next.injEq] at h
      exact ⟨l, r.1, r.2.1, r.2.2, rfl, hs, h.symm⟩

theorem workerStep_of_local {res blockDim subDiv : Nat} {mark : Bool} {pd : Evaluator}
    {w : World} {i : Nat} {l : Local} {s' : Shared} {held' : Bool} {l' : Local}
    (hl : w.locals[i]? = some l)
    (hs : localStep res blockDim subDiv mark pd w.shared w.held l =
      Outcome.next (s', held', l')) :
    workerStep res blockDim subDiv mark pd w i = Outcome.next ⟨s', held', w.locals.set i l'⟩ := by
  unfold workerStep
  rw [hl]
  simp only [hs]

theorem pendingPushes_start (g0 : Grid) (root : Job) (n : Nat) :
    pendingPushes (startWorld g0 root n) = 0 := by
  unfold pendingPushes startWorld
  simp only
  induction n with
  | zero => rfl
  | succ n ih =>
    rw [List.replicate_succ, List.map_cons, List.sum_cons, ih]
    rfl

/-- The invariant of the queue strategy while `limit` does not overflow: the jobs in the queue
and the jobs that workers inside the loops of a Subdivide branch have still to push are the
jobs counted in `limit` and not in `counter`. -/
theorem reachable_inv {res blockDim subDiv : Nat} {mark : Bool} {pd : Evaluator} {g0 : Grid}
    {root : Job} {n : Nat} {w : World}
    (h : Reachable res blockDim subDiv mark pd (noOverflow subDiv) (startWorld g0 root n) w) :
    (w.shared.queue.length : Int) + (pendingPushes w : Int) =
        w.shared.limit - w.shared.counter ∧
      0 ≤ w.shared.counter ∧ w.shared.limit < 2 ^ 31 := by
  induction h with
  | init =>
    rw [pendingPushes_start]
    simp [startWorld]
  | @step w w' i _ hok hstep ih =>
    obtain ⟨i1, i2, i3⟩ := ih
    obtain ⟨l, s', held', l', hl, hs, rfl⟩ := workerStep_next hstep
    have hp : (0 : Int) ≤ (pendingPushes w : Int) := Int.ofNat_nonneg _
    have hq : (0 : Int) ≤ (w.shared.queue.length : Int) := Int.ofNat_nonneg _
    obtain ⟨b1, b2, b3⟩ := localStep_balance res blockDim subDiv mark pd w.shared w.held l s'
      held' l' hs (fun dwell hpc => hok l dwell hl hpc) i2 (by omega) i3
    have hsum := sum_map_set pending w.locals i l l' hl
    refine ⟨?_, b2, b3⟩
    show (s'.queue.length : Int) + (((w.locals.set i l').map pending).sum : Int) =
      s'.limit - s'.counter
    have hsum' : ((((w.locals.set i l').map pending).sum : Nat) : Int) + (pending l : Int) =
        ((pendingPushes w : Nat) : Int) + (pending l' : Int) := by
      unfold pendingPushes
      exact_mod_cast hsum
    omega

/-- C19 (as amended): in every state that the workers reach from the start of the queue
strategy (root job enqueued, `limit = 1`, `counter = 0`, any number of workers) by steps with
defined behaviour, in any interleaving, and in which no addition `limit += subDiv * subDiv` has
overflowed `int`, every job in the queue and every job that a worker inside the loops of its
Subdivide branch has still to push is counted in `limit`: the number of jobs in the queue is
at most `limit - counter`, and `counter` does not exceed `limit`. -/
theorem queue_at_most_limit_minus_counter (res blockDim subDiv : Nat) (mark : Bool)
    (pd : Evaluator) (g0 : Grid) (root : Job) (n : Nat) (w : World)
    (h : Reachable res blockDim subDiv mark pd (noOverflow subDiv) (startWorld g0 root n) w) :
    (w.shared.queue.length : Int) + (pendingPushes w : Int) =
        w.shared.limit - w.shared.counter ∧
      (w.shared.queue.length : Int) ≤ w.shared.limit - w.shared.counter ∧
      w.shared.counter ≤ w.shared.limit := by
  obtain ⟨i1, _, _⟩ := reachable_inv h
  have hp : (0 : Int) ≤ (pendingPushes w : Int) := Int.ofNat_nonneg _
  have hq : (0 : Int) ≤ (w.shared.queue.length : Int) := Int.ofNat_nonneg _
  exact ⟨i1, by omega, by omega⟩

theorem reachable_trans {res blockDim subDiv : Nat} {mark : Bool} {pd : Evaluator}
    {ok : World → Nat → Prop} {w0 w1 w2 : World}
    (h1 : Reachable res blockDim subDiv mark pd ok w0 w1)
    (h2 : Reachable res blockDim subDiv mark pd ok w1 w2) :
    Reachable res blockDim subDiv mark pd ok w0 w2 := by
  induction h2 with
  | init => exact h1
  | step i _ hok hstep ih => exact Reachable.step i ih hok hstep

/-- A state computed by `runSchedule` is reached without overflow of `limit`. -/
theorem runSchedule_reachable {res blockDim subDiv : Nat} {mark : Bool} {pd : Evaluator} :
    ∀ (sched : List Nat) (w0 w1 w : World),
      Reachable res blockDim subDiv mark pd (noOverflow subDiv) w0 w1 →
      runSchedule res blockDim subDiv mark pd sched w1 = Outcome.next w →
      Reachable res blockDim subDiv mark pd (noOverflow subDiv) w0 w := by
  intro sched
  induction sched with
  | nil =>
    intro w0 w1 w h1 h
    simp only [runSchedule, Outcome.next.injEq] at h
    rw [← h]
    exact h1
  | cons i sched ih =>
    intro w0 w1 w h1 h
    rw [runSchedule] at h
    split at h
    · rename_i hb
      cases hs : workerStep res blockDim subDiv mark pd w1 i with
      | blocked =>
        rw [hs] at h
        exact absurd h (by simp)
      | undefined =>
        rw [hs] at h
        exact absurd h (by simp)
      | next w' =>
        rw [hs] at h
        exact ih w0 w' w (Reachable.step i h1 (fun _ _ _ _ => hb) hs) h
    · exact absurd h (by simp)

theorem queue_at_most_limit_minus_counter_witness :
    ∃ w, Reachable 5 4 4 false (fun _ _ y x => (x / 3 + y / 3) % 2) (noOverflow 4)
        (startWorld (unsetGrid 5) ⟨0, 0, 0, 16, ⟨0, 0⟩, ⟨0, 0⟩⟩ 2) w ∧
      w.shared.queue.length = 1 ∧ pendingPushes w = 15 ∧ w.shared.limit = 17 ∧
      w.shared.counter = 1 ∧
      ((w.shared.queue.length : Int) + (pendingPushes w : Int) =
          w.shared.limit - w.shared.counter ∧
        (w.shared.queue.length : Int) ≤ w.shared.limit - w.shared.counter ∧
        w.shared.counter ≤ w.shared.limit) := by
  have hr : Reachable 5 4 4 false (fun _ _ y x => (x / 3 + y / 3) % 2) (noOverflow 4)
      (startWorld (unsetGrid 5) ⟨0, 0, 0, 16, ⟨0, 0⟩, ⟨0, 0⟩⟩ 2) _ :=
    runSchedule_reachable [0, 0, 0, 0, 0, 0, 0] _ _ _ Reachable.init rfl
  exact ⟨_, hr, rfl, rfl, rfl, rfl,
    queue_at_most_limit_minus_counter 5 4 4 false (fun _ _ y x => (x / 3 + y / 3) % 2)
      (unsetGrid 5) ⟨0, 0, 0, 16, ⟨0, 0⟩, ⟨0, 0⟩⟩ 2 _ hr⟩

theorem localStep_job_subdivide (res blockDim subDiv : Nat) (mark : Bool) (pd : Evaluator)
    (s : Shared) (held : Bool) (t : Job) (g1 : Grid) (r : Int)
    (hprobe : commonBorder res pd t.cmin t.dc s.buf t.atY t.atX t.blockSize = some (g1, r))
    (hr : r < 0) (hbig : blockDim < t.blockSize) :
    localStep res blockDim subDiv mark pd s held ⟨Pc.job, t⟩ =
      Outcome.next ({ s with buf := g1 }, held, ⟨Pc.raise r, t⟩) := by
  have h1 : ¬ r ≥ 0 := by omega
  have h2 : ¬ t.blockSize ≤ blockDim := by omega
  simp only [localStep, hprobe, h1, h2, if_false]

theorem localStep_raise (res blockDim subDiv : Nat) (mark : Bool) (pd : Evaluator)
    (s : Shared) (held : Bool) (t : Job) (dwell : Int) (hsd : subDiv ≠ 0) :
    localStep res blockDim subDiv mark pd s held ⟨Pc.raise dwell, t⟩ =
      Outcome.next (raiseLimit subDiv s, held,
        ⟨afterPush (childJobs subDiv dwell t.cmin t.dc (blockOf t)), t⟩) := by
  simp only [localStep, hsd, if_false]

theorem single_step {res blockDim subDiv : Nat} {mark : Bool} {pd : Evaluator} {w0 : World}
    {s : Shared} {held : Bool} {l : Local} (s' : Shared) (held' : Bool) (l' : Local)
    (h : Reachable res blockDim subDiv mark pd (fun _ _ => True) w0 ⟨s, held, [l]⟩)
    (hs : localStep res blockDim subDiv mark pd s held l = Outcome.next (s', held', l')) :
    Reachable res blockDim subDiv mark pd (fun _ _ => True) w0 ⟨s', held', [l']⟩ :=
  Reachable.step 0 h trivial
    (@workerStep_of_local res blockDim subDiv mark pd ⟨s, held, [l]⟩ 0 l s' held' l' rfl hs)

/-- The probe of the root block `(0, 0, 4 * 46341)` on the all-unset 5 × 5 buffer, for the
evaluator `x % 2`, is heterogeneous. -/
theorem wide_root_probe :
    ∃ g1 r, commonBorder 5 (fun _ _ _ x => x % 2) ⟨0, 0⟩ ⟨0, 0⟩ (unsetGrid 5) 0 0
        (4 * 46341 ^ 1) = some (g1, r) ∧ r < 0 := by
  have hpd : ∀ y x : Nat,
      (fun (_ _ : Cplx) (_ x : Nat) => x % 2) ⟨0, 0⟩ ⟨0, 0⟩ y x < 2 ^ 31 := by
    intro _ x
    show x % 2 < 2 ^ 31
    omega
  obtain ⟨g1, r, e, _, _, hr⟩ := @commonBorder_spec 5 (fun _ _ _ x => x % 2) ⟨0, 0⟩ ⟨0, 0⟩ hpd
    (unsetGrid 5) (WF_unsetGrid 5) 0 0 (4 * 46341 ^ 1)
  refine ⟨g1, r, e, ?_⟩
  rcases hr with ⟨_, hall, _⟩ | ⟨h, _⟩
  · exfalso
    have hS1 : 1 ≤ (⟨0, 0, 4 * 46341 ^ 1⟩ : Block).size := by
      show 1 ≤ 4 * 46341 ^ 1
      norm_num
    have hS2 : (⟨0, 0, 4 * 46341 ^ 1⟩ : Block).atY + (⟨0, 0, 4 * 46341 ^ 1⟩ : Block).size <
        2 ^ 32 := by
      show 0 + 4 * 46341 ^ 1 < 2 ^ 32
      norm_num
    have w0 : ((0 : Nat), (0 : Nat)) ∈ borderWalk 5 0 0 (4 * 46341 ^ 1) :=
      edge_mem_walk hS1 hS2 hS2 (by decide) (by decide)
        ⟨⟨le_refl _, by show 0 < 0 + 4 * 46341 ^ 1; norm_num, le_refl _,
          by show 0 < 0 + 4 * 46341 ^ 1; norm_num⟩, by decide, by decide, Or.inl rfl⟩
    have w1 : ((0 : Nat), (1 : Nat)) ∈ borderWalk 5 0 0 (4 * 46341 ^ 1) :=
      edge_mem_walk hS1 hS2 hS2 (by decide) (by decide)
        ⟨⟨le_refl _, by show 0 < 0 + 4 * 46341 ^ 1; norm_num, Nat.zero_le _,
          by show 1 < 0 + 4 * 46341 ^ 1; norm_num⟩, by decide, by decide, Or.inl rfl⟩
    have m0 := (hall _ w0 (by decide) (by decide)).2
    have m1 := (hall _ w1 (by decide) (by decide)).2
    rw [memo_unsetGrid _ _ _ (by decide) (by decide)] at m0 m1
    rw [← m1] at m0
    revert m0
    decide
  · omega

/-- C19 (counterexample): with `subDiv = 46341` the product `subDiv * subDiv = 2147488281`
exceeds `INT_MAX`.  A single worker on the 5 × 5 grid with `blockDim = 4` pops the root job
`(0, 0, 4 * 46341)` (`counter = 1`), finds its border heterogeneous and executes
`limit += subDiv * subDiv`: then `limit = -2147479014` is below `counter`. -/
theorem limit_overflows_below_counter :
    ∃ w, Reachable 5 4 46341 false (fun _ _ _ x => x % 2) (fun _ _ => True)
        (startWorld (unsetGrid 5) ⟨0, 0, 0, 4 * 46341 ^ 1, ⟨0, 0⟩, ⟨0, 0⟩⟩ 1) w ∧
      w.shared.limit = -2147479014 ∧ w.shared.counter = 1 ∧
      w.shared.limit < w.shared.counter := by
  obtain ⟨g1, r, e, hneg⟩ := wide_root_probe
  have r0 : Reachable 5 4 46341 false (fun _ _ _ x => x % 2) (fun _ _ => True)
      (startWorld (unsetGrid 5) ⟨0, 0, 0, 4 * 46341 ^ 1, ⟨0, 0⟩, ⟨0, 0⟩⟩ 1)
      ⟨⟨unsetGrid 5, [⟨0, 0, 0, 4 * 46341 ^ 1, ⟨0, 0⟩, ⟨0, 0⟩⟩], 0, 1⟩, false,
        [⟨Pc.loopTest, emptyTask⟩]⟩ := Reachable.init
  have r1 := single_step ⟨unsetGrid 5, [⟨0, 0, 0, 4 * 46341 ^ 1, ⟨0, 0⟩, ⟨0, 0⟩⟩], 0, 1⟩ false
    ⟨Pc.lock, emptyTask⟩ r0 (by decide)
  have r2 := single_step ⟨unsetGrid 5, [⟨0, 0, 0, 4 * 46341 ^ 1, ⟨0, 0⟩, ⟨0, 0⟩⟩], 0, 1⟩ true
    ⟨Pc.waitTest, emptyTask⟩ r1 (by decide)
  have r3 := single_step ⟨unsetGrid 5, [⟨0, 0, 0, 4 * 46341 ^ 1, ⟨0, 0⟩, ⟨0, 0⟩⟩], 0, 1⟩ true
    ⟨Pc.popTest, emptyTask⟩ r2 (by decide)
  have r4 := single_step ⟨unsetGrid 5, [], 1, 1⟩ false
    ⟨Pc.job, ⟨0, 0, 0, 4 * 46341 ^ 1, ⟨0, 0⟩, ⟨0, 0⟩⟩⟩ r3 (by decide)
  have r5 := single_step _ _ _ r4 (localStep_job_subdivide 5 4 46341 false
    (fun _ _ _ x => x % 2) ⟨unsetGrid 5, [], 1, 1⟩ false
    ⟨0, 0, 0, 4 * 46341 ^ 1, ⟨0, 0⟩, ⟨0, 0⟩⟩ g1 r e hneg (by norm_num))
  have r6 := single_step _ _ _ r5 (localStep_raise 5 4 46341 false (fun _ _ _ x => x % 2) _
    false ⟨0, 0, 0, 4 * 46341 ^ 1, ⟨0, 0⟩, ⟨0, 0⟩⟩ r (by decide))
  refine ⟨_, r6, ?_, ?_, ?_⟩
  · show toInt (toU32 (1 + toInt (wrap (46341 * 46341)))) = -2147479014
    decide
  · rfl
  · show toInt (toU32 (1 + toInt (wrap (46341 * 46341)))) < 1
    decide

/-- The workers can pop from an empty deque.  With two workers on the 5 × 5 grid, worker 1
passes `while (counter < limit)`; worker 0 pops the root job; worker 1 takes the mutex and
leaves its wait loop because `counter = limit = 1`; worker 0 finds the border of the root
block heterogeneous and raises `limit` to 17; then worker 1, at `if (counter < limit)` with
the queue still empty, executes `queue.front()`. -/
theorem pop_on_empty_deque :
    ∃ w, Reachable 5 4 4 false (fun _ _ y x => (x / 3 + y / 3) % 2) (noOverflow 4)
        (startWorld (unsetGrid 5) ⟨0, 0, 0, 16, ⟨0, 0⟩, ⟨0, 0⟩⟩ 2) w ∧
      w.shared.queue = [] ∧ w.shared.counter = 1 ∧ w.shared.limit = 17 ∧
      workerStep 5 4 4 false (fun _ _ y x => (x / 3 + y / 3) % 2) w 1 = Outcome.undefined := by
  refine ⟨_, runSchedule_reachable [1, 0, 0, 0, 0, 1, 1, 0, 0] _ _ _ Reachable.init rfl, ?_, ?_,
    ?_, ?_⟩
  · rfl
  · rfl
  · rfl
  · rfl

/-! ## A single worker in the interleaved steps -/

theorem push_steps {res blockDim subDiv : Nat} {mark : Bool} {pd : Evaluator} {w0 : World}
    (t : Job) :
    ∀ (rest : List Job) (s : Shared),
      Reachable res blockDim subDiv mark pd (fun _ _ => True) w0
        ⟨s, false, [⟨afterPush rest, t⟩]⟩ →
      Reachable res blockDim subDiv mark pd (fun _ _ => True) w0
        ⟨rest.foldl addWork s, false, [⟨Pc.loopTest, t⟩]⟩ := by
  intro rest
  induction rest with
  | nil =>
    intro s h
    exact h
  | cons task rest ih =>
    intro s h
    rw [List.foldl_cons]
    apply ih
    refine single_step _ _ _ h ?_
    simp only [afterPush, localStep, Bool.false_eq_true, if_false]

/-- The steps of a worker through one call of `marianiSilverJob` end in the state that the
function `marianiSilverJob` returns. -/
theorem job_steps {res blockDim subDiv : Nat} {mark : Bool} {pd : Evaluator} {w0 : World}
    (s : Shared) (t : Job) (s1 : Shared)
    (hjob : marianiSilverJob res blockDim subDiv mark pd s t.cmin t.dc t.atY t.atX t.blockSize =
      some s1)
    (h : Reachable res blockDim subDiv mark pd (fun _ _ => True) w0 ⟨s, false, [⟨Pc.job, t⟩]⟩) :
    Reachable res blockDim subDiv mark pd (fun _ _ => True) w0
      ⟨s1, false, [⟨Pc.loopTest, t⟩]⟩ := by
  cases hp : commonBorder res pd t.cmin t.dc s.buf t.atY t.atX t.blockSize with
  | none =>
    unfold marianiSilverJob at hjob
    rw [hp] at hjob
    exact absurd hjob (by simp)
  | some pr =>
    obtain ⟨g1, r⟩ := pr
    by_cases h0 : r ≥ 0
    · unfold marianiSilverJob at hjob
      rw [hp, Option.some_bind] at hjob
      simp only [h0, if_true] at hjob
      cases hf : fillBlock res g1 r t.atY t.atX t.blockSize 0 with
      | none =>
        rw [hf] at hjob
        exact absurd hjob (by simp)
      | some g2 =>
        rw [hf, Option.some_bind] at hjob
        cases hm : (if mark = true then markBorder res g2 dwellFill t.atY t.atX t.blockSize
            else some g2) with
        | none =>
          rw [hm] at hjob
          exact absurd hjob (by simp)
        | some g3 =>
          rw [hm] at hjob
          simp only [Option.map_some', Option.some.injEq] at hjob
          rw [← hjob]
          refine single_step _ _ _ h ?_
          simp only [localStep, hp, h0, if_true, hf, Option.some_bind, hm]
    · by_cases hsmall : t.blockSize ≤ blockDim
      · unfold marianiSilverJob at hjob
        rw [hp, Option.some_bind] at hjob
        simp only [h0, if_false, hsmall, if_true] at hjob
        cases hf : computeBlock res pd t.cmin t.dc g1 t.atY t.atX t.blockSize 0 with
        | none =>
          rw [hf] at hjob
          exact absurd hjob (by simp)
        | some g2 =>
          rw [hf, Option.some_bind] at hjob
          cases hm : (if mark = true then
              markBorder res g2 dwellCompute t.atY t.atX t.blockSize else some g2) with
          | none =>
            rw [hm] at hjob
            exact absurd hjob (by simp)
          | some g3 =>
            rw [hm] at hjob
            simp only [Option.map_some', Option.some.injEq] at hjob
            rw [← hjob]
            refine single_step _ _ _ h ?_
            simp only [localStep, hp, h0, if_false, hsmall, if_true, hf, Option.some_bind, hm]
      · by_cases hsd : subDiv = 0
        · unfold marianiSilverJob at hjob
          rw [hp, Option.some_bind] at hjob
          simp only [h0, if_false, hsmall, hsd, if_true] at hjob
          exact absurd hjob (by simp)
        · rw [marianiSilverJob_subdivide res blockDim subDiv mark pd s t.cmin t.dc t.atY t.atX
            t.blockSize g1 r hp (by omega) (by omega) hsd] at hjob
          simp only [Option.some.injEq] at hjob
          rw [← hjob]
          apply push_steps t
          have h1 := single_step _ _ _ h
            (localStep_job_subdivide res blockDim subDiv mark pd s false t g1 r hp (by omega)
              (by omega))
          exact single_step _ _ _ h1
            (localStep_raise res blockDim subDiv mark pd _ false t r hsd)

/-- The function `worker` describes a run of the interleaved steps with a single worker: the
state it returns is reached, with the worker past its loop. -/
theorem worker_reachable (res blockDim subDiv : Nat) (mark : Bool) (pd : Evaluator)
    (w0 : World) :
    ∀ (fuel : Nat) (s : Shared) (cur : Job) (s' : Shared),
      worker res blockDim subDiv mark pd fuel s cur = some s' →
      Reachable res blockDim subDiv mark pd (fun _ _ => True) w0
        ⟨s, false, [⟨Pc.loopTest, cur⟩]⟩ →
      ∃ cur', Reachable res blockDim subDiv mark pd (fun _ _ => True) w0
        ⟨s', false, [⟨Pc.done, cur'⟩]⟩ := by
  intro fuel
  induction fuel with
  | zero =>
    intro s cur s' h _
    simp only [worker] at h
    exact absurd h (by simp)
  | succ fuel ih =>
    intro s cur s' h hr
    rw [worker] at h
    by_cases hlt : s.counter < s.limit
    · rw [if_pos hlt] at h
      cases hq : s.queue with
      | nil =>
        rw [hq] at h
        exact absurd h (by simp)
      | cons front rest =>
        rw [hq] at h
        simp only at h
        cases hj : marianiSilverJob res blockDim subDiv mark pd
            { s with queue := rest, counter := toInt (toU32 (s.counter + 1)) }
            front.cmin front.dc front.atY front.atX front.blockSize with
        | none =>
          rw [hj] at h
          exact absurd h (by simp)
        | some s1 =>
          rw [hj, Option.some_bind] at h
          have r1 := single_step s false ⟨Pc.lock, cur⟩ hr
            (by simp only [localStep, hlt, if_true])
          have r2 := single_step s true ⟨Pc.waitTest, cur⟩ r1
            (by simp only [localStep, Bool.false_eq_true, if_false])
          have r3 := single_step s true ⟨Pc.popTest, cur⟩ r2
            (by simp only [localStep, hq, List.cons_ne_nil, false_and, if_false])
          have r4 := single_step
            { s with queue := rest, counter := toInt (toU32 (s.counter + 1)) } false
            ⟨Pc.job, { front with dwell := cur.dwell }⟩ r3
            (by simp only [localStep, hlt, if_true, hq])
          exact ih s1 _ s' h (job_steps _ { front with dwell := cur.dwell } s1 hj r4)
    · rw [if_neg hlt] at h
      simp only [Option.some.injEq] at h
      rw [← h]
      exact ⟨cur, single_step s false ⟨Pc.done, cur⟩ hr (by simp only [localStep, hlt, if_false])⟩


end Mandel
